import Mathlib

/-!
# Vocabulary builder, Huffman tree and training step of `word2vec.c`

A shallow embedding of the tokenizer (`ReadWord`), the open-addressing hash
index (`GetWordHash`, `AddWordToVocab`, `SearchVocab`), the pruning pass
(`ReduceVocab`), the finalisation pass (`SortVocab`), the counting loop of
`LearnVocabFromTrainFile`, the Huffman tree (`CreateBinaryTree`), the unigram
table (`InitUnigramTable`), and of `TrainModelThread` the learning rate, the
refill of the sentence buffer, the hidden vector of a CBOW step, the index
into the sigmoid table and the hierarchical softmax step, followed by the
properties proved about them.

Conventions of the embedding.

* A C string is the list of its bytes (each in `1..255`), without the
  terminating NUL.
* The array `vocab` is a list of cells; `vocab_size` is kept beside it, as in
  the source, because `SortVocab` lowers `vocab_size` without moving cells.
* The array `vocab_hash` is a function from slot to stored value; only the
  slots below the capacity are ever read or written.
* The capacity `vocab_hash_size` is a parameter `H` of every operation; the
  program fixes it to `30000000`.
* A probe loop that never stops is the result `none`.
* The counters `cn`, `train_words`, `min_reduce` are unbounded integers: the
  source's signed counters have no defined behaviour on overflow.
* The work arrays of `CreateBinaryTree` are functions of the index; the sum
  stored for a created node is wrapped to 64 bits.  The arrays `code` and
  `point` of a word are the lists of the cells written, without a capacity;
  `CreateBinaryTree.walk` and `CreateBinaryTree.store` follow the same stores
  against the `MAX_CODE_LENGTH` cells that the arrays have.
* The floating-point values of `InitUnigramTable` are left open (any type, any
  addition, any outcome of the comparisons); the sigmoid index is taken over
  exact rationals; the cells of `neu1` and `syn0` are of any type with an
  addition, added in the order of the loop.
* The training step is taken over exact rationals with the sigmoid table as a
  parameter; the bodies that the source leaves as `//TODO` change nothing.
-/

namespace Word2Vec

/-! ## Data model -/

/-- The fields `cn` and `word` of `struct vocab_word`. -/
structure vocab_word where
  cn : Int
  word : List Nat
deriving DecidableEq

instance : Inhabited vocab_word := ⟨⟨0, []⟩⟩

/-- The constant `MAX_STRING`. -/
def MAX_STRING : Nat := 100

/-- The constant `vocab_hash_size` of the program. -/
def vocab_hash_size : Nat := 30000000

/-- The bytes of the string literal `"</s>"`. -/
def eos : List Nat := [60, 47, 115, 62]

/-- The globals the vocabulary builder reads and writes. -/
structure State where
  vocab : List vocab_word
  vocab_size : Nat
  vocab_hash : Nat → Int
  min_reduce : Int
  train_words : Int

/-! ## Tokenizer -/

/-- A `FILE *` opened for reading: the bytes not yet read (a byte pushed back
by `ungetc` is put in front) and the end-of-file indicator. -/
structure FILE where
  data : List Nat
  eof : Bool
deriving DecidableEq

/-- The C string held by a char buffer: its bytes up to the first NUL. -/
def cstr (buf : List Nat) : List Nat := buf.takeWhile (fun c => c != 0)

/-- The store `word[a] = ch; a++; if (a >= MAX_STRING - 1) a--;` of `ReadWord`.
The list `buf` is `word[0..a)`. When `a` is already `MAX_STRING - 2` the byte
goes to `word[MAX_STRING - 2]` and `a` stays, so `word[0..a)` is unchanged
(the cell is overwritten by the next store or by the final NUL). -/
def ReadWord.store (buf : List Nat) (ch : Nat) : List Nat :=
  if buf.length + 1 ≥ MAX_STRING - 1 then buf else buf ++ [ch]

/-- The loop of `ReadWord` entered with the end-of-file indicator clear, on
the unread bytes `data` and with `word[0..a) = buf`. Returns `word[0..a)`
at the exit (the caller then stores the NUL) or the copied `"</s>"`, and the
file afterwards. At the end of the data `fgetc` returns `EOF`, which is stored
as the byte `255`, and sets the indicator, which ends the loop. -/
def ReadWord.loop : List Nat → List Nat → List Nat × FILE
  | [], buf => (ReadWord.store buf 255, ⟨[], true⟩)
  | ch :: rest, buf =>
    if ch = 13 then ReadWord.loop rest buf
    else if ch = 32 ∨ ch = 9 ∨ ch = 10 then
      if buf.length > 0 then
        (buf, ⟨if ch = 10 then ch :: rest else rest, false⟩)
      else if ch = 10 then (eos, ⟨rest, false⟩)
      else ReadWord.loop rest buf
    else ReadWord.loop rest (ReadWord.store buf ch)

/-- The function `ReadWord`: the C string left in `word` and the file
afterwards. -/
def ReadWord (fin : FILE) : List Nat × FILE :=
  if fin.eof then ([], fin)
  else ((ReadWord.loop fin.data []).1 |> cstr, (ReadWord.loop fin.data []).2)

/-- The reading loop shared by `LearnVocabFromTrainFile` and `ReadVocab`:
`while (1) { ReadWord(word, fin); if (feof(fin)) break; ... }`, giving the
words handed to the loop body, in order. Each round that does not break
shortens the unread data, so `fuel` above its length is never used up. -/
def readWords : Nat → FILE → List (List Nat)
  | 0, _ => []
  | fuel + 1, fin =>
    if (ReadWord fin).2.eof then [] else (ReadWord fin).1 :: readWords fuel (ReadWord fin).2

/-- The words delivered from a freshly opened file with the given content. -/
def tokens (bytes : List Nat) : List (List Nat) :=
  readWords (bytes.length + 1) ⟨bytes, false⟩

/-! ## Hash index -/

/-- The value of a `char` holding the byte `c` (`char` is signed). -/
def charVal (c : Nat) : Int := if c < 128 then (c : Int) else (c : Int) - 256

/-- The function `GetWordHash`, with `unsigned long long` arithmetic. -/
def GetWordHash (H : Nat) (word : List Nat) : Nat :=
  ((word.foldl (fun hash c => (hash * 257 + charVal c) % (2 ^ 64 : Int)) (0 : Int)) % (H : Int)).toNat

/-- The loop `while (vocab_hash[hash] != -1) hash = (hash + 1) % vocab_hash_size;`
run for at most `fuel` rounds: the slot it stops at. The loop state is `hash`
alone, so with `fuel = H` the result `none` means the loop never stops. -/
def probeEmpty (H : Nat) (vocab_hash : Nat → Int) : Nat → Nat → Option Nat
  | 0, _ => none
  | fuel + 1, hash =>
    if vocab_hash hash ≠ -1 then probeEmpty H vocab_hash fuel ((hash + 1) % H) else some hash

/-- The function `AddWordToVocab`: the new cell is written at index
`vocab_size` with count `0`, then its index is stored in the first free slot
from the word's hash on. -/
def AddWordToVocab (H : Nat) (word : List Nat) (s : State) : Option State :=
  match probeEmpty H s.vocab_hash H (GetWordHash H word) with
  | none => none
  | some hash =>
    some { s with
      vocab := s.vocab.take s.vocab_size ++ [⟨0, word⟩]
      vocab_size := s.vocab_size + 1
      vocab_hash := Function.update s.vocab_hash hash (s.vocab_size : Int) }

/-- The loop of `SearchVocab` run for at most `fuel` rounds. A stored index
outside the cells of `vocab` reads the default cell. -/
def SearchVocab.loop (H : Nat) (s : State) (word : List Nat) : Nat → Nat → Option Int
  | 0, _ => none
  | fuel + 1, hash =>
    if s.vocab_hash hash = -1 then some (-1)
    else if word = (s.vocab.getD (s.vocab_hash hash).toNat default).word then
      some (s.vocab_hash hash)
    else SearchVocab.loop H s word fuel ((hash + 1) % H)

/-- The function `SearchVocab`. -/
def SearchVocab (H : Nat) (s : State) (word : List Nat) : Option Int :=
  SearchVocab.loop H s word H (GetWordHash H word)

/-- The rebuilding loop of `ReduceVocab`,
`for (a = 0; a < vocab_size; a++) { hash = GetWordHash(vocab[a].word); ... vocab_hash[hash] = a; }`,
from index `a` on over the remaining cells. -/
def ReduceVocab.rehash (H : Nat) : List vocab_word → Nat → (Nat → Int) → Option (Nat → Int)
  | [], _, vh => some vh
  | v :: rest, a, vh =>
    match probeEmpty H vh H (GetWordHash H v.word) with
    | none => none
    | some hash => ReduceVocab.rehash H rest (a + 1) (Function.update vh hash (a : Int))

/-- The compaction loop of `ReduceVocab`,
`for (a = 0; a < vocab_size; a++) if (vocab[a].cn > min_reduce) { vocab[b] = vocab[a]; b++; }`,
with `n` rounds left: the array and `b` at the exit. -/
def ReduceVocab.compact (min_reduce : Int) :
    Nat → Nat → Nat → List vocab_word → List vocab_word × Nat
  | 0, _, b, vocab => (vocab, b)
  | n + 1, a, b, vocab =>
    if (vocab.getD a default).cn > min_reduce then
      ReduceVocab.compact min_reduce n (a + 1) (b + 1) (vocab.set b (vocab.getD a default))
    else ReduceVocab.compact min_reduce n (a + 1) b vocab

/-- The function `ReduceVocab`: in-place compaction of the cells with
`cn > min_reduce`, `vocab_size = b`, reset and rebuild of the hash index,
`min_reduce++`. The cells from the new `vocab_size` on are dead and are
dropped from the list. -/
def ReduceVocab (H : Nat) (s : State) : Option State :=
  let r := ReduceVocab.compact s.min_reduce s.vocab_size 0 0 s.vocab
  let kept := r.1.take r.2
  match ReduceVocab.rehash H kept 0 (fun _ => -1) with
  | none => none
  | some vh =>
    some { s with
      vocab := kept
      vocab_size := r.2
      vocab_hash := vh
      min_reduce := s.min_reduce + 1 }

/-- The conversion of a `long long` to `int`: reduction modulo `2^32` into
`[-2^31, 2^31)`. -/
def toInt32 (x : Int) : Int := (x + 2 ^ 31) % 2 ^ 32 - 2 ^ 31

/-- The function `VocabCompare`: the 64-bit difference returned as an `int`. -/
def VocabCompare (a b : vocab_word) : Int := toInt32 (b.cn - a.cn)

/-- Insertion of one cell into a list ordered by `cmp`. -/
def qsort.insert (cmp : vocab_word → vocab_word → Int) (x : vocab_word) :
    List vocab_word → List vocab_word
  | [] => [x]
  | y :: ys => if cmp x y ≤ 0 then x :: y :: ys else y :: qsort.insert cmp x ys

/-- The library function `qsort` with comparison function `cmp`, as an
insertion sort. C leaves the order of cells that compare equal open; this
model keeps their order. -/
def qsort (cmp : vocab_word → vocab_word → Int) : List vocab_word → List vocab_word
  | [] => []
  | x :: xs => qsort.insert cmp x (qsort cmp xs)

/-- The main loop of `SortVocab`,
`for (a = 0; a < size; a++) if (vocab[a].cn < min_count) vocab_size--; else { ... }`,
from index `a` on over the remaining cells; the state of the loop is
`vocab_size`, `vocab_hash` and `train_words`. -/
def SortVocab.loop (H : Nat) (min_count : Int) :
    List vocab_word → Nat → Nat × (Nat → Int) × Int → Option (Nat × (Nat → Int) × Int)
  | [], _, st => some st
  | v :: rest, a, (vocab_size, vh, train_words) =>
    if v.cn < min_count then
      SortVocab.loop H min_count rest (a + 1) (vocab_size - 1, vh, train_words)
    else
      match probeEmpty H vh H (GetWordHash H v.word) with
      | none => none
      | some hash =>
        SortVocab.loop H min_count rest (a + 1)
          (vocab_size, Function.update vh hash (a : Int), train_words + v.cn)

/-- The function `SortVocab`: `qsort` of the cells `1 .. vocab_size - 1`, reset
of the hash index, the main loop, and the final `realloc` to `vocab_size + 1`
cells. The words freed by the loop stay readable in the model. With
`vocab_size = 0` the source passes the count `-1` to `qsort`; the model then
sorts nothing. -/
def SortVocab (H : Nat) (min_count : Int) (s : State) : Option State :=
  let live := s.vocab.take s.vocab_size
  let sorted := live.take 1 ++ qsort VocabCompare (live.drop 1)
  match SortVocab.loop H min_count sorted 0 (s.vocab_size, fun _ => -1, 0) with
  | none => none
  | some (vocab_size, vh, train_words) =>
    some { s with
      vocab := sorted.take (vocab_size + 1)
      vocab_size := vocab_size
      vocab_hash := vh
      train_words := train_words }

/-- The cell `vocab[i]` with its count replaced. -/
def setCn (vocab : List vocab_word) (i : Nat) (f : Int → Int) : List vocab_word :=
  vocab.modify (fun v => { v with cn := f v.cn }) i

/-- One round of the counting loop of `LearnVocabFromTrainFile` for the word
just read: `train_words++`, search, insert with count 1 or increment, and the
pruning test `vocab_size > vocab_hash_size * 0.7`. The product is taken
exactly; for the program's capacity the `double` product `30000000 * 0.7` is
exactly `21000000`. -/
def LearnVocabFromTrainFile.step (H : Nat) (word : List Nat) (s : State) : Option State :=
  let s := { s with train_words := s.train_words + 1 }
  match SearchVocab H s word with
  | none => none
  | some i =>
    let s' : Option State :=
      if i = -1 then
        match AddWordToVocab H word s with
        | none => none
        | some t => some { t with vocab := setCn t.vocab (t.vocab_size - 1) (fun _ => 1) }
      else some { s with vocab := setCn s.vocab i.toNat (fun c => c + 1) }
    match s' with
    | none => none
    | some t => if 10 * t.vocab_size > 7 * H then ReduceVocab H t else some t

/-- The counting loop of `LearnVocabFromTrainFile` over the words read. -/
def LearnVocabFromTrainFile.loop (H : Nat) : List (List Nat) → State → Option State
  | [], s => some s
  | w :: ws, s =>
    match LearnVocabFromTrainFile.step H w s with
    | none => none
    | some t => LearnVocabFromTrainFile.loop H ws t

/-- The state of `LearnVocabFromTrainFile` when the counting loop starts: an
empty index, then `AddWordToVocab("</s>")`; `min_reduce` and `train_words` have
their initial values `1` and `0`. -/
def LearnVocabFromTrainFile.init (H : Nat) : Option State :=
  AddWordToVocab H eos ⟨[], 0, fun _ => -1, 1, 0⟩

/-- The counting phase of `LearnVocabFromTrainFile` on the words read. -/
def LearnVocabFromTrainFile.count (H : Nat) (words : List (List Nat)) : Option State :=
  match LearnVocabFromTrainFile.init H with
  | none => none
  | some s => LearnVocabFromTrainFile.loop H words s

/-- The function `LearnVocabFromTrainFile` on a training file with the given
content. -/
def LearnVocabFromTrainFile (H : Nat) (min_count : Int) (bytes : List Nat) : Option State :=
  match LearnVocabFromTrainFile.count H (tokens bytes) with
  | none => none
  | some s => SortVocab H min_count s

/-! ## The invariant of the hash index -/

/-- The cells of a list paired with their indices from `a` on, as
`(index, word)`. -/
def indexed : Nat → List vocab_word → List (Nat × List Nat)
  | _, [] => []
  | a, v :: vs => (a, v.word) :: indexed (a + 1) vs

/-- The linear-probing invariant of the table `vh` holding the entries `es`:
every occupied slot holds the index of an entry, no index is in two slots,
every entry is reached from its hash through occupied slots only, and the
number of occupied slots is the number of entries. -/
structure HashInv (H : Nat) (vh : Nat → Int) (es : List (Nat × List Nat)) : Prop where
  slots : ∀ p, p < H → vh p = -1 ∨ ∃ e, e ∈ es ∧ vh p = (e.1 : Int)
  inj : ∀ p q, p < H → q < H → vh p ≠ -1 → vh p = vh q → p = q
  path : ∀ e, e ∈ es → ∃ k, k < H ∧ vh ((GetWordHash H e.2 + k) % H) = (e.1 : Int) ∧
    ∀ j, j < k → vh ((GetWordHash H e.2 + j) % H) ≠ -1
  card : ((Finset.range H).filter (fun p => vh p ≠ -1)).card = es.length

/-! ## The invariant of the counting phase -/

/-- The invariant of the counting phase: `vocab` holds exactly the live cells,
their words are pairwise distinct, and the hash index is a linear-probing
table over them. -/
def StateInv (H : Nat) (s : State) : Prop :=
  s.vocab.length = s.vocab_size ∧ (s.vocab.map (fun v => v.word)).Nodup ∧
    HashInv H s.vocab_hash (indexed 0 s.vocab)

/-! ## The main loop of `SortVocab` -/

/-- The entries the main loop of `SortVocab` stores in the hash index: the
cells with `cn ≥ min_count`, under their indices from `a` on. -/
def keptIndexed (min_count : Int) : Nat → List vocab_word → List (Nat × List Nat)
  | _, [] => []
  | a, v :: vs =>
    if v.cn < min_count then keptIndexed min_count (a + 1) vs
    else (a, v.word) :: keptIndexed min_count (a + 1) vs

/-! ## Reachable states of the hash index -/

/-- The states reachable from the empty vocabulary and the all `-1` table by
`AddWordToVocab` of a word that is not yet a live word, by an assignment to a
count `vocab[i].cn`, and by `ReduceVocab`. -/
inductive Reachable (H : Nat) : State → Prop
  | init (min_reduce train_words : Int) :
      Reachable H ⟨[], 0, fun _ => -1, min_reduce, train_words⟩
  | add (s t : State) (word : List Nat) : Reachable H s →
      word ∉ (s.vocab.take s.vocab_size).map (fun v => v.word) →
      AddWordToVocab H word s = some t → Reachable H t
  | count (s : State) (i : Nat) (cn : Int) : Reachable H s →
      Reachable H { s with vocab := setCn s.vocab i (fun _ => cn) }
  | reduce (s t : State) : Reachable H s → ReduceVocab H s = some t → Reachable H t

/-! ## Exact counts when pruning never fires -/

/-- The invariant of the counting loop while pruning has not fired, after the
words `done`: the vocabulary holds `</s>` and the words of `done`, once each,
every count is the number of occurrences in `done`, and entry 0 is `</s>`. -/
def CountInv (H : Nat) (done : List (List Nat)) (s : State) : Prop :=
  StateInv H s ∧ s.min_reduce = 1 ∧
    (∀ w, w ∈ s.vocab.map (fun v => v.word) ↔ w = eos ∨ w ∈ done) ∧
    (∀ i, i < s.vocab.length →
      (s.vocab.getD i default).cn = done.count (s.vocab.getD i default).word) ∧
    (s.vocab.map (fun v => v.word)).head? = some eos

/-! ## The token sequence of `ReadWord` -/

/-- The words handed on by the reading loop, in one pass over the unread
bytes, with `buf` the bytes of the word being read. -/
def lexFrom : List Nat → List Nat → List (List Nat)
  | [], _ => []
  | ch :: rest, buf =>
    if ch = 13 then lexFrom rest buf
    else if ch = 32 ∨ ch = 9 ∨ ch = 10 then
      if buf.length > 0 then
        cstr buf :: (if ch = 10 then eos :: lexFrom rest [] else lexFrom rest [])
      else if ch = 10 then eos :: lexFrom rest []
      else lexFrom rest []
    else lexFrom rest (ReadWord.store buf ch)

/-! ## Newlines and `</s>` -/

/-- The whitespace-delimited words of a byte stream: its maximal runs of bytes
other than space, tab and newline, with `cur` the run being read. -/
def wordsOf : List Nat → List Nat → List (List Nat)
  | [], cur => if cur = [] then [] else [cur]
  | ch :: rest, cur =>
    if ch = 32 ∨ ch = 9 ∨ ch = 10 then
      if cur = [] then wordsOf rest [] else cur :: wordsOf rest []
    else wordsOf rest (cur ++ [ch])

/-! ## The reference tokenization -/

/-- The reference tokenization of the specification on a stream without
carriage returns: every maximal run of bytes other than space, tab and newline
is one word, cut to its first 98 bytes, and every newline adds one `</s>`
after the word before it; `cur` is the run being read. -/
def referenceTokens.go : List Nat → List Nat → List (List Nat)
  | [], cur => if cur = [] then [] else [cur.take 98]
  | ch :: rest, cur =>
    if ch = 32 ∨ ch = 9 then
      (if cur = [] then [] else [cur.take 98]) ++ referenceTokens.go rest []
    else if ch = 10 then
      (if cur = [] then [] else [cur.take 98]) ++ eos :: referenceTokens.go rest []
    else referenceTokens.go rest (cur ++ [ch])

/-- The reference tokenization of the specification: carriage returns are
removed, then the stream is cut into words and `</s>` tokens. -/
def referenceTokens (bytes : List Nat) : List (List Nat) :=
  referenceTokens.go (bytes.filter (fun c => decide (c ≠ 13))) []

/-! ## The Huffman tree: `CreateBinaryTree` -/

/-- Capacity of the arrays `code` and `point` of a word. -/
def MAX_CODE_LENGTH : Nat := 40

/-- The value of a 64-bit two's-complement `long long` holding `x`. -/
def toInt64 (x : Int) : Int := (x + 2 ^ 63) % 2 ^ 64 - 2 ^ 63

/-- The work arrays `count`, `binary`, `parent_node` and the two pivots
`pos1`, `pos2` of `CreateBinaryTree`.  The arrays are functions of the index;
`pos1` runs down to `-1`. -/
structure Tree where
  count : Nat → Int
  binary : Nat → Int
  parent_node : Nat → Nat
  pos1 : Int
  pos2 : Nat

/-- The fields `codelen`, `code`, `point` that `CreateBinaryTree` writes into
a `vocab_word`: `code` holds the cells `0 .. codelen - 1` and `point` the cells
`0 .. codelen` that the function writes. -/
structure vocab_code where
  codelen : Nat
  code : List Int
  point : List Int
deriving DecidableEq

instance : Inhabited vocab_code := ⟨⟨0, [], []⟩⟩

/-- The arrays after the two initialising loops: `count[a] = vocab[a].cn` for
`a < vocab_size`, `count[a] = 1e15` for `vocab_size ≤ a < 2 * vocab_size`, every
other cell zero from `calloc`; `pos1 = vocab_size - 1`, `pos2 = vocab_size`. -/
def CreateBinaryTree.init (cn : Nat → Int) (n : Nat) : Tree :=
  { count := fun a => if a < n then cn a else if a < n * 2 then 10 ^ 15 else 0
    binary := fun _ => 0
    parent_node := fun _ => 0
    pos1 := (n : Int) - 1
    pos2 := n }

/-- The block that finds the next smallest node, as it stands twice in the
loop body: the chosen index and the arrays with the pivot moved. -/
def CreateBinaryTree.pick (t : Tree) : Nat × Tree :=
  if 0 ≤ t.pos1 then
    if t.count t.pos1.toNat < t.count t.pos2 then (t.pos1.toNat, { t with pos1 := t.pos1 - 1 })
    else (t.pos2, { t with pos2 := t.pos2 + 1 })
  else (t.pos2, { t with pos2 := t.pos2 + 1 })

/-- The pair `(min1i, min2i)` that an iteration of the merge loop chooses in
the state `t`. -/
def CreateBinaryTree.chosen (t : Tree) : Nat × Nat :=
  ((CreateBinaryTree.pick t).1, (CreateBinaryTree.pick (CreateBinaryTree.pick t).2).1)

/-- One iteration `a` of the merge loop. -/
def CreateBinaryTree.step (n a : Nat) (t : Tree) : Tree :=
  let min1i := (CreateBinaryTree.pick t).1
  let t1 := (CreateBinaryTree.pick t).2
  let min2i := (CreateBinaryTree.pick t1).1
  let t2 := (CreateBinaryTree.pick t1).2
  { t2 with
    count := Function.update t2.count (n + a) (toInt64 (t2.count min1i + t2.count min2i))
    parent_node := Function.update (Function.update t2.parent_node min1i (n + a)) min2i (n + a)
    binary := Function.update t2.binary min2i 1 }

/-- The arrays after the iterations `a = 0 .. k - 1` of the merge loop. -/
def CreateBinaryTree.merge (n : Nat) : Nat → Tree → Tree
  | 0, t => t
  | k + 1, t => CreateBinaryTree.step n k (CreateBinaryTree.merge n k t)

/-- The walk `while (1)` from `b` up the parent links: the cells
`(code[i], point[i])` for `i = 0, 1, ..` that it fills before it breaks at
`b == vocab_size * 2 - 2`; `none` when the fuel runs out first. -/
def CreateBinaryTree.climb (n : Nat) (t : Tree) : Nat → Nat → Option (List (Int × Nat))
  | 0, _ => none
  | fuel + 1, b =>
    if (t.parent_node b : Int) = (n : Int) * 2 - 2 then some [(t.binary b, b)]
    else (CreateBinaryTree.climb n t fuel (t.parent_node b)).map (fun r => (t.binary b, b) :: r)

/-- The assignment after the walk: `codelen = i`, `point[0] = vocab_size - 2`,
`code[i - b - 1] = code[b]` and `point[i - b] = point[b] - vocab_size`. -/
def CreateBinaryTree.assign (n : Nat) (r : List (Int × Nat)) : vocab_code :=
  { codelen := r.length
    code := (r.map (fun p => p.1)).reverse
    point := ((n : Int) - 2) :: (r.map (fun p => (p.2 : Int) - (n : Int))).reverse }

/-- The second loop for the words `0 .. k - 1`. -/
def CreateBinaryTree.words (n : Nat) (t : Tree) : Nat → Option (List vocab_code)
  | 0 => some []
  | k + 1 =>
    match CreateBinaryTree.words n t k, CreateBinaryTree.climb n t (n * 2 + 1) k with
    | some cs, some r => some (cs ++ [CreateBinaryTree.assign n r])
    | _, _ => none

/-- The arrays of `CreateBinaryTree` when the merge loop has finished. -/
def CreateBinaryTree.tree (s : State) : Tree :=
  CreateBinaryTree.merge s.vocab_size (s.vocab_size - 1)
    (CreateBinaryTree.init (fun a => (s.vocab.getD a default).cn) s.vocab_size)

/-- The function `CreateBinaryTree`: the codes of the words
`0 .. vocab_size - 1`, `none` when a walk to the root does not end. -/
def CreateBinaryTree (s : State) : Option (List vocab_code) :=
  CreateBinaryTree.words s.vocab_size (CreateBinaryTree.tree s) s.vocab_size

/-- Node `x` has been taken by a pivot when `pos1` has moved down over `l`
leaves and `pos2` up over `m` created nodes. -/
def CreateBinaryTree.picked (n l m x : Nat) : Prop :=
  (x < n ∧ n ≤ x + l) ∨ (n ≤ x ∧ x < n + m)

/-- The invariant of the merge loop before iteration `a`, when `l` leaves and
`m` created nodes have been taken: the pivots, the counts of the leaves and of
the nodes not yet created, the parent links and bits written so far. -/
structure TreeInv (n : Nat) (cn : Nat → Int) (a l m : Nat) (t : Tree) : Prop where
  pos1 : t.pos1 = (n : Int) - 1 - (l : Int)
  pos2 : t.pos2 = n + m
  total : l + m = a * 2
  leaves : l ≤ n
  created : m < a ∨ a = 0
  count_leaf : ∀ x, x < n → t.count x = cn x
  count_new : ∀ x, n + a ≤ x → x < n * 2 → t.count x = 10 ^ 15
  parent_picked : ∀ x, CreateBinaryTree.picked n l m x →
    n ≤ t.parent_node x ∧ t.parent_node x < n + a ∧ x < t.parent_node x
  unpicked : ∀ x, ¬ CreateBinaryTree.picked n l m x → t.parent_node x = 0 ∧ t.binary x = 0
  children : ∀ j, j < a →
    (CreateBinaryTree.chosen (CreateBinaryTree.merge n j (CreateBinaryTree.init cn n))).1 ≠
      (CreateBinaryTree.chosen (CreateBinaryTree.merge n j (CreateBinaryTree.init cn n))).2 ∧
    t.parent_node
      (CreateBinaryTree.chosen (CreateBinaryTree.merge n j (CreateBinaryTree.init cn n))).1
        = n + j ∧
    t.parent_node
      (CreateBinaryTree.chosen (CreateBinaryTree.merge n j (CreateBinaryTree.init cn n))).2
        = n + j ∧
    t.binary
      (CreateBinaryTree.chosen (CreateBinaryTree.merge n j (CreateBinaryTree.init cn n))).1 = 0 ∧
    t.binary
      (CreateBinaryTree.chosen (CreateBinaryTree.merge n j (CreateBinaryTree.init cn n))).2 = 1 ∧
    ∀ x, t.parent_node x = n + j →
      x = (CreateBinaryTree.chosen (CreateBinaryTree.merge n j (CreateBinaryTree.init cn n))).1 ∨
      x = (CreateBinaryTree.chosen (CreateBinaryTree.merge n j (CreateBinaryTree.init cn n))).2
  mono_leaf : ∀ x y, x < y → y < n → CreateBinaryTree.picked n l m x →
    t.parent_node y ≤ t.parent_node x
  mono_node : ∀ x y, n ≤ x → x < y → CreateBinaryTree.picked n l m y →
    t.parent_node x ≤ t.parent_node y

/-- The number of parent links from node `x` up to the root
`vocab_size * 2 - 2`, by at most `fuel` steps. -/
def CreateBinaryTree.depth (n : Nat) (t : Tree) : Nat → Nat → Nat
  | 0, _ => 0
  | fuel + 1, x => if x = n * 2 - 2 then 0 else CreateBinaryTree.depth n t fuel (t.parent_node x) + 1

/-- The cells that the walk from node `x` fills, in closed form: cell `k`
holds the bit and the index of the `k`-th ancestor of `x`, for `k` below the
depth of `x`. -/
def CreateBinaryTree.path (n : Nat) (t : Tree) (x : Nat) : List (Int × Nat) :=
  (List.range (CreateBinaryTree.depth n t (n * 2) x)).map
    (fun k => (t.binary (t.parent_node^[k] x), t.parent_node^[k] x))

/-! ## The unigram table: `InitUnigramTable` -/

/-- Number of cells of the unigram table (`const int table_size = 1e8`). -/
def table_size : Nat := 100000000

/-- The loop `for (a = 0; a < table_size; a++)` of `InitUnigramTable` from
cell `a` on, with `k` cells to go: the cells it writes.  The floating-point
part is left open: `R` is the type of the values of `d1`, `share i` the value
of `pow(vocab[i].cn, power) / (real)train_words_pow`, `add` the addition in
`d1 += ..` and `gt a d1` the outcome of `a / (real)table_size > d1`.  The
index `i` stays between 0 and `vocab_size`, inside `int`. -/
def InitUnigramTable.loop {R : Type} (gt : Nat → R → Bool) (add : R → R → R) (share : Int → R)
    (vocab_size : Int) : Nat → Nat → Int → R → List Int
  | 0, _, _, _ => []
  | k + 1, a, i, d1 =>
    let i1 := if gt a d1 then i + 1 else i
    let d2 := if gt a d1 then add d1 (share (i + 1)) else d1
    let i2 := if vocab_size ≤ i1 then vocab_size - 1 else i1
    i :: InitUnigramTable.loop gt add share vocab_size k (a + 1) i2 d2

/-- The table that `InitUnigramTable` builds: `i = 0`,
`d1 = pow(vocab[0].cn, power) / (real)train_words_pow`, then the loop over
all `size` cells. -/
def InitUnigramTable {R : Type} (gt : Nat → R → Bool) (add : R → R → R) (share : Int → R)
    (size : Nat) (vocab_size : Int) : List Int :=
  InitUnigramTable.loop gt add share vocab_size size 0 0 (share 0)

/-! ## The sigmoid table and the training step: `main`, `TrainModelThread` -/

/-- Number of cells of the sigmoid table. -/
def EXP_TABLE_SIZE : Nat := 1000

/-- The sigmoid is tabulated on `(-MAX_EXP, MAX_EXP)`. -/
def MAX_EXP : Nat := 6

/-- The conversion `(int)` of a real value, truncation toward zero. -/
def truncate (q : ℚ) : Int := if 0 ≤ q then ⌊q⌋ else ⌈q⌉

/-- The index `(int)((f + MAX_EXP) * (EXP_TABLE_SIZE / MAX_EXP / 2))` at which
`TrainModelThread` reads `expTable`, for `f` taken as an exact rational; the
constant `EXP_TABLE_SIZE / MAX_EXP / 2` is a quotient of `int` constants. -/
def TrainModelThread.expIndex (f : ℚ) : Int :=
  truncate ((f + (MAX_EXP : ℚ)) * ((EXP_TABLE_SIZE / MAX_EXP / 2 : Nat) : ℚ))

/-- The point `(i / (real)EXP_TABLE_SIZE * 2 - 1) * MAX_EXP` whose sigmoid
`main` stores in `expTable[i]`. -/
def main.expPoint (i : Int) : ℚ :=
  ((i : ℚ) / (EXP_TABLE_SIZE : ℚ) * 2 - 1) * (MAX_EXP : ℚ)

/-- The loop `for (a = b; a < window * 2 + 1 - b; a++) if (a != window)` of the
CBOW step (IN -> HIDDEN) from `a` on, with `k` iterations to go.  The arrays
`neu1`, `sen` and `syn0` are functions of the index and `R` is the type `real`
with its addition; the inner loop adds row `last_word` of `syn0` to the cells
`0 .. layer1_size - 1` of `neu1`. -/
def TrainModelThread.hidden {R : Type} [Add R]
    (window sentence_position sentence_length layer1_size : Int) (sen : Int → Int)
    (syn0 : Int → R) : Nat → Int → (Int → R) → (Int → R)
  | 0, _, neu1 => neu1
  | k + 1, a, neu1 =>
    if a ≠ window then
      if sentence_position - window + a < 0 then
        TrainModelThread.hidden window sentence_position sentence_length layer1_size sen syn0
          k (a + 1) neu1
      else if sentence_length ≤ sentence_position - window + a then
        TrainModelThread.hidden window sentence_position sentence_length layer1_size sen syn0
          k (a + 1) neu1
      else if sen (sentence_position - window + a) = -1 then
        TrainModelThread.hidden window sentence_position sentence_length layer1_size sen syn0
          k (a + 1) neu1
      else
        TrainModelThread.hidden window sentence_position sentence_length layer1_size sen syn0
          k (a + 1) (fun c => if 0 ≤ c ∧ c < layer1_size
            then neu1 c + syn0 (c + sen (sentence_position - window + a) * layer1_size)
            else neu1 c)
    else
      TrainModelThread.hidden window sentence_position sentence_length layer1_size sen syn0
        k (a + 1) neu1

/-- The offset `b` of a training step: `next_random` is advanced in 64-bit
unsigned arithmetic and reduced modulo `window`, converted to
`unsigned long long`; the result is stored in a `long long`. -/
def TrainModelThread.offset (window : Int) (next_random : Nat) : Int :=
  toInt64 ((((next_random * 25214903917 + 11) % 2 ^ 64) % (window % 2 ^ 64).toNat : Nat) : Int)

/-- The hidden vector `neu1` of a CBOW step: the cells are set to zero, `b` is
drawn, and the loop runs over `a = b .. window * 2 - b`, the bound
`window * 2 + 1` being an `int`. -/
def TrainModelThread.cbow {R : Type} [Add R] [Zero R]
    (window sentence_position sentence_length layer1_size : Int) (sen : Int → Int)
    (syn0 : Int → R) (next_random : Nat) : Int → R :=
  TrainModelThread.hidden window sentence_position sentence_length layer1_size sen syn0
    (toInt32 (window * 2 + 1) - TrainModelThread.offset window next_random
      - TrainModelThread.offset window next_random).toNat
    (TrainModelThread.offset window next_random) (fun _ => 0)

/-- The recomputation of the learning rate in `TrainModelThread`, over exact
rationals: `alpha = strarting_alpha * (1 - word_count_actual / (real)(train_words + 1))`,
then `if (alpha < starting_alpha * 0.0001) alpha = starting_alpha * 0.0001`.
The source spells the factor of the first line `strarting_alpha`, an
identifier that it declares nowhere, so its value is a parameter of its own
here; the only starting rate that the program keeps is `starting_alpha`. -/
def TrainModelThread.rate (strarting_alpha starting_alpha : ℚ)
    (word_count_actual train_words : Int) : ℚ :=
  if strarting_alpha * (1 - (word_count_actual : ℚ) / ((train_words + 1 : Int) : ℚ))
      < starting_alpha * (1 / 10000)
  then starting_alpha * (1 / 10000)
  else strarting_alpha * (1 - (word_count_actual : ℚ) / ((train_words + 1 : Int) : ℚ))

/-- The arrays that a training step of `TrainModelThread` reads and writes,
as functions of the index, with cells over exact rationals, and the state
`next_random` of the random numbers. -/
structure Net where
  syn0 : Int → ℚ
  syn1 : Int → ℚ
  neu1 : Int → ℚ
  neu1e : Int → ℚ
  next_random : Nat

/-- The value of `f` after `f = 0; for (c = 0; c < layer1_size; c++)
f += neu1[c] * syn1[c + l2];`. -/
def TrainModelThread.dot (layer1_size : Int) (neu1 syn1 : Int → ℚ) (l2 : Int) : ℚ :=
  (List.range layer1_size.toNat).foldl
    (fun f (c : Nat) => f + neu1 (c : Int) * syn1 ((c : Int) + l2)) 0

/-- One iteration of the loop `HIERARCHICAL SOFTMAX` of the CBOW step, for the
values `code = vocab[word].code[d]` and `point = vocab[word].point[d]`: the
arrays `neu1e` and `syn1` afterwards.  The loop over `neu1e` reads `syn1`
before the loop over `syn1` writes it. -/
def TrainModelThread.hsStep (expTable : Int → ℚ) (alpha : ℚ) (layer1_size : Int)
    (code point : Int) (neu1 neu1e syn1 : Int → ℚ) : (Int → ℚ) × (Int → ℚ) :=
  if TrainModelThread.dot layer1_size neu1 syn1 (point * layer1_size) ≤ -(MAX_EXP : ℚ) then
    (neu1e, syn1)
  else if (MAX_EXP : ℚ) ≤ TrainModelThread.dot layer1_size neu1 syn1 (point * layer1_size) then
    (neu1e, syn1)
  else
    (fun c => if 0 ≤ c ∧ c < layer1_size then
        neu1e c + (((1 - code : Int) : ℚ) - expTable (TrainModelThread.expIndex
          (TrainModelThread.dot layer1_size neu1 syn1 (point * layer1_size)))) * alpha
            * syn1 (c + point * layer1_size)
      else neu1e c,
     fun i => if 0 ≤ i - point * layer1_size ∧ i - point * layer1_size < layer1_size then
        syn1 i + (((1 - code : Int) : ℚ) - expTable (TrainModelThread.expIndex
          (TrainModelThread.dot layer1_size neu1 syn1 (point * layer1_size)))) * alpha
            * neu1 (i - point * layer1_size)
      else syn1 i)

/-- The loop `for (d = 0; d < vocab[word].codelen; d++)` from `d` on, with `k`
iterations to go, over the pair `(neu1e, syn1)`. -/
def TrainModelThread.hsLoop (expTable : Int → ℚ) (alpha : ℚ) (layer1_size : Int)
    (w : vocab_code) (neu1 : Int → ℚ) :
    Nat → Nat → (Int → ℚ) × (Int → ℚ) → (Int → ℚ) × (Int → ℚ)
  | 0, _, r => r
  | k + 1, d, r =>
    TrainModelThread.hsLoop expTable alpha layer1_size w neu1 k (d + 1)
      (TrainModelThread.hsStep expTable alpha layer1_size (w.code.getD d 0) (w.point.getD d 0)
        neu1 r.1 r.2)

/-- The body of the training loop from the zeroing of `neu1` and `neu1e` to
the end of the architecture branch, for the centre `word = sen[sentence_position]`.
With `cbow` set: the hidden vector, then, with `hs` set, the hierarchical
softmax loop; the loops `NEGATIVE SAMPLING` and `HIDDEN -> IN` have the body
`//TODO` in the source and change nothing.  Without `cbow` the branch
`train skip-gram` is `//TODO` in the source and changes nothing. -/
def TrainModelThread.train (cbow hs : Int)
    (window sentence_position sentence_length layer1_size : Int) (sen : Int → Int)
    (vocab : List vocab_code) (expTable : Int → ℚ) (alpha : ℚ) (net : Net) : Net :=
  if cbow ≠ 0 then
    { syn0 := net.syn0
      syn1 := (if hs ≠ 0 then
          TrainModelThread.hsLoop expTable alpha layer1_size
            (vocab.getD (sen sentence_position).toNat default)
            (TrainModelThread.cbow window sentence_position sentence_length layer1_size sen
              net.syn0 net.next_random)
            (vocab.getD (sen sentence_position).toNat default).codelen 0 (fun _ => 0, net.syn1)
        else (fun _ => 0, net.syn1)).2
      neu1 := TrainModelThread.cbow window sentence_position sentence_length layer1_size sen
        net.syn0 net.next_random
      neu1e := (if hs ≠ 0 then
          TrainModelThread.hsLoop expTable alpha layer1_size
            (vocab.getD (sen sentence_position).toNat default)
            (TrainModelThread.cbow window sentence_position sentence_length layer1_size sen
              net.syn0 net.next_random)
            (vocab.getD (sen sentence_position).toNat default).codelen 0 (fun _ => 0, net.syn1)
        else (fun _ => 0, net.syn1)).1
      next_random := (net.next_random * 25214903917 + 11) % 2 ^ 64 }
  else
    { syn0 := net.syn0
      syn1 := net.syn1
      neu1 := fun _ => 0
      neu1e := fun _ => 0
      next_random := (net.next_random * 25214903917 + 11) % 2 ^ 64 }

/-! ## The training loop of `TrainModelThread` -/

/-- Capacity of the sentence buffer `sen`. -/
def MAX_SENTENCE_LENGTH : Nat := 1000

/-- The function `ReadWordIndex`: `-1` at the end of the file, else the result
of `SearchVocab` (`none` when its probe loop does not stop), and the file
afterwards. -/
def ReadWordIndex (H : Nat) (s : State) (fin : FILE) : Option Int × FILE :=
  if (ReadWord fin).2.eof then (some (-1), (ReadWord fin).2)
  else (SearchVocab H s (ReadWord fin).1, (ReadWord fin).2)

/-- The variables of `TrainModelThread` that decide which cell of `sen` the
training loop reads: the file, the sentence buffer (a function of the index),
its length and the position in it, the word counter and the state of the
random numbers. -/
structure Thread where
  fi : FILE
  sen : Int → Int
  sentence_length : Int
  sentence_position : Int
  word_count : Int
  next_random : Nat

/-- The loop `while (1)` that refills the sentence buffer, run for at most
`fuel` rounds.  The subsampling test is left open: `subsample` says whether
`sample > 0`, and `discards word next_random` is the outcome of
`ran < (next_random & 0xFFFF) / (real)65536`.  The result is `none` when a
lookup does not stop or the fuel runs out; every round reads from the file, so
fuel above the number of unread bytes is never used up. -/
def TrainModelThread.refill (H : Nat) (s : State) (subsample : Bool)
    (discards : Int → Nat → Bool) : Nat → Thread → Option Thread
  | 0, _ => none
  | fuel + 1, t =>
    match ReadWordIndex H s t.fi with
    | (none, _) => none
    | (some word, fi) =>
      if fi.eof then some { t with fi := fi }
      else if word = -1 then
        TrainModelThread.refill H s subsample discards fuel { t with fi := fi }
      else if word = 0 then some { t with fi := fi, word_count := t.word_count + 1 }
      else if subsample && discards word ((t.next_random * 25214903917 + 11) % 2 ^ 64) then
        TrainModelThread.refill H s subsample discards fuel
          { t with fi := fi, word_count := t.word_count + 1,
                   next_random := (t.next_random * 25214903917 + 11) % 2 ^ 64 }
      else if (MAX_SENTENCE_LENGTH : Int) ≤ t.sentence_length + 1 then
        some { t with fi := fi, word_count := t.word_count + 1,
                      next_random := if subsample
                        then (t.next_random * 25214903917 + 11) % 2 ^ 64 else t.next_random,
                      sen := Function.update t.sen t.sentence_length word,
                      sentence_length := t.sentence_length + 1 }
      else
        TrainModelThread.refill H s subsample discards fuel
          { t with fi := fi, word_count := t.word_count + 1,
                   next_random := if subsample
                     then (t.next_random * 25214903917 + 11) % 2 ^ 64 else t.next_random,
                   sen := Function.update t.sen t.sentence_length word,
                   sentence_length := t.sentence_length + 1 }

/-- The first `fuel` iterations of the training loop `while (1)` of
`TrainModelThread`: for every iteration that reaches
`word = sen[sentence_position]` the triple of `sentence_position`,
`sentence_length` and the value read, in order.  The recomputation of the
rate and the training step between the read and `sentence_position++` touch
the net and, of the variables kept here, only `next_random`; `limit` is
`train_words / num_threads`. -/
def TrainModelThread.loop (H : Nat) (s : State) (subsample : Bool)
    (discards : Int → Nat → Bool) (limit : Int) : Nat → Thread → Option (List (Int × Int × Int))
  | 0, _ => some []
  | fuel + 1, t =>
    match (if t.sentence_length = 0 then
        (TrainModelThread.refill H s subsample discards (t.fi.data.length + 1) t).map
          (fun r => { r with sentence_position := 0 })
      else some t) with
    | none => none
    | some t1 =>
      if t1.fi.eof then some []
      else if limit < t1.word_count then some []
      else if t1.sen t1.sentence_position = -1 then
        (TrainModelThread.loop H s subsample discards limit fuel t1).map
          (fun r => (t1.sentence_position, t1.sentence_length, t1.sen t1.sentence_position) :: r)
      else
        (TrainModelThread.loop H s subsample discards limit fuel
          { t1 with next_random := (t1.next_random * 25214903917 + 11) % 2 ^ 64,
                    sentence_position := t1.sentence_position + 1,
                    sentence_length := if t1.sentence_length ≤ t1.sentence_position + 1
                      then 0 else t1.sentence_length }).map
          (fun r => (t1.sentence_position, t1.sentence_length, t1.sen t1.sentence_position) :: r)

/-- The invariant of the counts in the merge loop before iteration `a`, for a
vocabulary in non-increasing order of count: every node not yet merged (a node
below `vocab_size + a` without parent link) has a count of at least `q ≥ 0`,
every created node a count of at most `2 * q`, the created nodes are in
non-decreasing order of count, and the counts of the nodes not yet merged add
up to the total of the word counts. -/
structure MergeCounts (n : Nat) (cn : Nat → Int) (a : Nat) (q : Int) (t : Tree) : Prop where
  nonneg : 0 ≤ q
  lower : ∀ y, y < n + a → t.parent_node y = 0 → q ≤ t.count y
  upper : ∀ j, j < a → t.count (n + j) ≤ 2 * q
  sorted : ∀ j j', j ≤ j' → j' < a → t.count (n + j) ≤ t.count (n + j')
  total : ∑ y in Finset.range (n + a), (if t.parent_node y = 0 then t.count y else 0) =
    ∑ x in Finset.range n, cn x

/-- How the walk `while (1)` of `CreateBinaryTree` from a word to the root
ends when the arrays `code` and `point` have their `MAX_CODE_LENGTH` cells:
it breaks at the root with `codelen` cells filled, or it reaches the stores
`code[i] = ..; point[i] = ..` with `i` outside the arrays, or the fuel runs
out. -/
inductive Walk where
  | done (codelen : Nat)
  | overrun (i : Nat)
  | unfinished
deriving DecidableEq

/-- The walk `while (1)` of `CreateBinaryTree` from node `b` with `i` cells
filled, against the capacity of the local arrays `code[MAX_CODE_LENGTH]` and
`point[MAX_CODE_LENGTH]`: the source stores into cell `i` without a test, so a
round entered with `i = MAX_CODE_LENGTH` writes outside both arrays. -/
def CreateBinaryTree.walk (n : Nat) (t : Tree) : Nat → Nat → Nat → Walk
  | 0, _, _ => Walk.unfinished
  | fuel + 1, b, i =>
    if MAX_CODE_LENGTH ≤ i then Walk.overrun i
    else if (t.parent_node b : Int) = (n : Int) * 2 - 2 then Walk.done (i + 1)
    else CreateBinaryTree.walk n t fuel (t.parent_node b) (i + 1)

/-- The assignment loop after the walk, against the capacity of the arrays
`vocab[a].code` and `vocab[a].point` that `SortVocab` allocates with
`MAX_CODE_LENGTH` cells each: for `b = 0` it stores into `point[i - b]`, the
cell `codelen`, which lies outside the array when `codelen` is
`MAX_CODE_LENGTH`. -/
def CreateBinaryTree.store (r : Walk) : Walk :=
  match r with
  | Walk.done codelen => if MAX_CODE_LENGTH ≤ codelen then Walk.overrun codelen else Walk.done codelen
  | Walk.overrun i => Walk.overrun i
  | Walk.unfinished => Walk.unfinished

/-! # Properties -/

/-! ## Probing -/

theorem GetWordHash_lt (H : Nat) (hH : 0 < H) (word : List Nat) : GetWordHash H word < H := by
  unfold GetWordHash
  have h1 : (0 : Int) < (H : Int) := by exact_mod_cast hH
  have h2 := Int.emod_lt_of_pos (word.foldl (fun hash c => (hash * 257 + charVal c) % (2 ^ 64 : Int)) (0 : Int)) h1
  have h3 := Int.emod_nonneg (word.foldl (fun hash c => (hash * 257 + charVal c) % (2 ^ 64 : Int)) (0 : Int)) (ne_of_gt h1)
  omega

theorem exists_offset (H h p : Nat) (hh : h < H) (hp : p < H) :
    ∃ k, k < H ∧ (h + k) % H = p := by
  by_cases hle : h ≤ p
  · exact ⟨p - h, by omega, by rw [Nat.add_sub_cancel' hle]; exact Nat.mod_eq_of_lt hp⟩
  · refine ⟨p + H - h, by omega, ?_⟩
    have : h + (p + H - h) = p + H := by omega
    rw [this, Nat.add_mod_right]
    exact Nat.mod_eq_of_lt hp

theorem step_offset (H h k : Nat) : ((h + 1) % H + k) % H = (h + (k + 1)) % H := by
  rw [Nat.mod_add_mod]; congr 1; omega

theorem probeEmpty_path (H : Nat) (vh : Nat → Int) :
    ∀ (fuel h : Nat), h < H → (∃ k, k < fuel ∧ vh ((h + k) % H) = -1) →
      ∃ k, k < fuel ∧ probeEmpty H vh fuel h = some ((h + k) % H) ∧
        vh ((h + k) % H) = -1 ∧ ∀ j, j < k → vh ((h + j) % H) ≠ -1 := by
  intro fuel
  induction fuel with
  | zero => intro h _ ⟨k, hk, _⟩; omega
  | succ fuel ih =>
    intro h hh ⟨k, hk, hempty⟩
    have h0 : (h + 0) % H = h := by simpa using Nat.mod_eq_of_lt hh
    by_cases hv : vh h = -1
    · refine ⟨0, by omega, ?_, by rw [h0]; exact hv, by intro j hj; omega⟩
      rw [h0]; simp [probeEmpty, hv]
    · have hH : 0 < H := by omega
      obtain ⟨k', rfl⟩ : ∃ k', k = k' + 1 := by
        cases k with
        | zero => rw [h0] at hempty; exact absurd hempty hv
        | succ k' => exact ⟨k', rfl⟩
      have hlt : (h + 1) % H < H := Nat.mod_lt _ hH
      obtain ⟨m, hm, hres, hem, hbefore⟩ :=
        ih ((h + 1) % H) hlt ⟨k', by omega, by rw [step_offset]; exact hempty⟩
      refine ⟨m + 1, by omega, ?_, by rw [← step_offset]; exact hem, ?_⟩
      · rw [← step_offset]; simp [probeEmpty, hv, hres]
      · intro j hj
        cases j with
        | zero => rw [h0]; exact hv
        | succ j => rw [← step_offset]; exact hbefore j (by omega)

theorem probeEmpty_of_empty (H : Nat) (vh : Nat → Int) (h p : Nat) (hh : h < H) (hp : p < H)
    (hempty : vh p = -1) :
    ∃ k, k < H ∧ probeEmpty H vh H h = some ((h + k) % H) ∧
      vh ((h + k) % H) = -1 ∧ ∀ j, j < k → vh ((h + j) % H) ≠ -1 := by
  obtain ⟨k, hk, hkp⟩ := exists_offset H h p hh hp
  exact probeEmpty_path H vh H h hh ⟨k, hk, by rw [hkp]; exact hempty⟩

/-- A successful probe stops at an empty slot below the capacity. -/
theorem probeEmpty_some (H : Nat) (vh : Nat → Int) :
    ∀ (fuel h p : Nat), h < H → probeEmpty H vh fuel h = some p → p < H ∧ vh p = -1 := by
  intro fuel
  induction fuel with
  | zero => intro h p _ hp; simp [probeEmpty] at hp
  | succ fuel ih =>
    intro h p hh hp
    by_cases hv : vh h = -1
    · simp [probeEmpty, hv] at hp; subst hp; exact ⟨hh, hv⟩
    · simp [probeEmpty, hv] at hp
      exact ih _ p (Nat.mod_lt _ (by omega)) hp

/-- On a table without an empty slot the probe loop never stops. -/
theorem probeEmpty_full (H : Nat) (vh : Nat → Int) (hfull : ∀ p, p < H → vh p ≠ -1) :
    ∀ (fuel h : Nat), h < H → probeEmpty H vh fuel h = none := by
  intro fuel
  induction fuel with
  | zero => intro h _; rfl
  | succ fuel ih =>
    intro h hh
    simp [probeEmpty, hfull h hh]
    exact ih _ (Nat.mod_lt _ (by omega))

/-! ## The loop of `SearchVocab` -/

theorem SearchVocab_loop_hit (H : Nat) (s : State) (word : List Nat) (i : Int) (hi : i ≠ -1)
    (hword : word = (s.vocab.getD i.toNat default).word) :
    ∀ (fuel h k : Nat), k < fuel → h < H → s.vocab_hash ((h + k) % H) = i →
      (∀ j, j < k → s.vocab_hash ((h + j) % H) ≠ -1 ∧
        (word = (s.vocab.getD (s.vocab_hash ((h + j) % H)).toNat default).word →
          s.vocab_hash ((h + j) % H) = i)) →
      SearchVocab.loop H s word fuel h = some i := by
  intro fuel
  induction fuel with
  | zero => intro h k hk; omega
  | succ fuel ih =>
    intro h k hk hh hslot hbefore
    have h0 : (h + 0) % H = h := by simpa using Nat.mod_eq_of_lt hh
    cases k with
    | zero =>
      rw [h0] at hslot
      rw [SearchVocab.loop, hslot, if_neg hi, if_pos hword]
    | succ k =>
      have hb0 := hbefore 0 (by omega)
      rw [h0] at hb0
      by_cases hm : word = (s.vocab.getD (s.vocab_hash h).toNat default).word
      · rw [SearchVocab.loop, if_neg hb0.1, if_pos hm, hb0.2 hm]
      · simp only [SearchVocab.loop, hb0.1, hm, if_false]
        apply ih ((h + 1) % H) k (by omega) (Nat.mod_lt _ (by omega))
        · rw [step_offset]; exact hslot
        · intro j hj; rw [step_offset]; exact hbefore (j + 1) (by omega)

theorem SearchVocab_loop_miss (H : Nat) (s : State) (word : List Nat) :
    ∀ (fuel h k : Nat), k < fuel → h < H → s.vocab_hash ((h + k) % H) = -1 →
      (∀ j, j < k → s.vocab_hash ((h + j) % H) ≠ -1 →
        word ≠ (s.vocab.getD (s.vocab_hash ((h + j) % H)).toNat default).word) →
      SearchVocab.loop H s word fuel h = some (-1) := by
  intro fuel
  induction fuel with
  | zero => intro h k hk; omega
  | succ fuel ih =>
    intro h k hk hh hslot hbefore
    have h0 : (h + 0) % H = h := by simpa using Nat.mod_eq_of_lt hh
    by_cases hv : s.vocab_hash h = -1
    · simp [SearchVocab.loop, hv]
    · cases k with
      | zero => rw [h0] at hslot; exact absurd hslot hv
      | succ k =>
        have hb0 := hbefore 0 (by omega)
        rw [h0] at hb0
        simp only [SearchVocab.loop, hv, hb0 hv, if_false]
        apply ih ((h + 1) % H) k (by omega) (Nat.mod_lt _ (by omega))
        · rw [step_offset]; exact hslot
        · intro j hj; rw [step_offset]; exact hbefore (j + 1) (by omega)

/-! ## The invariant of the hash index -/

theorem HashInv.empty (H : Nat) : HashInv H (fun _ => -1) [] where
  slots := fun _ _ => Or.inl rfl
  inj := fun _ _ _ _ h => absurd rfl h
  path := fun e he => by simp at he
  card := by simp

theorem HashInv.exists_empty {H : Nat} {vh : Nat → Int} {es : List (Nat × List Nat)}
    (inv : HashInv H vh es) (hroom : es.length < H) : ∃ p, p < H ∧ vh p = -1 := by
  by_contra hne
  have hall : (Finset.range H).filter (fun p => vh p ≠ -1) = Finset.range H := by
    apply Finset.filter_true_of_mem
    intro p hp heq
    exact hne ⟨p, Finset.mem_range.mp hp, heq⟩
  have := inv.card
  rw [hall, Finset.card_range] at this
  omega

theorem card_update_empty (H : Nat) (vh : Nat → Int) (p a : Nat) (hp : p < H) (hempty : vh p = -1) :
    ((Finset.range H).filter (fun q => Function.update vh p (a : Int) q ≠ -1)).card =
      ((Finset.range H).filter (fun q => vh q ≠ -1)).card + 1 := by
  have hset : (Finset.range H).filter (fun q => Function.update vh p (a : Int) q ≠ -1) =
      insert p ((Finset.range H).filter (fun q => vh q ≠ -1)) := by
    ext q
    simp only [Finset.mem_filter, Finset.mem_range, Finset.mem_insert]
    by_cases hq : q = p
    · subst hq
      simp only [Function.update_same, hempty, true_or, iff_true]
      exact ⟨hp, by omega⟩
    · simp only [Function.update_noteq hq, hq, false_or]
  rw [hset, Finset.card_insert_of_not_mem]
  simp [hempty]

/-- Storing a new index in the slot found by the probe keeps the invariant. -/
theorem HashInv.insert {H : Nat} {vh : Nat → Int} {es : List (Nat × List Nat)}
    (inv : HashInv H vh es) (a : Nat) (w : List Nat) (hnew : ∀ e, e ∈ es → e.1 ≠ a)
    (hroom : es.length < H) :
    ∃ p, p < H ∧ vh p = -1 ∧ probeEmpty H vh H (GetWordHash H w) = some p ∧
      HashInv H (Function.update vh p (a : Int)) (es ++ [(a, w)]) := by
  have hH : 0 < H := by omega
  obtain ⟨p0, hp0, hp0e⟩ := inv.exists_empty hroom
  obtain ⟨k, hk, hres, hempty, hbefore⟩ :=
    probeEmpty_of_empty H vh (GetWordHash H w) p0 (GetWordHash_lt H hH w) hp0 hp0e
  have hp : (GetWordHash H w + k) % H < H := Nat.mod_lt _ hH
  refine ⟨_, hp, hempty, hres, ?_⟩
  generalize hpdef : (GetWordHash H w + k) % H = p at hp hempty hres hbefore
  have hupd_ne : ∀ q, vh q ≠ -1 → Function.update vh p (a : Int) q = vh q := by
    intro q hq
    apply Function.update_noteq
    intro hqp; rw [hqp] at hq; exact hq hempty
  constructor
  · intro q hq
    by_cases hqp : q = p
    · right
      exact ⟨(a, w), by simp, by rw [hqp, Function.update_same]⟩
    · rw [Function.update_noteq hqp]
      rcases inv.slots q hq with h | ⟨e, he, hv⟩
      · exact Or.inl h
      · exact Or.inr ⟨e, by simp [he], hv⟩
  · intro q r hq hr hne heq
    by_cases hqp : q = p
    · by_cases hrp : r = p
      · rw [hqp, hrp]
      · exfalso
        rw [hqp, Function.update_same, Function.update_noteq hrp] at heq
        rcases inv.slots r hr with h | ⟨e, he, hv⟩
        · rw [h] at heq; omega
        · rw [hv] at heq
          exact hnew e he (by exact_mod_cast heq.symm)
    · by_cases hrp : r = p
      · exfalso
        rw [hrp, Function.update_same, Function.update_noteq hqp] at heq
        rcases inv.slots q hq with h | ⟨e, he, hv⟩
        · rw [h] at heq; omega
        · rw [hv] at heq
          exact hnew e he (by exact_mod_cast heq)
      · rw [Function.update_noteq hqp] at hne heq
        rw [Function.update_noteq hrp] at heq
        exact inv.inj q r hq hr hne heq
  · intro e he
    rcases List.mem_append.mp he with he | he
    · obtain ⟨m, hm, hslot, hb⟩ := inv.path e he
      have hne : vh ((GetWordHash H e.2 + m) % H) ≠ -1 := by rw [hslot]; omega
      refine ⟨m, hm, by rw [hupd_ne _ hne]; exact hslot, ?_⟩
      intro j hj
      rw [hupd_ne _ (hb j hj)]
      exact hb j hj
    · simp only [List.mem_singleton] at he
      subst he
      refine ⟨k, hk, by rw [hpdef, Function.update_same], ?_⟩
      intro j hj
      rw [hupd_ne _ (hbefore j hj)]
      exact hbefore j hj
  · rw [card_update_empty H vh p a hp hempty, inv.card]
    simp

theorem indexed_length (vs : List vocab_word) : ∀ a, (indexed a vs).length = vs.length := by
  induction vs with
  | nil => intro a; rfl
  | cons v vs ih => intro a; simp [indexed, ih]

theorem indexed_append (xs ys : List vocab_word) :
    ∀ a, indexed a (xs ++ ys) = indexed a xs ++ indexed (a + xs.length) ys := by
  induction xs with
  | nil => intro a; simp [indexed]
  | cons x xs ih =>
    intro a
    have h := ih (a + 1)
    have : a + 1 + xs.length = a + (xs.length + 1) := by omega
    rw [this] at h
    simp only [List.cons_append, indexed, List.length_cons]
    rw [← h]
    rfl

theorem mem_indexed (vs : List vocab_word) :
    ∀ a (e : Nat × List Nat), e ∈ indexed a vs ↔
      ∃ j, j < vs.length ∧ e.1 = a + j ∧ e.2 = (vs.getD j default).word := by
  induction vs with
  | nil => intro a e; simp [indexed]
  | cons v vs ih =>
    intro a e
    simp only [indexed, List.mem_cons, ih, List.length_cons]
    constructor
    · rintro (h | ⟨j, hj, h1, h2⟩)
      · exact ⟨0, by omega, by simp [h], by simp [h]⟩
      · exact ⟨j + 1, by omega, by omega, by simpa using h2⟩
    · rintro ⟨j, hj, h1, h2⟩
      cases j with
      | zero =>
        left
        apply Prod.ext
        · simpa using h1
        · simpa using h2
      | succ j => exact Or.inr ⟨j, by omega, by omega, by simpa using h2⟩

/-- The rebuilding loop from an invariant table never hangs while the cells
fit, and gives an invariant table over the old and the new entries. -/
theorem rehash_inv (H : Nat) (vs : List vocab_word) :
    ∀ (a : Nat) (vh : Nat → Int) (es : List (Nat × List Nat)), HashInv H vh es →
      (∀ e, e ∈ es → e.1 < a) → es.length + vs.length ≤ H →
      ∃ vh', ReduceVocab.rehash H vs a vh = some vh' ∧ HashInv H vh' (es ++ indexed a vs) := by
  induction vs with
  | nil =>
    intro a vh es inv _ _
    exact ⟨vh, rfl, by simpa [indexed] using inv⟩
  | cons v vs ih =>
    intro a vh es inv hlt hfit
    simp only [List.length_cons] at hfit
    obtain ⟨p, _, _, hres, inv'⟩ :=
      inv.insert a v.word (fun e he => Nat.ne_of_lt (hlt e he)) (by omega)
    obtain ⟨vh', hvh', inv''⟩ := ih (a + 1) _ (es ++ [(a, v.word)]) inv'
      (by
        intro e he
        rcases List.mem_append.mp he with he | he
        · exact Nat.lt_succ_of_lt (hlt e he)
        · simp only [List.mem_singleton] at he; subst he; exact Nat.lt_succ_self a)
      (by simp; omega)
    refine ⟨vh', ?_, ?_⟩
    · simp only [ReduceVocab.rehash, hres]; exact hvh'
    · simpa [indexed] using inv''

/-! ## The invariant of the counting phase -/

theorem word_inj (vs : List vocab_word) (hnd : (vs.map (fun v => v.word)).Nodup) (i j : Nat)
    (hi : i < vs.length) (hj : j < vs.length)
    (h : (vs.getD i default).word = (vs.getD j default).word) : i = j := by
  have hi' : i < (vs.map (fun v => v.word)).length := by simpa using hi
  have hj' : j < (vs.map (fun v => v.word)).length := by simpa using hj
  apply (@List.Nodup.getElem_inj_iff _ _ hnd i hi' j hj').mp
  rw [List.getD_eq_getElem _ _ hi, List.getD_eq_getElem _ _ hj] at h
  simpa using h

theorem mem_words_iff (vs : List vocab_word) (w : List Nat) :
    w ∈ vs.map (fun v => v.word) ↔ ∃ i, i < vs.length ∧ (vs.getD i default).word = w := by
  constructor
  · intro h
    obtain ⟨v, hv, rfl⟩ := List.mem_map.mp h
    obtain ⟨i, hi, rfl⟩ := List.getElem_of_mem hv
    exact ⟨i, hi, by rw [List.getD_eq_getElem _ _ hi]⟩
  · rintro ⟨i, hi, rfl⟩
    rw [List.getD_eq_getElem _ _ hi]
    exact List.mem_map.mpr ⟨_, List.getElem_mem hi, rfl⟩

/-- A word of the vocabulary is found at its index. -/
theorem SearchVocab_found (H : Nat) (s : State) (inv : StateInv H s) (i : Nat)
    (hi : i < s.vocab.length) :
    SearchVocab H s (s.vocab.getD i default).word = some (i : Int) := by
  obtain ⟨_, hnd, hinv⟩ := inv
  have hmem : (i, (s.vocab.getD i default).word) ∈ indexed 0 s.vocab :=
    (mem_indexed s.vocab 0 _).mpr ⟨i, hi, by simp, rfl⟩
  obtain ⟨k, hk, hslot, hbefore⟩ := hinv.path _ hmem
  have hH : 0 < H := by omega
  unfold SearchVocab
  apply SearchVocab_loop_hit H s _ (i : Int) (by omega) (by simp) H _ k hk
    (GetWordHash_lt H hH _) hslot
  intro j hj
  refine ⟨hbefore j hj, ?_⟩
  intro hw
  rcases hinv.slots _ (Nat.mod_lt (GetWordHash H (s.vocab.getD i default).word + j) hH) with h | ⟨e, he, hv⟩
  · exact absurd h (hbefore j hj)
  · obtain ⟨m, hm, h1, _⟩ := (mem_indexed s.vocab 0 e).mp he
    rw [hv] at hw ⊢
    simp only [Int.toNat_ofNat] at hw
    have : e.1 = m := by omega
    rw [this] at hw ⊢
    have := word_inj s.vocab hnd i m hi hm hw
    rw [this]

/-- A word that is not in the vocabulary is reported as `-1`, as long as the
table has a free slot. -/
theorem SearchVocab_absent (H : Nat) (s : State) (inv : StateInv H s) (w : List Nat)
    (hroom : s.vocab.length < H) (hw : w ∉ s.vocab.map (fun v => v.word)) :
    SearchVocab H s w = some (-1) := by
  obtain ⟨_, _, hinv⟩ := inv
  have hH : 0 < H := by omega
  obtain ⟨p, hp, hpe⟩ := hinv.exists_empty (by rw [indexed_length]; exact hroom)
  obtain ⟨k, hk, hkp⟩ := exists_offset H (GetWordHash H w) p (GetWordHash_lt H hH w) hp
  unfold SearchVocab
  apply SearchVocab_loop_miss H s w H _ k hk (GetWordHash_lt H hH w) (by rw [hkp]; exact hpe)
  intro j _ hne heq
  rcases hinv.slots _ (Nat.mod_lt (GetWordHash H w + j) hH) with h | ⟨e, he, hv⟩
  · exact hne h
  · obtain ⟨m, hm, h1, _⟩ := (mem_indexed s.vocab 0 e).mp he
    rw [hv] at heq
    simp only [Int.toNat_ofNat] at heq
    apply hw
    rw [heq]
    exact (mem_words_iff s.vocab _).mpr ⟨e.1, by omega, rfl⟩

/-- The result of `SearchVocab` on an invariant state with a free slot. -/
theorem SearchVocab_spec (H : Nat) (s : State) (inv : StateInv H s) (w : List Nat)
    (hroom : s.vocab.length < H) :
    (w ∉ s.vocab.map (fun v => v.word) ∧ SearchVocab H s w = some (-1)) ∨
      ∃ i, i < s.vocab.length ∧ (s.vocab.getD i default).word = w ∧
        SearchVocab H s w = some (i : Int) := by
  by_cases hw : w ∈ s.vocab.map (fun v => v.word)
  · obtain ⟨i, hi, hwi⟩ := (mem_words_iff s.vocab w).mp hw
    exact Or.inr ⟨i, hi, hwi, by rw [← hwi]; exact SearchVocab_found H s inv i hi⟩
  · exact Or.inl ⟨hw, SearchVocab_absent H s inv w hroom hw⟩

/-- `AddWordToVocab` of a new word on an invariant state with a free slot. -/
theorem AddWordToVocab_inv (H : Nat) (s : State) (inv : StateInv H s) (w : List Nat)
    (hroom : s.vocab.length < H) (hw : w ∉ s.vocab.map (fun v => v.word)) :
    ∃ p, p < H ∧ s.vocab_hash p = -1 ∧
      AddWordToVocab H w s = some { s with
        vocab := s.vocab ++ [⟨0, w⟩]
        vocab_size := s.vocab_size + 1
        vocab_hash := Function.update s.vocab_hash p (s.vocab_size : Int) } ∧
      StateInv H { s with
        vocab := s.vocab ++ [⟨0, w⟩]
        vocab_size := s.vocab_size + 1
        vocab_hash := Function.update s.vocab_hash p (s.vocab_size : Int) } := by
  obtain ⟨hlen, hnd, hinv⟩ := inv
  obtain ⟨p, hp, hpe, hres, hinv'⟩ := hinv.insert s.vocab_size w
    (by
      intro e he
      obtain ⟨m, hm, h1, _⟩ := (mem_indexed s.vocab 0 e).mp he
      omega)
    (by rw [indexed_length]; exact hroom)
  refine ⟨p, hp, hpe, ?_, ?_, ?_, ?_⟩
  · simp only [AddWordToVocab, hres]
    rw [← hlen, List.take_length]
  · simp [hlen]
  · simp only [List.map_append, List.map_cons, List.map_nil]
    rw [List.nodup_append]
    refine ⟨hnd, by simp, ?_⟩
    intro a ha hb
    simp only [List.mem_singleton] at hb
    subst hb
    exact hw ha
  · simp only
    rw [indexed_append, ← hlen]
    simpa [indexed, hlen] using hinv'

theorem setCn_length (vs : List vocab_word) (i : Nat) (f : Int → Int) :
    (setCn vs i f).length = vs.length := by
  simp [setCn]

theorem setCn_words (vs : List vocab_word) (f : Int → Int) :
    ∀ i, (setCn vs i f).map (fun v => v.word) = vs.map (fun v => v.word) := by
  induction vs with
  | nil => intro i; simp [setCn]
  | cons v vs ih =>
    intro i
    cases i with
    | zero => simp [setCn]
    | succ i =>
      have := ih i
      simp only [setCn] at this
      simp [setCn, this]

theorem indexed_eq_of_words (xs ys : List vocab_word) :
    ∀ a, xs.map (fun v => v.word) = ys.map (fun v => v.word) → indexed a xs = indexed a ys := by
  induction xs generalizing ys with
  | nil =>
    intro a h
    cases ys with
    | nil => rfl
    | cons y ys => simp at h
  | cons x xs ih =>
    intro a h
    cases ys with
    | nil => simp at h
    | cons y ys =>
      simp only [List.map_cons, List.cons.injEq] at h
      simp only [indexed, h.1, ih ys (a + 1) h.2]

/-- Changing counts keeps the invariant. -/
theorem StateInv_of_words (H : Nat) (s t : State) (inv : StateInv H s)
    (hw : t.vocab.map (fun v => v.word) = s.vocab.map (fun v => v.word))
    (hsize : t.vocab_size = s.vocab_size) (hhash : t.vocab_hash = s.vocab_hash) :
    StateInv H t := by
  obtain ⟨hlen, hnd, hinv⟩ := inv
  have hl : t.vocab.length = s.vocab.length := by
    have := congrArg List.length hw
    simpa using this
  refine ⟨by omega, by rw [hw]; exact hnd, ?_⟩
  rw [hhash, indexed_eq_of_words t.vocab s.vocab 0 hw]
  exact hinv

/-! ## The compaction loop of `ReduceVocab` -/

theorem take_set_succ (arr : List vocab_word) (b : Nat) (x : vocab_word) (hb : b < arr.length) :
    (arr.set b x).take (b + 1) = arr.take b ++ [x] := by
  apply List.ext_getElem?
  intro i
  rw [List.getElem?_take]
  by_cases hi : i < b
  · rw [if_pos (by omega), List.getElem?_set_ne (by omega),
      List.getElem?_append_left (by simp; omega), List.getElem?_take, if_pos hi]
  · by_cases hib : i = b
    · subst hib
      rw [if_pos (by omega), List.getElem?_set_self hb,
        List.getElem?_append_right (by simp)]
      simp [Nat.min_eq_left (Nat.le_of_lt hb)]
    · rw [if_neg (by omega), List.getElem?_append_right (by simp; omega)]
      simp [Nat.min_eq_left (Nat.le_of_lt hb)]
      omega

/-- The in-place compaction keeps, below the new `b`, the cells already kept
followed by the cells of the scanned range with `cn > min_reduce`, in order. -/
theorem compact_spec (mr : Int) :
    ∀ (n a b : Nat) (arr : List vocab_word), b ≤ a → a + n ≤ arr.length →
      ((ReduceVocab.compact mr n a b arr).1.take (ReduceVocab.compact mr n a b arr).2 =
          arr.take b ++ ((arr.drop a).take n).filter (fun v => decide (v.cn > mr))) ∧
        (ReduceVocab.compact mr n a b arr).2 =
          b + (((arr.drop a).take n).filter (fun v => decide (v.cn > mr))).length := by
  intro n
  induction n with
  | zero => intro a b arr _ _; simp [ReduceVocab.compact]
  | succ n ih =>
    intro a b arr hba hlen
    have ha : a < arr.length := by omega
    have hx : arr.getD a default = arr[a] := List.getD_eq_getElem _ _ ha
    have hdrop : (arr.drop a).take (n + 1) = arr[a] :: (arr.drop (a + 1)).take n := by
      rw [List.drop_eq_getElem_cons ha, List.take_succ_cons]
    by_cases hk : arr[a].cn > mr
    · have hb : b < arr.length := by omega
      obtain ⟨h1, h2⟩ := ih (a + 1) (b + 1) (arr.set b arr[a]) (by omega) (by simp; omega)
      rw [List.drop_set_of_lt _ _ (by omega), take_set_succ arr b _ hb] at h1
      rw [List.drop_set_of_lt _ _ (by omega)] at h2
      simp only [ReduceVocab.compact, hx, hk, if_true, hdrop, List.filter_cons, decide_True]
      refine ⟨by rw [h1]; simp, by rw [h2]; simp; omega⟩
    · obtain ⟨h1, h2⟩ := ih (a + 1) b arr (by omega) (by omega)
      simp only [ReduceVocab.compact, hx, hk, if_false, hdrop, List.filter_cons, decide_False]
      exact ⟨h1, h2⟩

theorem compact_eq_filter (mr : Int) (vs : Nat) (arr : List vocab_word) (h : vs ≤ arr.length) :
    (ReduceVocab.compact mr vs 0 0 arr).1.take (ReduceVocab.compact mr vs 0 0 arr).2 =
        (arr.take vs).filter (fun v => decide (v.cn > mr)) ∧
      (ReduceVocab.compact mr vs 0 0 arr).2 =
        ((arr.take vs).filter (fun v => decide (v.cn > mr))).length := by
  have := compact_spec mr vs 0 0 arr (Nat.le_refl 0) (by omega)
  simpa using this

/-- `ReduceVocab` on a state whose live cells have distinct words and whose
kept cells fit into the table. -/
theorem ReduceVocab_inv (H : Nat) (s : State) (hlen : s.vocab.length = s.vocab_size)
    (hnd : (s.vocab.map (fun v => v.word)).Nodup)
    (hfit : (s.vocab.filter (fun v => decide (v.cn > s.min_reduce))).length ≤ H) :
    ∃ vh, ReduceVocab H s = some { s with
        vocab := s.vocab.filter (fun v => decide (v.cn > s.min_reduce))
        vocab_size := (s.vocab.filter (fun v => decide (v.cn > s.min_reduce))).length
        vocab_hash := vh
        min_reduce := s.min_reduce + 1 } ∧
      StateInv H { s with
        vocab := s.vocab.filter (fun v => decide (v.cn > s.min_reduce))
        vocab_size := (s.vocab.filter (fun v => decide (v.cn > s.min_reduce))).length
        vocab_hash := vh
        min_reduce := s.min_reduce + 1 } := by
  obtain ⟨vh, hvh, hinv⟩ := rehash_inv H (s.vocab.filter (fun v => decide (v.cn > s.min_reduce)))
    0 (fun _ => -1) [] (HashInv.empty H) (by simp) (by simpa using hfit)
  obtain ⟨hc1, hc2⟩ := compact_eq_filter s.min_reduce s.vocab_size s.vocab (by omega)
  rw [← hlen, List.take_length] at hc1 hc2
  refine ⟨vh, ?_, rfl, ?_, by simpa using hinv⟩
  · simp only [ReduceVocab]
    rw [← hlen, hc1, hc2, hvh]
  · exact List.Nodup.sublist (List.Sublist.map _ (List.filter_sublist _)) hnd

/-! ## `VocabCompare` and `qsort` -/

theorem toInt32_of_range (x : Int) (h1 : -(2 ^ 31) ≤ x) (h2 : x < 2 ^ 31) : toInt32 x = x := by
  unfold toInt32
  norm_num at h1 h2 ⊢
  omega

theorem VocabCompare_le_iff (a b : vocab_word) (ha : 0 ≤ a.cn ∧ a.cn < 2 ^ 31)
    (hb : 0 ≤ b.cn ∧ b.cn < 2 ^ 31) : VocabCompare a b ≤ 0 ↔ b.cn ≤ a.cn := by
  unfold VocabCompare
  rw [toInt32_of_range _ (by norm_num at ha hb ⊢; omega) (by norm_num at ha hb ⊢; omega)]
  omega

theorem qsort_insert_perm (cmp : vocab_word → vocab_word → Int) (x : vocab_word) :
    ∀ ys, (qsort.insert cmp x ys).Perm (x :: ys) := by
  intro ys
  induction ys with
  | nil => exact List.Perm.refl _
  | cons y ys ih =>
    by_cases h : cmp x y ≤ 0
    · simp only [qsort.insert, h, if_true]; exact List.Perm.refl _
    · simp only [qsort.insert, h, if_false]
      exact ((List.Perm.cons y ih).trans (List.Perm.swap x y ys))

/-- The model of `qsort` permutes the cells. -/
theorem qsort_perm (cmp : vocab_word → vocab_word → Int) :
    ∀ l, (qsort cmp l).Perm l := by
  intro l
  induction l with
  | nil => exact List.Perm.refl _
  | cons x xs ih =>
    simp only [qsort]
    exact (qsort_insert_perm cmp x _).trans (List.Perm.cons x ih)

theorem qsort_insert_sorted (x : vocab_word) (hx : 0 ≤ x.cn ∧ x.cn < 2 ^ 31) :
    ∀ ys, (∀ v, v ∈ ys → 0 ≤ v.cn ∧ v.cn < 2 ^ 31) →
      ys.Pairwise (fun a b => b.cn ≤ a.cn) →
      (qsort.insert VocabCompare x ys).Pairwise (fun a b => b.cn ≤ a.cn) := by
  intro ys
  induction ys with
  | nil => intro _ _; simp [qsort.insert]
  | cons y ys ih =>
    intro hr hs
    have hy := hr y (List.mem_cons_self y ys)
    rw [List.pairwise_cons] at hs
    by_cases h : VocabCompare x y ≤ 0
    · simp only [qsort.insert, h, if_true]
      have hxy := (VocabCompare_le_iff x y hx hy).mp h
      rw [List.pairwise_cons]
      refine ⟨?_, List.pairwise_cons.mpr hs⟩
      intro z hz
      rcases List.mem_cons.mp hz with rfl | hz
      · exact hxy
      · exact le_trans (hs.1 z hz) hxy
    · simp only [qsort.insert, h, if_false]
      have hxy : ¬ y.cn ≤ x.cn := fun hc => h ((VocabCompare_le_iff x y hx hy).mpr hc)
      rw [List.pairwise_cons]
      refine ⟨?_, ih (fun v hv => hr v (List.mem_cons_of_mem y hv)) hs.2⟩
      intro z hz
      rcases List.mem_cons.mp ((qsort_insert_perm VocabCompare x ys).mem_iff.mp hz) with rfl | hz
      · omega
      · exact hs.1 z hz

/-- On counts in `[0, 2^31)` the model of `qsort` with `VocabCompare` orders the
cells by non-increasing count. -/
theorem qsort_sorted :
    ∀ l : List vocab_word, (∀ v, v ∈ l → 0 ≤ v.cn ∧ v.cn < 2 ^ 31) →
      (qsort VocabCompare l).Pairwise (fun a b => b.cn ≤ a.cn) := by
  intro l
  induction l with
  | nil => intro _; simp [qsort]
  | cons x xs ih =>
    intro hr
    simp only [qsort]
    apply qsort_insert_sorted x (hr x (List.mem_cons_self x xs))
    · intro v hv
      exact hr v (List.mem_cons_of_mem x ((qsort_perm VocabCompare xs).mem_iff.mp hv))
    · exact ih (fun v hv => hr v (List.mem_cons_of_mem x hv))

/-! ## The main loop of `SortVocab` -/

theorem keptIndexed_length_le (mc : Int) (vs : List vocab_word) :
    ∀ a, (keptIndexed mc a vs).length ≤ vs.length := by
  induction vs with
  | nil => intro a; simp [keptIndexed]
  | cons v vs ih =>
    intro a
    have := ih (a + 1)
    by_cases h : v.cn < mc <;> simp [keptIndexed, h] <;> omega

theorem keptIndexed_ge (mc : Int) (vs : List vocab_word) :
    ∀ a e, e ∈ keptIndexed mc a vs → a ≤ e.1 := by
  induction vs with
  | nil => intro a e he; simp [keptIndexed] at he
  | cons v vs ih =>
    intro a e he
    by_cases h : v.cn < mc
    · simp only [keptIndexed, h, if_true] at he
      exact Nat.le_of_succ_le (ih (a + 1) e he)
    · simp only [keptIndexed, h, if_false, List.mem_cons] at he
      rcases he with rfl | he
      · exact Nat.le_refl _
      · exact Nat.le_of_succ_le (ih (a + 1) e he)

/-- The main loop of `SortVocab` never hangs while the cells fit into the
table; it lowers `vocab_size` once per cell below `min_count`, adds the other
counts to `train_words` and stores the other cells in the index. -/
theorem SortVocab_loop_spec (H : Nat) (mc : Int) (L : List vocab_word) :
    ∀ (a vs : Nat) (vh : Nat → Int) (tw : Int) (es : List (Nat × List Nat)),
      HashInv H vh es → (∀ e, e ∈ es → e.1 < a) → es.length + L.length ≤ H →
      ∃ vh', SortVocab.loop H mc L a (vs, vh, tw) =
          some (vs - (L.filter (fun v => decide (v.cn < mc))).length, vh',
            tw + ((L.filter (fun v => decide (mc ≤ v.cn))).map (fun v => v.cn)).sum) ∧
        HashInv H vh' (es ++ keptIndexed mc a L) := by
  induction L with
  | nil =>
    intro a vs vh tw es inv _ _
    exact ⟨vh, by simp [SortVocab.loop], by simpa [keptIndexed] using inv⟩
  | cons v L ih =>
    intro a vs vh tw es inv hlt hfit
    simp only [List.length_cons] at hfit
    by_cases h : v.cn < mc
    · obtain ⟨vh', hres, inv'⟩ := ih (a + 1) (vs - 1) vh tw es inv
        (fun e he => Nat.lt_succ_of_lt (hlt e he)) (by omega)
      refine ⟨vh', ?_, by simpa [keptIndexed, h] using inv'⟩
      have hf1 : (v :: L).filter (fun v => decide (v.cn < mc)) =
          v :: L.filter (fun v => decide (v.cn < mc)) := by simp [h]
      have hf2 : (v :: L).filter (fun v => decide (mc ≤ v.cn)) =
          L.filter (fun v => decide (mc ≤ v.cn)) := by
        have h' : ¬ mc ≤ v.cn := by omega
        simp [h']
      rw [hf1, hf2]
      simp only [SortVocab.loop, h, if_true, hres, List.length_cons]
      congr 2
      omega
    · obtain ⟨p, _, _, hp, inv1⟩ :=
        inv.insert a v.word (fun e he => Nat.ne_of_lt (hlt e he)) (by omega)
      obtain ⟨vh', hres, inv'⟩ := ih (a + 1) vs _ (tw + v.cn) (es ++ [(a, v.word)]) inv1
        (by
          intro e he
          rcases List.mem_append.mp he with he | he
          · exact Nat.lt_succ_of_lt (hlt e he)
          · simp only [List.mem_singleton] at he; subst he; exact Nat.lt_succ_self a)
        (by simp; omega)
      refine ⟨vh', ?_, by simpa [keptIndexed, h] using inv'⟩
      have hf1 : (v :: L).filter (fun v => decide (v.cn < mc)) =
          L.filter (fun v => decide (v.cn < mc)) := by simp [h]
      have hf2 : (v :: L).filter (fun v => decide (mc ≤ v.cn)) =
          v :: L.filter (fun v => decide (mc ≤ v.cn)) := by
        have h' : mc ≤ v.cn := by omega
        simp [h']
      rw [hf1, hf2]
      simp only [SortVocab.loop, h, if_false, hp, hres, List.map_cons, List.sum_cons]
      congr 3
      omega

/-- In a list in non-increasing order of count, a cell below `min_count` is
followed only by cells below `min_count`. -/
theorem low_suffix (mc : Int) :
    ∀ (T : List vocab_word), T.Pairwise (fun a b => b.cn ≤ a.cn) → ∀ j, j < T.length →
      (T.getD j default).cn < mc →
      T.length - j ≤ (T.filter (fun v => decide (v.cn < mc))).length := by
  intro T
  induction T with
  | nil => intro _ j hj; simp at hj
  | cons x T ih =>
    intro hs j hj hlow
    rw [List.pairwise_cons] at hs
    cases j with
    | zero =>
      simp only [List.getD_cons_zero] at hlow
      have hall : ∀ v, v ∈ x :: T → decide (v.cn < mc) = true := by
        intro v hv
        rcases List.mem_cons.mp hv with rfl | hv
        · simpa using hlow
        · have := hs.1 v hv
          simp only [decide_eq_true_eq]
          omega
      rw [List.filter_eq_self.mpr hall]
      omega
    | succ j =>
      simp only [List.getD_cons_succ] at hlow
      have := ih hs.2 j (by simpa using hj) hlow
      have hle : (T.filter (fun v => decide (v.cn < mc))).length ≤
          ((x :: T).filter (fun v => decide (v.cn < mc))).length := by
        rw [List.filter_cons]
        split <;> simp
      simp only [List.length_cons]
      omega

theorem exists_of_map_eq {β : Type} (f : State → β) (o : Option State) (b : β)
    (h : o.map f = some b) : ∃ t, o = some t ∧ f t = b := by
  cases o with
  | none => simp at h
  | some t => exact ⟨t, rfl, by simpa using h⟩

/-- C1 (as stated, refuted): on the vocabulary `</s>` (count 0), `a` (count 10),
`b` (count 1) and `min_count = 5`, `SortVocab` leaves `vocab_size = 1` and the
surviving entry 0 has count `0 < 5`. -/
theorem SortVocab_keeps_low_entry0 :
    ∃ t, SortVocab vocab_hash_size 5
        ⟨[⟨0, eos⟩, ⟨10, [97]⟩, ⟨1, [98]⟩], 3, fun _ => -1, 1, 0⟩ = some t ∧
      ∃ i, i < t.vocab_size ∧ (t.vocab.getD i default).cn < 5 := by
  obtain ⟨t, ht, hv⟩ := exists_of_map_eq
    (fun t => (t.vocab_size, (t.vocab.getD 0 default).cn))
    (SortVocab vocab_hash_size 5 ⟨[⟨0, eos⟩, ⟨10, [97]⟩, ⟨1, [98]⟩], 3, fun _ => -1, 1, 0⟩)
    (1, 0) (by decide)
  simp only [Prod.mk.injEq] at hv
  exact ⟨t, ht, 0, by omega, by omega⟩

/-- C1 (amended): for every vocabulary with at least entry 0, whose live
cells fit into the hash table and whose entries from index 1 on have counts in
`[0, 2^31)`, and for every `min_count`, `SortVocab` returns, entry 0 is kept
whatever its count, and every entry at an index `1 ≤ i < vocab_size` (the new
`vocab_size`) has count at least `min_count`. -/
theorem SortVocab_tail_ge_min_count (H : Nat) (min_count : Int) (s : State)
    (hpos : 0 < s.vocab_size) (hwf : s.vocab_size ≤ s.vocab.length) (hfit : s.vocab_size ≤ H)
    (hrange : ∀ v, v ∈ (s.vocab.take s.vocab_size).drop 1 → 0 ≤ v.cn ∧ v.cn < 2 ^ 31) :
    ∃ t, SortVocab H min_count s = some t ∧
      t.vocab.getD 0 default = s.vocab.getD 0 default ∧
      ∀ i, 1 ≤ i → i < t.vocab_size → min_count ≤ (t.vocab.getD i default).cn := by
  obtain ⟨x, rest, hlive⟩ : ∃ x rest, s.vocab.take s.vocab_size = x :: rest := by
    cases hl : s.vocab.take s.vocab_size with
    | nil =>
      have := congrArg List.length hl
      rw [List.length_take, List.length_nil] at this
      omega
    | cons x rest => exact ⟨x, rest, rfl⟩
  have hx : s.vocab.getD 0 default = x := by
    have h0 : (s.vocab.take s.vocab_size)[0]? = some x := by rw [hlive]; simp
    rw [List.getElem?_take, if_pos hpos] at h0
    simp [List.getD_eq_getElem?_getD, h0]
  have hn : rest.length + 1 = s.vocab_size := by
    have := congrArg List.length hlive
    rw [List.length_take, List.length_cons] at this
    omega
  have hrest : ∀ v, v ∈ rest → 0 ≤ v.cn ∧ v.cn < 2 ^ 31 := by
    intro v hv; apply hrange; rw [hlive]; simpa using hv
  have hT := qsort_sorted rest hrest
  have hTlen : (qsort VocabCompare rest).length = rest.length := (qsort_perm _ rest).length_eq
  obtain ⟨vh', hloop, _⟩ := SortVocab_loop_spec H min_count (x :: qsort VocabCompare rest) 0
    s.vocab_size (fun _ => -1) 0 [] (HashInv.empty H) (by simp) (by simp; omega)
  have hS : SortVocab H min_count s = some { s with
      vocab := (x :: qsort VocabCompare rest).take
        (s.vocab_size - ((x :: qsort VocabCompare rest).filter
          (fun v => decide (v.cn < min_count))).length + 1)
      vocab_size := s.vocab_size - ((x :: qsort VocabCompare rest).filter
          (fun v => decide (v.cn < min_count))).length
      vocab_hash := vh'
      train_words := 0 + (((x :: qsort VocabCompare rest).filter
          (fun v => decide (min_count ≤ v.cn))).map (fun v => v.cn)).sum } := by
    simp only [SortVocab, hlive, List.take_succ_cons, List.take_zero, List.drop_succ_cons,
      List.drop_zero, List.singleton_append, hloop]
  refine ⟨_, hS, ?_, ?_⟩
  · rw [hx]; simp
  · intro i hi1 hi2
    simp only at hi2 ⊢
    obtain ⟨j, rfl⟩ : ∃ j, i = j + 1 := ⟨i - 1, by omega⟩
    by_contra hlow
    have hcount : ((qsort VocabCompare rest).filter (fun v => decide (v.cn < min_count))).length ≤
        ((x :: qsort VocabCompare rest).filter (fun v => decide (v.cn < min_count))).length := by
      rw [List.filter_cons]
      split <;> simp
    have hj : j < (qsort VocabCompare rest).length := by
      have := List.length_filter_le (fun v => decide (v.cn < min_count)) (x :: qsort VocabCompare rest)
      simp only [List.length_cons] at this
      omega
    have hget : ((x :: qsort VocabCompare rest).take
        (s.vocab_size - ((x :: qsort VocabCompare rest).filter
          (fun v => decide (v.cn < min_count))).length + 1)).getD (j + 1) default =
        (qsort VocabCompare rest).getD j default := by
      simp only [List.getD_eq_getElem?_getD, List.getElem?_take, if_pos (Nat.lt_succ_of_lt hi2),
        List.getElem?_cons_succ]
    rw [hget] at hlow
    have := low_suffix min_count _ hT j hj (by omega)
    omega

/-- The amended C1 at the vocabulary `</s>` (0), `a` (10), `b` (1) with
`min_count = 5` and the program's capacity. -/
theorem SortVocab_tail_ge_min_count_witness :
    ∃ t, SortVocab vocab_hash_size 5
        ⟨[⟨0, eos⟩, ⟨10, [97]⟩, ⟨1, [98]⟩], 3, fun _ => -1, 1, 0⟩ = some t ∧
      t.vocab.getD 0 default = (⟨0, eos⟩ : vocab_word) ∧
      ∀ i, 1 ≤ i → i < t.vocab_size → (5 : Int) ≤ (t.vocab.getD i default).cn :=
  SortVocab_tail_ge_min_count vocab_hash_size 5
    ⟨[⟨0, eos⟩, ⟨10, [97]⟩, ⟨1, [98]⟩], 3, fun _ => -1, 1, 0⟩
    (by decide) (by decide) (by decide) (by decide)

/-- C2 (code at the failing input): on the training file `a a a a a b` with
one newline and `min_count = 5`, `LearnVocabFromTrainFile` ends with
`vocab_size = 1` (only `</s>`, count 1, survives) but reports
`train_words = 5`, the count of the dropped word `a`. -/
theorem LearnVocabFromTrainFile_train_words_mismatch :
    ∃ t, LearnVocabFromTrainFile vocab_hash_size 5
        [97, 32, 97, 32, 97, 32, 97, 32, 97, 32, 98, 10] = some t ∧
      t.vocab_size = 1 ∧ t.train_words = 5 ∧
      ((t.vocab.take t.vocab_size).map (fun v => v.cn)).sum = 1 := by
  obtain ⟨t, ht, hv⟩ := exists_of_map_eq
    (fun t => (t.vocab_size, t.train_words, ((t.vocab.take t.vocab_size).map (fun v => v.cn)).sum))
    (LearnVocabFromTrainFile vocab_hash_size 5 [97, 32, 97, 32, 97, 32, 97, 32, 97, 32, 98, 10])
    (1, 5, 1) (by decide)
  simp only [Prod.mk.injEq] at hv
  exact ⟨t, ht, hv.1, hv.2.1, hv.2.2⟩

/-- C3 (code at the failing input): on the training file `a a a a a b` with
one newline and `min_count = 5`, after `LearnVocabFromTrainFile` the only
surviving entry is `</s>` at index 0, yet `SearchVocab("</s>")` is `-1` and
`SearchVocab("a")` is `1`, which is not below `vocab_size = 1`. -/
theorem SearchVocab_after_SortVocab_mismatch :
    ∃ t, LearnVocabFromTrainFile vocab_hash_size 5
        [97, 32, 97, 32, 97, 32, 97, 32, 97, 32, 98, 10] = some t ∧
      t.vocab_size = 1 ∧ (t.vocab.getD 0 default).word = eos ∧
      SearchVocab vocab_hash_size t eos = some (-1) ∧
      SearchVocab vocab_hash_size t [97] = some 1 := by
  obtain ⟨t, ht, hv⟩ := exists_of_map_eq
    (fun t => (t.vocab_size, (t.vocab.getD 0 default).word,
      SearchVocab vocab_hash_size t eos, SearchVocab vocab_hash_size t [97]))
    (LearnVocabFromTrainFile vocab_hash_size 5 [97, 32, 97, 32, 97, 32, 97, 32, 97, 32, 98, 10])
    (1, eos, some (-1), some 1) (by decide)
  simp only [Prod.mk.injEq] at hv
  exact ⟨t, ht, hv.1, hv.2.1, hv.2.2.1, hv.2.2.2⟩

/-- C4 (code at the failing input): `ReduceVocab` with `min_reduce = 1` on the
vocabulary `</s>` (count 1), `a` (count 2) removes `</s>`; entry 0 is then `a`.
At capacity 4 the counting loop reaches such a state on the words `a a b`. -/
theorem ReduceVocab_prunes_entry0 :
    (∃ t, ReduceVocab vocab_hash_size ⟨[⟨1, eos⟩, ⟨2, [97]⟩], 2, fun _ => -1, 1, 0⟩ = some t ∧
      t.vocab = [⟨2, [97]⟩] ∧ t.vocab_size = 1) ∧
    (∃ t, LearnVocabFromTrainFile.count 4 [[97], [97], [98]] = some t ∧
      t.vocab = [⟨2, [97]⟩] ∧ t.vocab_size = 1) := by
  constructor
  · obtain ⟨t, ht, hv⟩ := exists_of_map_eq (fun t => (t.vocab, t.vocab_size))
      (ReduceVocab vocab_hash_size ⟨[⟨1, eos⟩, ⟨2, [97]⟩], 2, fun _ => -1, 1, 0⟩)
      ([⟨2, [97]⟩], 1) (by decide)
    simp only [Prod.mk.injEq] at hv
    exact ⟨t, ht, hv.1, hv.2⟩
  · obtain ⟨t, ht, hv⟩ := exists_of_map_eq (fun t => (t.vocab, t.vocab_size))
      (LearnVocabFromTrainFile.count 4 [[97], [97], [98]])
      ([⟨2, [97]⟩], 1) (by decide)
    simp only [Prod.mk.injEq] at hv
    exact ⟨t, ht, hv.1, hv.2⟩

/-- C8: for every vocabulary state whose live cells exist and fit into the
hash table (each live cell owns a slot, so no state of the program has more),
`ReduceVocab` returns; the new live cells are exactly the old live cells with
`cn > min_reduce`, unchanged and in their previous order (so every cell with
`cn ≤ min_reduce` is gone), `vocab_size` is their number, and `min_reduce` has
grown by exactly 1. -/
theorem ReduceVocab_keeps_exactly (H : Nat) (s : State) (hwf : s.vocab_size ≤ s.vocab.length)
    (hfit : s.vocab_size ≤ H) :
    ∃ t, ReduceVocab H s = some t ∧
      t.vocab.take t.vocab_size =
        (s.vocab.take s.vocab_size).filter (fun v => decide (v.cn > s.min_reduce)) ∧
      t.vocab_size =
        ((s.vocab.take s.vocab_size).filter (fun v => decide (v.cn > s.min_reduce))).length ∧
      t.min_reduce = s.min_reduce + 1 := by
  obtain ⟨hc1, hc2⟩ := compact_eq_filter s.min_reduce s.vocab_size s.vocab hwf
  have hle : ((s.vocab.take s.vocab_size).filter (fun v => decide (v.cn > s.min_reduce))).length ≤ H := by
    have := List.length_filter_le (fun v => decide (v.cn > s.min_reduce)) (s.vocab.take s.vocab_size)
    rw [List.length_take] at this
    omega
  obtain ⟨vh, hvh, _⟩ := rehash_inv H
    ((s.vocab.take s.vocab_size).filter (fun v => decide (v.cn > s.min_reduce)))
    0 (fun _ => -1) [] (HashInv.empty H) (by simp) (by simpa using hle)
  refine ⟨{ s with
      vocab := (s.vocab.take s.vocab_size).filter (fun v => decide (v.cn > s.min_reduce))
      vocab_size := ((s.vocab.take s.vocab_size).filter (fun v => decide (v.cn > s.min_reduce))).length
      vocab_hash := vh
      min_reduce := s.min_reduce + 1 }, ?_, by simp, rfl, rfl⟩
  simp only [ReduceVocab]
  rw [hc1, hc2, hvh]

/-- C8 at the vocabulary `</s>` (1), `a` (2), `b` (1), `c` (3) with
`min_reduce = 1` and the program's capacity. -/
theorem ReduceVocab_keeps_exactly_witness :
    ∃ t, ReduceVocab vocab_hash_size
        ⟨[⟨1, eos⟩, ⟨2, [97]⟩, ⟨1, [98]⟩, ⟨3, [99]⟩], 4, fun _ => -1, 1, 0⟩ = some t ∧
      t.vocab.take t.vocab_size = [⟨2, [97]⟩, ⟨3, [99]⟩] ∧ t.vocab_size = 2 ∧ t.min_reduce = 2 :=
  ReduceVocab_keeps_exactly vocab_hash_size
    ⟨[⟨1, eos⟩, ⟨2, [97]⟩, ⟨1, [98]⟩, ⟨3, [99]⟩], 4, fun _ => -1, 1, 0⟩ (by decide) (by decide)

/-! ## Reachable states of the hash index -/

theorem HashInv.length_le {H : Nat} {vh : Nat → Int} {es : List (Nat × List Nat)}
    (inv : HashInv H vh es) : es.length ≤ H := by
  rw [← inv.card]
  calc ((Finset.range H).filter (fun p => vh p ≠ -1)).card
      ≤ (Finset.range H).card := Finset.card_filter_le _ _
    _ = H := Finset.card_range H

theorem HashInv.full {H : Nat} {vh : Nat → Int} {es : List (Nat × List Nat)}
    (inv : HashInv H vh es) (hfull : es.length = H) : ∀ p, p < H → vh p ≠ -1 := by
  intro p hp
  have hsub : (Finset.range H).filter (fun p => vh p ≠ -1) ⊆ Finset.range H :=
    Finset.filter_subset _ _
  have heq : (Finset.range H).filter (fun p => vh p ≠ -1) = Finset.range H := by
    apply Finset.eq_of_subset_of_card_le hsub
    rw [inv.card, hfull, Finset.card_range]
  have hmem : p ∈ (Finset.range H).filter (fun p => vh p ≠ -1) := by
    rw [heq]; exact Finset.mem_range.mpr hp
  exact (Finset.mem_filter.mp hmem).2

/-- Every reachable state satisfies the invariant of the counting phase. -/
theorem Reachable.inv {H : Nat} {s : State} (hr : Reachable H s) : StateInv H s := by
  induction hr with
  | init mr tw => exact ⟨rfl, by simp, by simpa [indexed] using HashInv.empty H⟩
  | add s t word _ hnew hadd ih =>
    have hlen := ih.1
    rw [← hlen, List.take_length] at hnew
    by_cases hroom : s.vocab.length < H
    · obtain ⟨p, _, _, hres, hinv⟩ := AddWordToVocab_inv H s ih word hroom hnew
      rw [hres] at hadd
      cases hadd
      exact hinv
    · exfalso
      have hle := ih.2.2.length_le
      rw [indexed_length] at hle
      have hfull := ih.2.2.full (by rw [indexed_length]; omega)
      have hH : 0 < H ∨ H = 0 := by omega
      rcases hH with hH | hH
      · have := probeEmpty_full H s.vocab_hash hfull H (GetWordHash H word)
          (GetWordHash_lt H hH word)
        simp [AddWordToVocab, this] at hadd
      · subst hH
        simp [AddWordToVocab, probeEmpty] at hadd
  | count s i cn _ ih =>
    exact StateInv_of_words H s _ ih (setCn_words s.vocab (fun _ => cn) i) rfl rfl
  | reduce s t _ hred ih =>
    have hle := ih.2.2.length_le
    rw [indexed_length] at hle
    obtain ⟨vh, hres, hinv⟩ := ReduceVocab_inv H s ih.1 ih.2.1
      (le_trans (List.length_filter_le _ _) hle)
    rw [hres] at hred
    cases hred
    exact hinv

/-- C9: in every state reachable from the empty table by `AddWordToVocab` of
a word not yet present (and count assignments) and by `ReduceVocab`, while the
number of live entries is below the capacity, each live index is stored in
exactly one slot, no slot holds an index `≥ vocab_size`, and `SearchVocab` of
the word of a live entry returns its index. -/
theorem hash_index_invariant (H : Nat) (s : State) (hr : Reachable H s)
    (hroom : s.vocab_size < H) :
    (∀ i, i < s.vocab_size → ∃! p, p < H ∧ s.vocab_hash p = (i : Int)) ∧
    (∀ p, p < H → s.vocab_hash p < (s.vocab_size : Int)) ∧
    (∀ i, i < s.vocab_size →
      SearchVocab H s (s.vocab.getD i default).word = some (i : Int)) := by
  have inv := hr.inv
  obtain ⟨hlen, _, hinv⟩ := inv
  have hH : 0 < H := by omega
  refine ⟨?_, ?_, ?_⟩
  · intro i hi
    have hmem : (i, (s.vocab.getD i default).word) ∈ indexed 0 s.vocab :=
      (mem_indexed s.vocab 0 _).mpr ⟨i, by omega, by simp, rfl⟩
    obtain ⟨k, _, hslot, _⟩ := hinv.path _ hmem
    refine ⟨(GetWordHash H (s.vocab.getD i default).word + k) % H,
      ⟨Nat.mod_lt _ hH, hslot⟩, ?_⟩
    rintro q ⟨hq, hqv⟩
    exact hinv.inj q _ hq (Nat.mod_lt _ hH) (by rw [hqv]; omega) (by rw [hqv, hslot])
  · intro p hp
    rcases hinv.slots p hp with h | ⟨e, he, hv⟩
    · rw [h]; omega
    · obtain ⟨m, hm, h1, _⟩ := (mem_indexed s.vocab 0 e).mp he
      rw [hv]; omega
  · intro i hi
    exact SearchVocab_found H s hr.inv i (by omega)

/-- C9 at the state reached by `AddWordToVocab("</s>")` from the empty table,
with the program's capacity. -/
theorem hash_index_invariant_witness :
    (∀ i : Nat, i < 1 → ∃! p, p < vocab_hash_size ∧
      Function.update (fun _ => (-1 : Int)) 1609500 (0 : Int) p = (i : Int)) ∧
    (∀ p, p < vocab_hash_size →
      Function.update (fun _ => (-1 : Int)) 1609500 (0 : Int) p < ((1 : Nat) : Int)) ∧
    (∀ i : Nat, i < 1 →
      SearchVocab vocab_hash_size
        ⟨[⟨0, eos⟩], 1, Function.update (fun _ => (-1 : Int)) 1609500 (0 : Int), 1, 0⟩
        (([⟨0, eos⟩] : List vocab_word).getD i default).word = some (i : Int)) :=
  hash_index_invariant vocab_hash_size
    ⟨[⟨0, eos⟩], 1, Function.update (fun _ => (-1 : Int)) 1609500 (0 : Int), 1, 0⟩
    (Reachable.add ⟨[], 0, fun _ => -1, 1, 0⟩ _ eos (Reachable.init 1 0) (by decide) (by rfl))
    (by decide)

/-! ## One round of the counting loop -/

theorem modify_append_last (f : vocab_word → vocab_word) (v : vocab_word) :
    ∀ xs : List vocab_word, (xs ++ [v]).modify f xs.length = xs ++ [f v] := by
  intro xs
  induction xs with
  | nil => simp
  | cons x xs ih => simp [ih]

/-- One round of the counting loop on an invariant state with a free slot:
the state `t` before the pruning test, which either has the count of the
word's cell incremented or has the word appended with count 1. -/
theorem step_pre (H : Nat) (s : State) (w : List Nat) (inv : StateInv H s)
    (hroom : s.vocab.length < H) :
    ∃ t, StateInv H t ∧ t.min_reduce = s.min_reduce ∧ t.train_words = s.train_words + 1 ∧
      LearnVocabFromTrainFile.step H w s =
        (if 10 * t.vocab_size > 7 * H then ReduceVocab H t else some t) ∧
      ((∃ i, i < s.vocab.length ∧ (s.vocab.getD i default).word = w ∧
          t.vocab = setCn s.vocab i (fun c => c + 1) ∧ t.vocab_size = s.vocab_size) ∨
        (w ∉ s.vocab.map (fun v => v.word) ∧ t.vocab = s.vocab ++ [⟨1, w⟩] ∧
          t.vocab_size = s.vocab_size + 1)) := by
  have inv1 : StateInv H { s with train_words := s.train_words + 1 } := inv
  rcases SearchVocab_spec H { s with train_words := s.train_words + 1 } inv1 w hroom with
    ⟨habs, hsearch⟩ | ⟨i, hi, hwi, hsearch⟩
  · obtain ⟨p, _, _, hadd, hinv⟩ :=
      AddWordToVocab_inv H { s with train_words := s.train_words + 1 } inv1 w hroom habs
    refine ⟨{ s with
        train_words := s.train_words + 1
        vocab := s.vocab ++ [⟨1, w⟩]
        vocab_size := s.vocab_size + 1
        vocab_hash := Function.update s.vocab_hash p (s.vocab_size : Int) }, ?_, rfl, rfl, ?_,
      Or.inr ⟨habs, rfl, rfl⟩⟩
    · exact StateInv_of_words H _ _ hinv (by simp) rfl rfl
    · have hmod : setCn (s.vocab ++ [⟨0, w⟩]) (s.vocab_size + 1 - 1) (fun _ => 1) =
          s.vocab ++ [⟨1, w⟩] := by
        rw [Nat.add_sub_cancel, ← inv.1]
        exact modify_append_last _ _ s.vocab
      simp only [LearnVocabFromTrainFile.step, hsearch, hadd, if_true, hmod]
  · refine ⟨{ s with
        train_words := s.train_words + 1
        vocab := setCn s.vocab i (fun c => c + 1) }, ?_, rfl, rfl, ?_,
      Or.inl ⟨i, hi, hwi, rfl, rfl⟩⟩
    · exact StateInv_of_words H _ _ inv1 (setCn_words s.vocab (fun c => c + 1) i) rfl rfl
    · have hne : ¬ ((i : Int) = -1) := by omega
      simp only [LearnVocabFromTrainFile.step, hsearch, hne, if_false, Int.toNat_ofNat]

/-- The counting loop keeps the live entries within 0.7 of the capacity and
never hangs. -/
theorem loop_bound (H : Nat) (hH : 0 < H) :
    ∀ (ws : List (List Nat)) (s : State), StateInv H s → 10 * s.vocab_size ≤ 7 * H →
      1 ≤ s.min_reduce →
      ∃ t, LearnVocabFromTrainFile.loop H ws s = some t ∧ StateInv H t ∧
        10 * t.vocab_size ≤ 7 * H ∧ 1 ≤ t.min_reduce := by
  intro ws
  induction ws with
  | nil => intro s inv hb hm; exact ⟨s, rfl, inv, hb, hm⟩
  | cons w ws ih =>
    intro s inv hb hm
    have hlen := inv.1
    obtain ⟨t, tinv, tmr, _, hstep, hcase⟩ := step_pre H s w inv (by omega)
    by_cases hprune : 10 * t.vocab_size > 7 * H
    · rw [if_pos hprune] at hstep
      rcases hcase with ⟨i, _, _, _, hsz⟩ | ⟨_, hvoc, hsz⟩
      · omega
      · have hfilter : t.vocab.filter (fun v => decide (v.cn > t.min_reduce)) =
            s.vocab.filter (fun v => decide (v.cn > t.min_reduce)) := by
          rw [hvoc, List.filter_append]
          have : ¬ ((1 : Int) > t.min_reduce) := by omega
          simp [this]
        have hfl : (t.vocab.filter (fun v => decide (v.cn > t.min_reduce))).length ≤
            s.vocab_size := by
          rw [hfilter, ← hlen]
          exact List.length_filter_le _ _
        obtain ⟨vh, hred, rinv⟩ := ReduceVocab_inv H t tinv.1 tinv.2.1 (by omega)
        obtain ⟨u, hu, uinv, ub, um⟩ := ih _ rinv (by simp only; omega) (by simp only; omega)
        exact ⟨u, by simp only [LearnVocabFromTrainFile.loop, hstep, hred, hu], uinv, ub, um⟩
    · rw [if_neg hprune] at hstep
      obtain ⟨u, hu, uinv, ub, um⟩ := ih t tinv (by omega) (by omega)
      exact ⟨u, by simp only [LearnVocabFromTrainFile.loop, hstep, hu], uinv, ub, um⟩

/-- The state in which the counting loop starts. -/
theorem init_inv (H : Nat) (hH : 0 < H) :
    ∃ s, LearnVocabFromTrainFile.init H = some s ∧ StateInv H s ∧ s.vocab = [⟨0, eos⟩] ∧
      s.vocab_size = 1 ∧ s.min_reduce = 1 ∧ s.train_words = 0 := by
  have inv0 : StateInv H ⟨[], 0, fun _ => -1, 1, 0⟩ :=
    ⟨rfl, by simp, by simpa [indexed] using HashInv.empty H⟩
  obtain ⟨p, _, _, hadd, hinv⟩ := AddWordToVocab_inv H _ inv0 eos (by simpa using hH) (by simp)
  exact ⟨_, hadd, hinv, rfl, rfl, rfl, rfl⟩

/-- `SortVocab` never hangs on a state whose live cells fit into the table. -/
theorem SortVocab_some (H : Nat) (min_count : Int) (s : State) (hfit : s.vocab_size ≤ H) :
    ∃ t, SortVocab H min_count s = some t := by
  have hlen : ((s.vocab.take s.vocab_size).take 1 ++
      qsort VocabCompare ((s.vocab.take s.vocab_size).drop 1)).length ≤ H := by
    rw [List.length_append, (qsort_perm _ _).length_eq]
    simp only [List.length_take, List.length_drop]
    omega
  obtain ⟨vh', hloop, _⟩ := SortVocab_loop_spec H min_count
    ((s.vocab.take s.vocab_size).take 1 ++ qsort VocabCompare ((s.vocab.take s.vocab_size).drop 1))
    0 s.vocab_size (fun _ => -1) 0 []
    (HashInv.empty H) (by simp) (by simp only [List.length_nil, Nat.zero_add]; exact hlen)
  simp only [SortVocab, hloop]
  exact ⟨_, rfl⟩

/-- C10: for every capacity `H ≥ 4` and every word sequence, the counting loop
of `LearnVocabFromTrainFile` reaches the start of every word's round, for
every number `k` of words done (so no probe loop of an earlier round, the
rebuild of `ReduceVocab` included, has hung), with at most `⌊0.7 H⌋` live
entries and an empty slot in the table; there `SearchVocab` stops on every
word, and when it reports `-1`, `AddWordToVocab` stops too and leaves at most
`⌊0.7 H⌋ + 1 ≤ H` live entries; after the last word `SortVocab` stops as
well. -/
theorem LearnVocabFromTrainFile_probes_terminate (H : Nat) (hH : 4 ≤ H)
    (words : List (List Nat)) (k : Nat) :
    ∃ s, LearnVocabFromTrainFile.count H (words.take k) = some s ∧
      s.vocab_size ≤ 7 * H / 10 ∧
      (∃ p, p < H ∧ s.vocab_hash p = -1) ∧
      (∀ w, ∃ r, SearchVocab H s w = some r ∧
        (r = -1 → ∃ t, AddWordToVocab H w s = some t ∧
          t.vocab_size ≤ 7 * H / 10 + 1 ∧ t.vocab_size ≤ H)) ∧
      (∀ min_count, ∃ t, SortVocab H min_count s = some t) := by
  obtain ⟨s0, hinit, inv0, _, hsz0, hmr0, _⟩ := init_inv H (by omega)
  obtain ⟨s, hloop, inv, hb, _⟩ := loop_bound H (by omega) (words.take k) s0 inv0
    (by omega) (by omega)
  have hlen := inv.1
  have hroom : s.vocab.length < H := by omega
  refine ⟨s, by simp only [LearnVocabFromTrainFile.count, hinit, hloop], by omega, ?_, ?_, ?_⟩
  · exact inv.2.2.exists_empty (by rw [indexed_length]; exact hroom)
  · intro w
    rcases SearchVocab_spec H s inv w hroom with ⟨habs, hsearch⟩ | ⟨i, _, _, hsearch⟩
    · refine ⟨-1, hsearch, fun _ => ?_⟩
      obtain ⟨p, _, _, hadd, _⟩ := AddWordToVocab_inv H s inv w hroom habs
      exact ⟨_, hadd, by simp only; omega, by simp only; omega⟩
    · exact ⟨(i : Int), hsearch, fun h => by omega⟩
  · intro min_count
    exact SortVocab_some H min_count s (by omega)

/-- C10 at the program's capacity, on the words `a b a` after the first two. -/
theorem LearnVocabFromTrainFile_probes_terminate_witness :
    ∃ s, LearnVocabFromTrainFile.count vocab_hash_size ([[97], [98], [97]].take 2) = some s ∧
      s.vocab_size ≤ 7 * vocab_hash_size / 10 ∧
      (∃ p, p < vocab_hash_size ∧ s.vocab_hash p = -1) ∧
      (∀ w, ∃ r, SearchVocab vocab_hash_size s w = some r ∧
        (r = -1 → ∃ t, AddWordToVocab vocab_hash_size w s = some t ∧
          t.vocab_size ≤ 7 * vocab_hash_size / 10 + 1 ∧ t.vocab_size ≤ vocab_hash_size)) ∧
      (∀ min_count, ∃ t, SortVocab vocab_hash_size min_count s = some t) :=
  LearnVocabFromTrainFile_probes_terminate vocab_hash_size (by decide) [[97], [98], [97]] 2

/-! ## Exact counts when pruning never fires -/

theorem setCn_getD (f : Int → Int) :
    ∀ (vs : List vocab_word) (i j : Nat), j < vs.length →
      (setCn vs i f).getD j default =
        if i = j then { vs.getD j default with cn := f (vs.getD j default).cn }
        else vs.getD j default := by
  intro vs
  induction vs with
  | nil => intro i j hj; simp at hj
  | cons v vs ih =>
    intro i j hj
    cases i with
    | zero =>
      cases j with
      | zero => simp [setCn]
      | succ j => simp [setCn]
    | succ i =>
      cases j with
      | zero => simp [setCn]
      | succ j =>
        have := ih i j (by simpa using hj)
        simp only [setCn] at this
        simp only [setCn, List.modify_succ_cons, List.getD_cons_succ, this, Nat.add_right_cancel_iff]

theorem ReduceVocab_min_reduce (H : Nat) (t s' : State) (h : ReduceVocab H t = some s') :
    s'.min_reduce = t.min_reduce + 1 := by
  unfold ReduceVocab at h
  simp only at h
  split at h
  · exact absurd h (by simp)
  · cases h; rfl

theorem AddWordToVocab_fields (H : Nat) (w : List Nat) (s t : State)
    (h : AddWordToVocab H w s = some t) :
    t.vocab_size = s.vocab_size + 1 ∧ t.min_reduce = s.min_reduce := by
  unfold AddWordToVocab at h
  split at h
  · exact absurd h (by simp)
  · cases h; exact ⟨rfl, rfl⟩

/-- The shape of one round of the counting loop, whatever the state: the
state `t` before the pruning test has the old `min_reduce` and at least the
old `vocab_size`; the round ends in `t` or in a pruning pass on `t`. -/
theorem step_cases (H : Nat) (w : List Nat) (s s' : State)
    (h : LearnVocabFromTrainFile.step H w s = some s') :
    ∃ t, t.min_reduce = s.min_reduce ∧ s.vocab_size ≤ t.vocab_size ∧
      ((10 * t.vocab_size ≤ 7 * H ∧ s' = t) ∨
        (10 * t.vocab_size > 7 * H ∧ s'.min_reduce = t.min_reduce + 1)) := by
  have key : ∀ t : State, t.min_reduce = s.min_reduce → s.vocab_size ≤ t.vocab_size →
      (if 10 * t.vocab_size > 7 * H then ReduceVocab H t else some t) = some s' →
      ∃ t, t.min_reduce = s.min_reduce ∧ s.vocab_size ≤ t.vocab_size ∧
        ((10 * t.vocab_size ≤ 7 * H ∧ s' = t) ∨
          (10 * t.vocab_size > 7 * H ∧ s'.min_reduce = t.min_reduce + 1)) := by
    intro t h1 h2 h3
    by_cases hp : 10 * t.vocab_size > 7 * H
    · rw [if_pos hp] at h3
      exact ⟨t, h1, h2, Or.inr ⟨hp, ReduceVocab_min_reduce H t s' h3⟩⟩
    · rw [if_neg hp] at h3
      exact ⟨t, h1, h2, Or.inl ⟨by omega, (Option.some.inj h3).symm⟩⟩
  unfold LearnVocabFromTrainFile.step at h
  simp only at h
  cases hs : SearchVocab H { s with train_words := s.train_words + 1 } w with
  | none => rw [hs] at h; exact absurd h (by simp)
  | some i =>
    rw [hs] at h
    simp only at h
    by_cases hi : i = -1
    · simp only [hi, if_true] at h
      cases ha : AddWordToVocab H w { s with train_words := s.train_words + 1 } with
      | none => rw [ha] at h; exact absurd h (by simp)
      | some t0 =>
        rw [ha] at h
        simp only at h
        obtain ⟨h1, h2⟩ := AddWordToVocab_fields H w _ t0 ha
        refine key { t0 with vocab := setCn t0.vocab (t0.vocab_size - 1) (fun _ => 1) } ?_ ?_ h
        · exact h2
        · simp only [h1]; omega
    · simp only [hi, if_false] at h
      refine key { s with
        train_words := s.train_words + 1
        vocab := setCn s.vocab i.toNat (fun c => c + 1) } ?_ ?_ h
      · rfl
      · exact Nat.le_refl _

theorem step_min_reduce_mono (H : Nat) (w : List Nat) (s s' : State)
    (h : LearnVocabFromTrainFile.step H w s = some s') : s.min_reduce ≤ s'.min_reduce := by
  obtain ⟨t, h1, _, h3 | h3⟩ := step_cases H w s s' h
  · rw [h3.2, h1]
  · omega

theorem loop_min_reduce_mono (H : Nat) :
    ∀ (ws : List (List Nat)) (s t : State), LearnVocabFromTrainFile.loop H ws s = some t →
      s.min_reduce ≤ t.min_reduce := by
  intro ws
  induction ws with
  | nil => intro s t h; simp only [LearnVocabFromTrainFile.loop] at h; cases h; exact le_refl _
  | cons w ws ih =>
    intro s t h
    simp only [LearnVocabFromTrainFile.loop] at h
    cases hs : LearnVocabFromTrainFile.step H w s with
    | none => rw [hs] at h; exact absurd h (by simp)
    | some s' =>
      rw [hs] at h
      exact le_trans (step_min_reduce_mono H w s s' hs) (ih s' t h)

theorem CountInv.length_eq {H : Nat} {done : List (List Nat)} {s : State}
    (h : CountInv H done s) : s.vocab.length = (eos :: done).toFinset.card := by
  obtain ⟨⟨_, hnd, _⟩, _, hmem, _, _⟩ := h
  have h1 : (s.vocab.map (fun v => v.word)).toFinset = (eos :: done).toFinset := by
    ext w
    simp only [List.mem_toFinset, hmem, List.mem_cons]
  rw [← h1, List.toFinset_card_of_nodup hnd, List.length_map]

theorem card_prefix_le (done ws : List (List Nat)) :
    (eos :: done).toFinset.card ≤ (eos :: (done ++ ws)).toFinset.card := by
  apply Finset.card_le_card
  intro w hw
  simp only [List.mem_toFinset, List.mem_cons, List.mem_append] at hw ⊢
  tauto

theorem count_snoc (done : List (List Nat)) (w x : List Nat) :
    (done ++ [w]).count x = done.count x + (if w = x then 1 else 0) := by
  rw [List.count_append, List.count_singleton]
  by_cases h : w = x
  · simp [h]
  · simp [h]

/-- One round of the counting loop under the no-pruning invariant: the state
before the pruning test satisfies the invariant for one more word. -/
theorem count_step (H : Nat) (done : List (List Nat)) (s : State) (w : List Nat)
    (h : CountInv H done s) (hroom : s.vocab.length < H) :
    ∃ t, CountInv H (done ++ [w]) t ∧
      LearnVocabFromTrainFile.step H w s =
        (if 10 * t.vocab_size > 7 * H then ReduceVocab H t else some t) := by
  obtain ⟨inv, hmr, hmem, hcnt, hhead⟩ := h
  obtain ⟨t, tinv, tmr, _, hstep, hcase⟩ := step_pre H s w inv hroom
  refine ⟨t, ⟨tinv, by rw [tmr, hmr], ?_, ?_, ?_⟩, hstep⟩
  · intro x
    rcases hcase with ⟨i, hi, hwi, hvoc, _⟩ | ⟨_, hvoc, _⟩
    · rw [hvoc, setCn_words, hmem]
      have hw : w ∈ s.vocab.map (fun v => v.word) := (mem_words_iff s.vocab w).mpr ⟨i, hi, hwi⟩
      have := (hmem w).mp hw
      simp only [List.mem_append, List.mem_singleton]
      constructor
      · rintro (h | h)
        · exact Or.inl h
        · exact Or.inr (Or.inl h)
      · rintro (h | h | h)
        · exact Or.inl h
        · exact Or.inr h
        · rw [h]; exact this
    · rw [hvoc]
      simp only [List.map_append, List.map_cons, List.map_nil, List.mem_append,
        List.mem_singleton, hmem]
      tauto
  · intro j hj
    rcases hcase with ⟨i, hi, hwi, hvoc, _⟩ | ⟨habs, hvoc, _⟩
    · rw [hvoc, setCn_length] at hj
      rw [hvoc, setCn_getD _ _ _ _ hj]
      by_cases hij : i = j
      · subst hij
        rw [if_pos rfl]
        show (s.vocab.getD i default).cn + 1 = _
        rw [count_snoc, if_pos hwi.symm, hcnt i hi]
        push_cast
        rfl
      · have hne : ¬ (w = (s.vocab.getD j default).word) := by
          intro heq
          exact hij (word_inj s.vocab inv.2.1 i j hi hj (by rw [hwi, heq]))
        rw [if_neg hij, count_snoc, if_neg hne, hcnt j hj]
        rfl
    · rw [hvoc] at hj ⊢
      simp only [List.length_append, List.length_singleton] at hj
      by_cases hjl : j < s.vocab.length
      · have hget : (s.vocab ++ [(⟨1, w⟩ : vocab_word)]).getD j default = s.vocab.getD j default := by
          simp only [List.getD_eq_getElem?_getD, List.getElem?_append_left hjl]
        have hne : ¬ (w = (s.vocab.getD j default).word) := by
          intro heq
          exact habs ((mem_words_iff s.vocab w).mpr ⟨j, hjl, heq.symm⟩)
        rw [hget, hcnt j hjl, count_snoc, if_neg hne]
        rfl
      · have hjeq : j = s.vocab.length := by omega
        have hget : (s.vocab ++ [(⟨1, w⟩ : vocab_word)]).getD j default = ⟨1, w⟩ := by
          rw [hjeq]
          simp [List.getD_eq_getElem?_getD]
        rw [hget]
        have hnd : w ∉ done := fun hd => habs ((hmem w).mpr (Or.inr hd))
        show (1 : Int) = _
        rw [count_snoc, if_pos rfl, List.count_eq_zero_of_not_mem hnd]
        rfl
  · rcases hcase with ⟨i, _, _, hvoc, _⟩ | ⟨_, hvoc, _⟩
    · rw [hvoc, setCn_words]; exact hhead
    · rw [hvoc, List.map_append]
      cases hv : s.vocab.map (fun v => v.word) with
      | nil => rw [hv] at hhead; simp at hhead
      | cons x xs => rw [hv] at hhead; simpa using hhead

/-- The counting loop from a state under the no-pruning invariant: if it
returns with `min_reduce` still 1, the final state satisfies the invariant for
all the words. -/
theorem loop_exact (H : Nat) :
    ∀ (ws done : List (List Nat)) (s t : State), CountInv H done s →
      LearnVocabFromTrainFile.loop H ws s = some t → t.min_reduce = 1 →
      CountInv H (done ++ ws) t := by
  intro ws
  induction ws with
  | nil =>
    intro done s t h hl _
    simp only [LearnVocabFromTrainFile.loop] at hl
    cases hl
    simpa using h
  | cons w ws ih =>
    intro done s t h hl ht
    simp only [LearnVocabFromTrainFile.loop] at hl
    cases hs : LearnVocabFromTrainFile.step H w s with
    | none => rw [hs] at hl; exact absurd hl (by simp)
    | some s' =>
      rw [hs] at hl
      simp only at hl
      have hmono := loop_min_reduce_mono H ws s' t hl
      have hs1 := h.2.1
      obtain ⟨u, hu1, hu2, hu3⟩ := step_cases H w s s' hs
      have hu : 10 * u.vocab_size ≤ 7 * H ∧ s' = u := by
        rcases hu3 with hu3 | hu3
        · exact hu3
        · omega
      have hpos : 0 < s.vocab.length := by
        have : eos ∈ s.vocab.map (fun v => v.word) := (h.2.2.1 eos).mpr (Or.inl rfl)
        cases hv : s.vocab with
        | nil => rw [hv] at this; simp at this
        | cons v vs => simp
      have hroom : s.vocab.length < H := by
        have := h.1.1
        omega
      obtain ⟨t', ht', hstep⟩ := count_step H done s w h hroom
      rw [hs] at hstep
      have hnp : ¬ (10 * t'.vocab_size > 7 * H) := by
        intro hp
        rw [if_pos hp] at hstep
        have := ReduceVocab_min_reduce H t' s' hstep.symm
        have := ht'.2.1
        omega
      rw [if_neg hnp] at hstep
      cases hstep
      have := ih (done ++ [w]) s' t ht' hl ht
      simpa using this

/-- The counting loop from a state under the no-pruning invariant returns
with `min_reduce` still 1 when the distinct words fit under 0.7 of the
capacity. -/
theorem loop_total (H : Nat) :
    ∀ (ws done : List (List Nat)) (s : State), CountInv H done s →
      10 * (eos :: (done ++ ws)).toFinset.card ≤ 7 * H →
      ∃ t, LearnVocabFromTrainFile.loop H ws s = some t ∧ t.min_reduce = 1 := by
  intro ws
  induction ws with
  | nil => intro done s h _; exact ⟨s, rfl, h.2.1⟩
  | cons w ws ih =>
    intro done s h hcap
    have hlen := h.length_eq
    have hle := card_prefix_le done (w :: ws)
    have hroom : s.vocab.length < H := by
      have : 0 < (eos :: done).toFinset.card :=
        Finset.card_pos.mpr ⟨eos, by simp⟩
      omega
    obtain ⟨t', ht', hstep⟩ := count_step H done s w h hroom
    have hlen' := ht'.length_eq
    have hle' := card_prefix_le (done ++ [w]) ws
    have hassoc : done ++ [w] ++ ws = done ++ w :: ws := by simp
    rw [hassoc] at hle'
    have hnp : ¬ (10 * t'.vocab_size > 7 * H) := by
      have := ht'.1.1
      omega
    rw [if_neg hnp] at hstep
    obtain ⟨t, hl, ht⟩ := ih (done ++ [w]) t' ht' (by rw [hassoc]; exact hcap)
    exact ⟨t, by simp only [LearnVocabFromTrainFile.loop, hstep, hl], ht⟩

theorem init_CountInv (H : Nat) (s0 : State) (h0 : LearnVocabFromTrainFile.init H = some s0) :
    CountInv H [] s0 := by
  have hH : 0 < H := by
    by_contra hH
    have : H = 0 := by omega
    subst this
    simp [LearnVocabFromTrainFile.init, AddWordToVocab, probeEmpty] at h0
  obtain ⟨s1, h1, inv, hv, _, hmr, _⟩ := init_inv H hH
  rw [h1] at h0
  cases h0
  refine ⟨inv, hmr, ?_, ?_, ?_⟩
  · intro w; rw [hv]; simp
  · intro i hi
    rw [hv] at hi ⊢
    have : i = 0 := by simpa using hi
    subst this
    simp
  · rw [hv]; rfl

/-- A run of the counting phase that ends with `min_reduce = 1` ends under the
no-pruning invariant for all the words. -/
theorem count_CountInv (H : Nat) (words : List (List Nat)) (s : State)
    (hs : LearnVocabFromTrainFile.count H words = some s) (hmr : s.min_reduce = 1) :
    CountInv H words s := by
  simp only [LearnVocabFromTrainFile.count] at hs
  cases h0 : LearnVocabFromTrainFile.init H with
  | none => rw [h0] at hs; exact absurd hs (by simp)
  | some s0 =>
    rw [h0] at hs
    simp only at hs
    have hc := loop_exact H words [] s0 s (init_CountInv H s0 h0) hs hmr
    simpa using hc

/-- The counting phase returns with `min_reduce = 1` when `</s>` and the
distinct words number at most 0.7 of the capacity. -/
theorem count_total (H : Nat) (words : List (List Nat))
    (hcap : 10 * (eos :: words).toFinset.card ≤ 7 * H) :
    ∃ s, LearnVocabFromTrainFile.count H words = some s ∧ s.min_reduce = 1 := by
  have hH : 0 < H := by
    have : 0 < (eos :: words).toFinset.card := Finset.card_pos.mpr ⟨eos, by simp⟩
    omega
  obtain ⟨s0, h0, _⟩ := init_inv H hH
  obtain ⟨t, hl, ht⟩ := loop_total H words [] s0 (init_CountInv H s0 h0) (by simpa using hcap)
  exact ⟨t, by simp only [LearnVocabFromTrainFile.count, h0, hl], ht⟩

/-- C5: pruning never fires exactly when the counting loop ends with
`min_reduce` still at its initial value 1 (each pruning pass adds 1). It does
so whenever `</s>` and the distinct words number at most 0.7 of the capacity;
and whenever it does, the vocabulary holds `</s>` and every word of the
sequence exactly once and nothing else, and each entry's count is the number
of occurrences of its word in the sequence. -/
theorem count_exact (H : Nat) (words : List (List Nat)) :
    (10 * (eos :: words).toFinset.card ≤ 7 * H →
      ∃ s, LearnVocabFromTrainFile.count H words = some s ∧ s.min_reduce = 1) ∧
    (∀ s, LearnVocabFromTrainFile.count H words = some s → s.min_reduce = 1 →
      s.vocab_size = s.vocab.length ∧ (s.vocab.map (fun v => v.word)).Nodup ∧
      (∀ w, w ∈ s.vocab.map (fun v => v.word) ↔ w = eos ∨ w ∈ words) ∧
      (∀ v, v ∈ s.vocab → v.cn = words.count v.word)) := by
  refine ⟨count_total H words, ?_⟩
  intro s hs hmr
  obtain ⟨inv, _, hmem, hcnt, _⟩ := count_CountInv H words s hs hmr
  refine ⟨inv.1.symm, inv.2.1, hmem, ?_⟩
  intro v hv
  obtain ⟨i, hi, rfl⟩ := List.getElem_of_mem hv
  have := hcnt i hi
  rw [List.getD_eq_getElem _ _ hi] at this
  exact this

/-- C5 at the program's capacity on the words `a b a`. -/
theorem count_exact_witness :
    ∃ s, LearnVocabFromTrainFile.count vocab_hash_size [[97], [98], [97]] = some s ∧
      s.min_reduce = 1 ∧ s.vocab_size = s.vocab.length ∧
      (s.vocab.map (fun v => v.word)).Nodup ∧
      (∀ w, w ∈ s.vocab.map (fun v => v.word) ↔ w = eos ∨ w ∈ [[97], [98], [97]]) ∧
      (∀ v, v ∈ s.vocab → v.cn = ([[97], [98], [97]] : List (List Nat)).count v.word) := by
  obtain ⟨s, hs, hmr⟩ := (count_exact vocab_hash_size [[97], [98], [97]]).1 (by decide)
  exact ⟨s, hs, hmr, (count_exact vocab_hash_size [[97], [98], [97]]).2 s hs hmr⟩

/-! ## The token sequence of `ReadWord` -/

theorem readWords_succ (fuel : Nat) (data : List Nat) :
    readWords (fuel + 1) ⟨data, false⟩ =
      if (ReadWord.loop data []).2.eof then []
      else cstr (ReadWord.loop data []).1 :: readWords fuel (ReadWord.loop data []).2 := by
  simp [readWords, ReadWord]

theorem store_length_pos (buf : List Nat) (ch : Nat) : 0 < (ReadWord.store buf ch).length := by
  unfold ReadWord.store
  split
  · rename_i h; simp [MAX_STRING] at h; omega
  · simp

theorem loop_word (ch : Nat) (rest buf : List Nat) (h13 : ¬ ch = 13)
    (hd : ch = 32 ∨ ch = 9 ∨ ch = 10) (hb : buf.length > 0) :
    ReadWord.loop (ch :: rest) buf = (buf, ⟨if ch = 10 then ch :: rest else rest, false⟩) := by
  rw [ReadWord.loop, if_neg h13, if_pos hd, if_pos hb]

theorem loop_newline (ch : Nat) (rest buf : List Nat) (h10 : ch = 10) (hb : ¬ buf.length > 0) :
    ReadWord.loop (ch :: rest) buf = (eos, ⟨rest, false⟩) := by
  have h13 : ¬ ch = 13 := by omega
  rw [ReadWord.loop, if_neg h13, if_pos (Or.inr (Or.inr h10)), if_neg hb, if_pos h10]

theorem loop_blank (ch : Nat) (rest buf : List Nat) (h13 : ¬ ch = 13)
    (hd : ch = 32 ∨ ch = 9 ∨ ch = 10) (h10 : ¬ ch = 10) (hb : ¬ buf.length > 0) :
    ReadWord.loop (ch :: rest) buf = ReadWord.loop rest buf := by
  rw [ReadWord.loop, if_neg h13, if_pos hd, if_neg hb, if_neg h10]

theorem loop_char (ch : Nat) (rest buf : List Nat) (h13 : ¬ ch = 13)
    (hd : ¬ (ch = 32 ∨ ch = 9 ∨ ch = 10)) :
    ReadWord.loop (ch :: rest) buf = ReadWord.loop rest (ReadWord.store buf ch) := by
  rw [ReadWord.loop, if_neg h13, if_neg hd]

theorem loop_cr (ch : Nat) (rest buf : List Nat) (h13 : ch = 13) :
    ReadWord.loop (ch :: rest) buf = ReadWord.loop rest buf := by
  rw [ReadWord.loop, if_pos h13]

/-- The reading loop continued from the middle of a word is the one-pass
function, as long as the fuel covers the unread bytes (and one more round when
a word has been started). -/
theorem readWords_cont :
    ∀ (data buf : List Nat) (fuel : Nat),
      data.length + (if buf.length > 0 then 1 else 0) ≤ fuel →
      (if (ReadWord.loop data buf).2.eof then []
        else cstr (ReadWord.loop data buf).1 :: readWords fuel (ReadWord.loop data buf).2) =
        lexFrom data buf := by
  intro data
  induction data with
  | nil => intro buf fuel _; simp [ReadWord.loop, lexFrom]
  | cons ch rest ih =>
    intro buf fuel hf
    simp only [List.length_cons] at hf
    by_cases h13 : ch = 13
    · rw [loop_cr ch rest buf h13, lexFrom, if_pos h13]
      exact ih buf fuel (by omega)
    · by_cases hd : ch = 32 ∨ ch = 9 ∨ ch = 10
      · by_cases hb : buf.length > 0
        · rw [if_pos hb] at hf
          rw [loop_word ch rest buf h13 hd hb, lexFrom, if_neg h13, if_pos hd, if_pos hb]
          obtain ⟨f, rfl⟩ : ∃ f, fuel = f + 1 := ⟨fuel - 1, by omega⟩
          by_cases h10 : ch = 10
          · obtain ⟨g, rfl⟩ : ∃ g, f = g + 1 := ⟨f - 1, by omega⟩
            have := ih [] g (by simp; omega)
            simp only [if_pos h10, Bool.false_eq_true, if_false]
            rw [readWords_succ, loop_newline ch rest [] h10 (by simp)]
            simp only [Bool.false_eq_true, if_false]
            rw [readWords_succ, this]
            rfl
          · have := ih [] f (by simp; omega)
            simp only [if_neg h10, Bool.false_eq_true, if_false]
            rw [readWords_succ, this]
        · rw [if_neg hb] at hf
          by_cases h10 : ch = 10
          · obtain ⟨f, rfl⟩ : ∃ f, fuel = f + 1 := ⟨fuel - 1, by omega⟩
            have := ih [] f (by simp; omega)
            rw [loop_newline ch rest buf h10 hb, lexFrom, if_neg h13, if_pos hd, if_neg hb,
              if_pos h10]
            simp only [Bool.false_eq_true, if_false]
            rw [readWords_succ, this]
            rfl
          · have hbuf : buf = [] := List.eq_nil_of_length_eq_zero (by omega)
            subst hbuf
            have := ih [] fuel (by simp; omega)
            rw [loop_blank ch rest [] h13 hd h10 hb, lexFrom, if_neg h13, if_pos hd, if_neg hb,
              if_neg h10]
            exact this
      · have := ih (ReadWord.store buf ch) fuel (by
          rw [if_pos (store_length_pos buf ch)]
          split at hf <;> omega)
        rw [loop_char ch rest buf h13 hd, lexFrom, if_neg h13, if_neg hd]
        exact this

/-- The words delivered from a file are those of the one-pass function. -/
theorem tokens_eq_lexFrom (bytes : List Nat) : tokens bytes = lexFrom bytes [] := by
  unfold tokens
  rw [readWords_succ]
  exact readWords_cont bytes [] bytes.length (by simp)

/-! ## Newlines and `</s>` -/

theorem takeWhile_take (p : Nat → Bool) :
    ∀ (l : List Nat) (n : Nat), (l.take n).takeWhile p = (l.takeWhile p).take n := by
  intro l
  induction l with
  | nil => intro n; simp
  | cons x xs ih =>
    intro n
    cases n with
    | zero => simp
    | succ n =>
      by_cases hx : p x = true
      · simp [List.takeWhile_cons, hx, ih]
      · simp [List.takeWhile_cons, hx]

theorem cstr_take_ne_eos (x : List Nat) (h : cstr x ≠ eos) : cstr (x.take 98) ≠ eos := by
  unfold cstr at h ⊢
  rw [takeWhile_take]
  intro heq
  have hlen := congrArg List.length heq
  rw [List.length_take] at hlen
  simp only [eos, List.length_cons, List.length_nil] at hlen
  have hle : (List.takeWhile (fun c => c != 0) x).length ≤ 98 := by omega
  rw [List.take_of_length_le hle] at heq
  exact h heq

theorem store_take (y : List Nat) (ch : Nat) :
    ReadWord.store (y.take 98) ch = (y ++ [ch]).take 98 := by
  unfold ReadWord.store
  by_cases hy : 98 ≤ y.length
  · have h1 : (y.take 98).length = 98 := by rw [List.length_take]; omega
    rw [if_pos (by rw [h1]; decide), List.take_append_of_le_length hy]
  · have h1 : y.take 98 = y := List.take_of_length_le (by omega)
    rw [h1, if_neg (by simp [MAX_STRING]; omega), List.take_of_length_le (by simp; omega)]

/-- The number of `</s>` among the words of the one-pass function is the
number of newline bytes, when no word of the stream turns into `</s>`. -/
theorem lexFrom_count_eos :
    ∀ (data cur : List Nat),
      (∀ w, w ∈ wordsOf data cur → cstr (w.filter (fun c => decide (c ≠ 13))) ≠ eos) →
      (lexFrom data ((cur.filter (fun c => decide (c ≠ 13))).take 98)).count eos =
        data.count 10 := by
  intro data
  induction data with
  | nil => intro cur _; simp [lexFrom]
  | cons ch rest ih =>
    intro cur h
    by_cases h13 : ch = 13
    · have hd : ¬ (ch = 32 ∨ ch = 9 ∨ ch = 10) := by omega
      have := ih (cur ++ [ch]) (by
        intro w hw; apply h; rw [wordsOf, if_neg hd]; exact hw)
      rw [List.filter_append] at this
      simp only [h13, ne_eq, not_true_eq_false, decide_False, List.filter_cons_of_neg,
        Bool.false_eq_true, not_false_eq_true, List.filter_nil, List.append_nil] at this
      rw [lexFrom, if_pos h13, this, h13]
      simp [List.count_cons]
    · by_cases hd : ch = 32 ∨ ch = 9 ∨ ch = 10
      · have hrest : ∀ w, w ∈ wordsOf rest [] →
            cstr (w.filter (fun c => decide (c ≠ 13))) ≠ eos := by
          intro w hw; apply h; rw [wordsOf, if_pos hd]
          split
          · exact hw
          · exact List.mem_cons_of_mem _ hw
        have hih := ih [] hrest
        simp only [List.filter_nil, List.take_nil] at hih
        rw [lexFrom, if_neg h13, if_pos hd]
        by_cases hb : ((cur.filter (fun c => decide (c ≠ 13))).take 98).length > 0
        · have hcur : cur ≠ [] := by
            intro hc; rw [hc] at hb; simp at hb
          have hne : cstr ((cur.filter (fun c => decide (c ≠ 13))).take 98) ≠ eos := by
            apply cstr_take_ne_eos
            apply h
            rw [wordsOf, if_pos hd, if_neg hcur]
            exact List.mem_cons_self _ _
          rw [if_pos hb, List.count_cons_of_ne hne.symm]
          by_cases h10 : ch = 10
          · rw [if_pos h10, List.count_cons_self, hih, h10, List.count_cons_self]
          · rw [if_neg h10, hih, List.count_cons_of_ne (fun e => h10 e.symm)]
        · rw [if_neg hb]
          by_cases h10 : ch = 10
          · rw [if_pos h10, List.count_cons_self, hih, h10, List.count_cons_self]
          · rw [if_neg h10, hih, List.count_cons_of_ne (fun e => h10 e.symm)]
      · have := ih (cur ++ [ch]) (by
          intro w hw; apply h; rw [wordsOf, if_neg hd]; exact hw)
        rw [List.filter_append] at this
        have hf : [ch].filter (fun c => decide (c ≠ 13)) = [ch] := by simp [h13]
        rw [hf, ← store_take] at this
        have h10 : ¬ ch = 10 := by omega
        rw [lexFrom, if_neg h13, if_neg hd, this, List.count_cons_of_ne (fun e => h10 e.symm)]

/-- `SortVocab` leaves the cell of entry 0 in place. -/
theorem SortVocab_entry0 (H : Nat) (min_count : Int) (s : State) (hpos : 0 < s.vocab_size)
    (hwf : s.vocab_size ≤ s.vocab.length) (hfit : s.vocab_size ≤ H) :
    ∃ t, SortVocab H min_count s = some t ∧
      t.vocab.getD 0 default = s.vocab.getD 0 default := by
  obtain ⟨x, rest, hlive⟩ : ∃ x rest, s.vocab.take s.vocab_size = x :: rest := by
    cases hl : s.vocab.take s.vocab_size with
    | nil =>
      have := congrArg List.length hl
      rw [List.length_take, List.length_nil] at this
      omega
    | cons x rest => exact ⟨x, rest, rfl⟩
  have hx : s.vocab.getD 0 default = x := by
    have h0 : (s.vocab.take s.vocab_size)[0]? = some x := by rw [hlive]; simp
    rw [List.getElem?_take, if_pos hpos] at h0
    simp [List.getD_eq_getElem?_getD, h0]
  have hn : rest.length + 1 = s.vocab_size := by
    have := congrArg List.length hlive
    rw [List.length_take, List.length_cons] at this
    omega
  have hTlen : (qsort VocabCompare rest).length = rest.length := (qsort_perm _ rest).length_eq
  obtain ⟨vh', hloop, _⟩ := SortVocab_loop_spec H min_count (x :: qsort VocabCompare rest) 0
    s.vocab_size (fun _ => -1) 0 [] (HashInv.empty H) (by simp) (by simp; omega)
  have hS : SortVocab H min_count s = some { s with
      vocab := (x :: qsort VocabCompare rest).take
        (s.vocab_size - ((x :: qsort VocabCompare rest).filter
          (fun v => decide (v.cn < min_count))).length + 1)
      vocab_size := s.vocab_size - ((x :: qsort VocabCompare rest).filter
          (fun v => decide (v.cn < min_count))).length
      vocab_hash := vh'
      train_words := 0 + (((x :: qsort VocabCompare rest).filter
          (fun v => decide (min_count ≤ v.cn))).map (fun v => v.cn)).sum } := by
    simp only [SortVocab, hlive, List.take_succ_cons, List.take_zero, List.drop_succ_cons,
      List.drop_zero, List.singleton_append, hloop]
  refine ⟨_, hS, ?_⟩
  rw [hx]; simp

/-- C6 (as stated, refuted): in the stream `</s`, carriage return, `>`, space
no whitespace-delimited word is literally `</s>` and there is no newline, yet
one `</s>` is delivered; the same holds for the stream `</s>`, NUL, `x`,
space. -/
theorem newline_tokens_counterexample :
    ((∀ w, w ∈ wordsOf [60, 47, 115, 13, 62, 32] [] → w ≠ eos) ∧
      (tokens [60, 47, 115, 13, 62, 32]).count eos = 1 ∧
      List.count 10 [60, 47, 115, 13, 62, 32] = 0) ∧
    ((∀ w, w ∈ wordsOf [60, 47, 115, 62, 0, 120, 32] [] → w ≠ eos) ∧
      (tokens [60, 47, 115, 62, 0, 120, 32]).count eos = 1 ∧
      List.count 10 [60, 47, 115, 62, 0, 120, 32] = 0) := by
  decide

/-- C6 (amended): for every byte stream in which no whitespace-delimited word,
once its carriage returns are dropped and it is cut at its first NUL byte, is
`</s>`, the number of `</s>` among the words delivered by the repeated
`ReadWord` calls is the number of newline bytes; and when pruning cannot fire
(`</s>` and the distinct words number at most 0.7 of the capacity),
`LearnVocabFromTrainFile` returns with entry 0 the token `</s>` whose count is
the number of newline bytes. -/
theorem newline_tokens (bytes : List Nat)
    (h : ∀ w, w ∈ wordsOf bytes [] → cstr (w.filter (fun c => decide (c ≠ 13))) ≠ eos) :
    (tokens bytes).count eos = bytes.count 10 ∧
    ∀ (H : Nat) (min_count : Int), 10 * (eos :: tokens bytes).toFinset.card ≤ 7 * H →
      ∃ s, LearnVocabFromTrainFile H min_count bytes = some s ∧
        s.vocab.getD 0 default = ⟨((bytes.count 10 : Nat) : Int), eos⟩ := by
  have hcount : (tokens bytes).count eos = bytes.count 10 := by
    rw [tokens_eq_lexFrom]
    have := lexFrom_count_eos bytes [] h
    simpa using this
  refine ⟨hcount, ?_⟩
  intro H min_count hcap
  obtain ⟨s, hs, hmr⟩ := count_total H (tokens bytes) hcap
  obtain ⟨inv, _, _, hcnt, hhead⟩ := count_CountInv H (tokens bytes) s hs hmr
  obtain ⟨v, rest, hv⟩ : ∃ v rest, s.vocab = v :: rest := by
    cases hvo : s.vocab with
    | nil => rw [hvo] at hhead; simp at hhead
    | cons v rest => exact ⟨v, rest, rfl⟩
  have hword : v.word = eos := by
    rw [hv] at hhead; simpa using hhead
  have hcn : v.cn = ((bytes.count 10 : Nat) : Int) := by
    have := hcnt 0 (by rw [hv]; simp)
    rw [hv] at this
    simp only [List.getD_cons_zero] at this
    rw [this, hword, hcount]
  have hlen := inv.1
  have hle := inv.2.2.length_le
  rw [indexed_length] at hle
  obtain ⟨t, ht, ht0⟩ := SortVocab_entry0 H min_count s (by rw [← hlen, hv]; simp)
    (by omega) (by omega)
  refine ⟨t, by simp only [LearnVocabFromTrainFile, hs, ht], ?_⟩
  rw [ht0, hv]
  simp only [List.getD_cons_zero]
  cases v
  simp only at hword hcn
  rw [hword, hcn]

/-- The amended C6 on the corpus `a b c a b c` with one newline, at the
program's capacity and `min_count = 0`: the count of `</s>` is 1. -/
theorem newline_tokens_witness :
    (tokens [97, 32, 98, 32, 99, 32, 97, 32, 98, 32, 99, 10]).count eos = 1 ∧
    ∃ s, LearnVocabFromTrainFile vocab_hash_size 0
        [97, 32, 98, 32, 99, 32, 97, 32, 98, 32, 99, 10] = some s ∧
      s.vocab.getD 0 default = ⟨1, eos⟩ :=
  ⟨(newline_tokens [97, 32, 98, 32, 99, 32, 97, 32, 98, 32, 99, 10] (by decide)).1,
    (newline_tokens [97, 32, 98, 32, 99, 32, 97, 32, 98, 32, 99, 10] (by decide)).2
      vocab_hash_size 0 (by decide)⟩

/-! ## The reference tokenization -/

/-- C7 (code at the failing input): on the stream `a`, space, `b`, which does
not end in a delimiter, the repeated `ReadWord` calls deliver only `a`; the
reference tokenization is `a`, `b`. The word `b` is lost: the call that reads
it runs into the end of the file, and the caller drops what it returns. -/
theorem tokens_lose_last_word :
    tokens [97, 32, 98] = [[97]] ∧ referenceTokens [97, 32, 98] = [[97], [98]] ∧
      ReadWord ⟨[98], false⟩ = ([98, 255], ⟨[], true⟩) := by
  decide

theorem cstr_of_no_nul (buf : List Nat) (h : 0 ∉ buf) : cstr buf = buf := by
  unfold cstr
  rw [List.takeWhile_eq_self_iff]
  intro c hc
  have : c ≠ 0 := fun h0 => h (h0 ▸ hc)
  simpa using this

/-- On a stream without NUL bytes that ends in a delimiter, the one-pass
function gives the reference tokenization. -/
theorem lexFrom_eq_reference (d : Nat) (hd : d = 32 ∨ d = 9 ∨ d = 10) :
    ∀ (pre cur : List Nat), 0 ∉ pre → 0 ∉ cur →
      lexFrom (pre ++ [d]) (cur.take 98) =
        referenceTokens.go ((pre ++ [d]).filter (fun c => decide (c ≠ 13))) cur := by
  have hflush : ∀ cur : List Nat, 0 ∉ cur → ∀ X : List (List Nat),
      (if (cur.take 98).length > 0 then cstr (cur.take 98) :: X else X) =
        (if cur = [] then [] else [cur.take 98]) ++ X := by
    intro cur h0 X
    by_cases hc : cur = []
    · subst hc; simp
    · have hpos : (cur.take 98).length > 0 := by
        rw [List.length_take]
        have := List.length_pos.mpr hc
        omega
      rw [if_pos hpos, if_neg hc, cstr_of_no_nul _ (fun hm => h0 (List.mem_of_mem_take hm))]
      rfl
  have hdelim : ∀ (ch : Nat) (rest cur : List Nat), ¬ ch = 13 → (ch = 32 ∨ ch = 9 ∨ ch = 10) →
      lexFrom (ch :: rest) (cur.take 98) =
        (if (cur.take 98).length > 0 then cstr (cur.take 98) ::
            (if ch = 10 then eos :: lexFrom rest [] else lexFrom rest [])
          else (if ch = 10 then eos :: lexFrom rest [] else lexFrom rest [])) := by
    intro ch rest cur h13 hdl
    rw [lexFrom, if_neg h13, if_pos hdl]
  have hgo : ∀ (ch : Nat) (rest cur : List Nat), (ch = 32 ∨ ch = 9 ∨ ch = 10) →
      referenceTokens.go (ch :: rest) cur =
        (if cur = [] then [] else [cur.take 98]) ++
          (if ch = 10 then eos :: referenceTokens.go rest [] else referenceTokens.go rest []) := by
    intro ch rest cur hdl
    by_cases h10 : ch = 10
    · have : ¬ (ch = 32 ∨ ch = 9) := by omega
      rw [referenceTokens.go, if_neg this, if_pos h10, if_pos h10]
    · have : ch = 32 ∨ ch = 9 := by omega
      rw [referenceTokens.go, if_pos this, if_neg h10]
  intro pre
  induction pre with
  | nil =>
    intro cur _ hcur
    have h13 : ¬ d = 13 := by omega
    have hf : ([] ++ [d]).filter (fun c => decide (c ≠ 13)) = [d] := by simp [h13]
    rw [hf, List.nil_append, hdelim d [] cur h13 hd, hgo d [] cur hd, hflush cur hcur]
    by_cases h10 : d = 10
    · simp [h10, lexFrom, referenceTokens.go]
    · simp [h10, lexFrom, referenceTokens.go]
  | cons ch pre ih =>
    intro cur hpre hcur
    have hpre' : 0 ∉ pre := fun h => hpre (List.mem_cons_of_mem _ h)
    have hch : ch ≠ 0 := fun h => hpre (h ▸ List.mem_cons_self _ _)
    by_cases h13 : ch = 13
    · have hf : (ch :: pre ++ [d]).filter (fun c => decide (c ≠ 13)) =
          (pre ++ [d]).filter (fun c => decide (c ≠ 13)) := by
        rw [List.cons_append, List.filter_cons_of_neg (by simp [h13])]
      rw [hf, List.cons_append, lexFrom, if_pos h13]
      exact ih cur hpre' hcur
    · have hf : (ch :: pre ++ [d]).filter (fun c => decide (c ≠ 13)) =
          ch :: (pre ++ [d]).filter (fun c => decide (c ≠ 13)) := by
        rw [List.cons_append, List.filter_cons_of_pos (by simp [h13])]
      rw [hf, List.cons_append]
      by_cases hdl : ch = 32 ∨ ch = 9 ∨ ch = 10
      · have hih := ih [] hpre' (by simp)
        simp only [List.take_nil] at hih
        rw [hdelim ch _ cur h13 hdl, hgo ch _ cur hdl, hflush cur hcur, hih]
      · have hcur' : 0 ∉ cur ++ [ch] := by
          intro hm
          rcases List.mem_append.mp hm with hm | hm
          · exact hcur hm
          · simp only [List.mem_singleton] at hm; exact hch hm.symm
        have hih := ih (cur ++ [ch]) hpre' hcur'
        have hn1 : ¬ (ch = 32 ∨ ch = 9) := by omega
        have hn2 : ¬ ch = 10 := by omega
        rw [lexFrom, if_neg h13, if_neg hdl, store_take, hih, referenceTokens.go, if_neg hn1,
          if_neg hn2]

/-- On every byte stream without NUL bytes that is empty or ends in a space,
tab or newline, the words delivered by the repeated `ReadWord` calls are the
reference tokenization. -/
theorem tokens_eq_reference (bytes : List Nat) (hnul : 0 ∉ bytes)
    (hend : bytes = [] ∨ ∃ pre d, bytes = pre ++ [d] ∧ (d = 32 ∨ d = 9 ∨ d = 10)) :
    tokens bytes = referenceTokens bytes := by
  rw [tokens_eq_lexFrom]
  rcases hend with rfl | ⟨pre, d, rfl, hd⟩
  · rfl
  · have := lexFrom_eq_reference d hd pre [] (fun h => hnul (List.mem_append_left _ h)) (by simp)
    simpa [referenceTokens] using this

theorem tokens_eq_reference_witness :
    tokens [97, 32, 98, 32, 99, 32, 97, 32, 98, 32, 99, 10] =
      referenceTokens [97, 32, 98, 32, 99, 32, 97, 32, 98, 32, 99, 10] :=
  tokens_eq_reference _ (by decide)
    (Or.inr ⟨[97, 32, 98, 32, 99, 32, 97, 32, 98, 32, 99], 10, rfl, by decide⟩)

/-! ## `SortVocab` when entry 0 is not below `min_count` -/

/-- In a list in non-increasing order of count the cells with
`cn ≥ min_count` are a prefix. -/
theorem sorted_filter_eq_take (mc : Int) :
    ∀ (T : List vocab_word), T.Pairwise (fun a b => b.cn ≤ a.cn) →
      T.filter (fun v => decide (mc ≤ v.cn)) =
        T.take (T.length - (T.filter (fun v => decide (v.cn < mc))).length) := by
  intro T
  induction T with
  | nil => intro _; rfl
  | cons y T ih =>
    intro hs
    rw [List.pairwise_cons] at hs
    have hle := List.length_filter_le (fun v => decide (v.cn < mc)) T
    by_cases hy : y.cn < mc
    · have hall : ∀ v, v ∈ y :: T → decide (v.cn < mc) = true := by
        intro v hv
        rcases List.mem_cons.mp hv with rfl | hv
        · simpa using hy
        · have := hs.1 v hv
          simp only [decide_eq_true_eq]
          omega
      have hnone : ∀ v, v ∈ y :: T → ¬ (decide (mc ≤ v.cn) = true) := by
        intro v hv
        have := hall v hv
        simp only [decide_eq_true_eq] at this ⊢
        omega
      rw [List.filter_eq_self.mpr hall, List.filter_eq_nil_iff.mpr hnone]
      simp
    · have h1 : (y :: T).filter (fun v => decide (mc ≤ v.cn)) =
          y :: T.filter (fun v => decide (mc ≤ v.cn)) := by
        have : mc ≤ y.cn := by omega
        simp [this]
      have h2 : (y :: T).filter (fun v => decide (v.cn < mc)) =
          T.filter (fun v => decide (v.cn < mc)) := by simp [hy]
      rw [h1, h2, ih hs.2, List.length_cons]
      have : T.length + 1 - (T.filter (fun v => decide (v.cn < mc))).length =
          (T.length - (T.filter (fun v => decide (v.cn < mc))).length) + 1 := by omega
      rw [this, List.take_succ_cons]

theorem keptIndexed_eq_indexed_filter (mc : Int) :
    ∀ (L : List vocab_word) (a : Nat),
      (∀ k, L.filter (fun v => decide (mc ≤ v.cn)) = L.take k →
        keptIndexed mc a L = indexed a (L.take k)) := by
  intro L
  induction L with
  | nil => intro a k _; simp [keptIndexed, indexed]
  | cons y L ih =>
    intro a k hk
    by_cases hy : y.cn < mc
    · have h1 : (y :: L).filter (fun v => decide (mc ≤ v.cn)) =
          L.filter (fun v => decide (mc ≤ v.cn)) := by
        have : ¬ mc ≤ y.cn := by omega
        simp [this]
      rw [h1] at hk
      cases k with
      | zero =>
        simp only [List.take_zero] at hk
        have := ih (a + 1) 0 (by simpa using hk)
        simp only [keptIndexed, hy, if_true, this, List.take_zero, indexed]
      | succ k =>
        exfalso
        rw [List.take_succ_cons] at hk
        have hm : y ∈ L.filter (fun v => decide (mc ≤ v.cn)) := by
          rw [hk]; exact List.mem_cons_self _ _
        have := (List.mem_filter.mp hm).2
        simp only [decide_eq_true_eq] at this
        omega
    · have h1 : (y :: L).filter (fun v => decide (mc ≤ v.cn)) =
          y :: L.filter (fun v => decide (mc ≤ v.cn)) := by
        have : mc ≤ y.cn := by omega
        simp [this]
      rw [h1] at hk
      cases k with
      | zero => simp at hk
      | succ k =>
        rw [List.take_succ_cons, List.cons.injEq] at hk
        have := ih (a + 1) k hk.2
        simp only [keptIndexed, hy, if_false, this, List.take_succ_cons, indexed]

/-- The result of `SearchVocab` depends on `vocab` only through the cells whose
index is stored in the table. -/
theorem SearchVocab_loop_congr (H : Nat) (s s' : State) (w : List Nat)
    (hh : s.vocab_hash = s'.vocab_hash)
    (hcell : ∀ p, p < H → s.vocab_hash p ≠ -1 →
      s.vocab.getD (s.vocab_hash p).toNat default =
        s'.vocab.getD (s.vocab_hash p).toNat default) :
    ∀ (fuel h : Nat), h < H →
      SearchVocab.loop H s w fuel h = SearchVocab.loop H s' w fuel h := by
  intro fuel
  induction fuel with
  | zero => intro h _; rfl
  | succ fuel ih =>
    intro h hlt
    rw [SearchVocab.loop, SearchVocab.loop, ← hh]
    by_cases hv : s.vocab_hash h = -1
    · rw [if_pos hv, if_pos hv]
    · rw [if_neg hv, if_neg hv, hcell h hlt hv, ih _ (Nat.mod_lt _ (by omega))]

theorem getD_take_of_lt (L : List vocab_word) (i k : Nat) (h : i < k) :
    (L.take k).getD i default = L.getD i default := by
  simp only [List.getD_eq_getElem?_getD, List.getElem?_take, if_pos h]

/-- When entry 0 is not below `min_count` (and the other counts are in
`[0, 2^31)`, the words are pairwise distinct and the table has room),
`SortVocab` is consistent: every surviving entry has count at least
`min_count`, `train_words` is the sum of the surviving counts, `SearchVocab`
returns the index of every surviving word and `-1` for every other word. -/
theorem SortVocab_consistent (H : Nat) (min_count : Int) (s : State)
    (hpos : 0 < s.vocab_size) (hwf : s.vocab_size ≤ s.vocab.length) (hfit : s.vocab_size < H)
    (hrange : ∀ v, v ∈ (s.vocab.take s.vocab_size).drop 1 → 0 ≤ v.cn ∧ v.cn < 2 ^ 31)
    (hnd : ((s.vocab.take s.vocab_size).map (fun v => v.word)).Nodup)
    (h0 : min_count ≤ (s.vocab.getD 0 default).cn) :
    ∃ t, SortVocab H min_count s = some t ∧
      (∀ i, i < t.vocab_size → min_count ≤ (t.vocab.getD i default).cn) ∧
      t.train_words = ((t.vocab.take t.vocab_size).map (fun v => v.cn)).sum ∧
      (∀ i, i < t.vocab_size →
        SearchVocab H t (t.vocab.getD i default).word = some (i : Int)) ∧
      (∀ w, (∀ i, i < t.vocab_size → (t.vocab.getD i default).word ≠ w) →
        SearchVocab H t w = some (-1)) := by
  obtain ⟨x, rest, hlive⟩ : ∃ x rest, s.vocab.take s.vocab_size = x :: rest := by
    cases hl : s.vocab.take s.vocab_size with
    | nil =>
      have := congrArg List.length hl
      rw [List.length_take, List.length_nil] at this
      omega
    | cons x rest => exact ⟨x, rest, rfl⟩
  have hx : s.vocab.getD 0 default = x := by
    have h0 : (s.vocab.take s.vocab_size)[0]? = some x := by rw [hlive]; simp
    rw [List.getElem?_take, if_pos hpos] at h0
    simp [List.getD_eq_getElem?_getD, h0]
  rw [hx] at h0
  have hn : rest.length + 1 = s.vocab_size := by
    have := congrArg List.length hlive
    rw [List.length_take, List.length_cons] at this
    omega
  have hrest : ∀ v, v ∈ rest → 0 ≤ v.cn ∧ v.cn < 2 ^ 31 := by
    intro v hv; apply hrange; rw [hlive]; simpa using hv
  have hT := qsort_sorted rest hrest
  have hperm := qsort_perm VocabCompare rest
  have hTlen : (qsort VocabCompare rest).length = rest.length := hperm.length_eq
  generalize hTdef : qsort VocabCompare rest = T at hT hperm hTlen
  have hlowle := List.length_filter_le (fun v => decide (v.cn < min_count)) T
  -- the cells kept are a prefix of the sorted array
  have hlow : (x :: T).filter (fun v => decide (v.cn < min_count)) =
      T.filter (fun v => decide (v.cn < min_count)) := by
    have : ¬ x.cn < min_count := by omega
    simp [this]
  have hvs : s.vocab_size - ((x :: T).filter (fun v => decide (v.cn < min_count))).length =
      (T.length - (T.filter (fun v => decide (v.cn < min_count))).length) + 1 := by
    rw [hlow]; omega
  have hkept : (x :: T).filter (fun v => decide (min_count ≤ v.cn)) =
      (x :: T).take ((T.length - (T.filter (fun v => decide (v.cn < min_count))).length) + 1) := by
    rw [List.take_succ_cons, ← sorted_filter_eq_take min_count T hT]
    simp [h0]
  obtain ⟨vh', hloop, hinv⟩ := SortVocab_loop_spec H min_count (x :: T) 0
    s.vocab_size (fun _ => -1) 0 [] (HashInv.empty H) (by simp) (by simp; omega)
  rw [hvs, hkept] at hloop
  rw [List.nil_append, keptIndexed_eq_indexed_filter min_count (x :: T) 0 _ hkept] at hinv
  generalize hkdef : (T.length - (T.filter (fun v => decide (v.cn < min_count))).length) + 1 = k
    at hinv hloop hkept
  have hkle : k ≤ (x :: T).length := by simp only [List.length_cons]; omega
  have hS : SortVocab H min_count s = some { s with
      vocab := (x :: T).take (k + 1)
      vocab_size := k
      vocab_hash := vh'
      train_words := 0 + (((x :: T).take k).map (fun v => v.cn)).sum } := by
    simp only [SortVocab, hlive, List.take_succ_cons, List.take_zero, List.drop_succ_cons,
      List.drop_zero, List.singleton_append, hTdef, hloop]
  have hlenk : ((x :: T).take k).length = k := by
    rw [List.length_take]; omega
  -- the state with the dead cell dropped satisfies the invariant of the index
  have hinv' : StateInv H { s with
      vocab := (x :: T).take k
      vocab_size := k
      vocab_hash := vh'
      train_words := 0 + (((x :: T).take k).map (fun v => v.cn)).sum } := by
    refine ⟨hlenk, ?_, hinv⟩
    have hp : ((x :: T).map (fun v => v.word)).Perm ((x :: rest).map (fun v => v.word)) :=
      (List.Perm.cons x hperm).map _
    have hnd' : ((x :: T).map (fun v => v.word)).Nodup := by
      rw [hlive] at hnd
      exact hp.nodup_iff.mpr hnd
    exact List.Nodup.sublist (List.Sublist.map _ (List.take_sublist _ _)) hnd'
  have hsearch : ∀ w, SearchVocab H { s with
        vocab := (x :: T).take (k + 1)
        vocab_size := k
        vocab_hash := vh'
        train_words := 0 + (((x :: T).take k).map (fun v => v.cn)).sum } w =
      SearchVocab H { s with
        vocab := (x :: T).take k
        vocab_size := k
        vocab_hash := vh'
        train_words := 0 + (((x :: T).take k).map (fun v => v.cn)).sum } w := by
    intro w
    unfold SearchVocab
    refine SearchVocab_loop_congr H _ _ w ?_ ?_ H _ (GetWordHash_lt H (by omega) w)
    · rfl
    intro p hp hne
    simp only at hne ⊢
    rcases hinv.slots p hp with h | ⟨e, he, hv⟩
    · exact absurd h hne
    · obtain ⟨m, hm, h1, _⟩ := (mem_indexed _ 0 e).mp he
      rw [hv, Int.toNat_ofNat]
      have hek : e.1 < k := by omega
      rw [getD_take_of_lt _ _ _ (Nat.lt_succ_of_lt hek), getD_take_of_lt _ _ _ hek]
  refine ⟨_, hS, ?_, ?_, ?_, ?_⟩
  · intro i hi
    simp only at hi ⊢
    rw [getD_take_of_lt _ _ _ (Nat.lt_succ_of_lt hi), ← getD_take_of_lt _ i k hi]
    have hmem : ((x :: T).take k).getD i default ∈ (x :: T).take k := by
      rw [List.getD_eq_getElem _ _ (by omega)]
      exact List.getElem_mem _
    have hmem' : ((x :: T).take k).getD i default ∈
        (x :: T).filter (fun v => decide (min_count ≤ v.cn)) := by rw [hkept]; exact hmem
    have := (List.mem_filter.mp hmem').2
    simp only [decide_eq_true_eq] at this
    exact this
  · simp only
    rw [List.take_take, Nat.min_eq_left (Nat.le_succ k)]
    simp
  · intro i hi
    simp only at hi ⊢
    rw [hsearch, getD_take_of_lt _ _ _ (Nat.lt_succ_of_lt hi), ← getD_take_of_lt _ i k hi]
    exact SearchVocab_found H _ hinv' i (by simp only; omega)
  · intro w hw
    simp only at hw
    rw [hsearch]
    apply SearchVocab_absent H _ hinv' w (by simp only; omega)
    intro hmem
    obtain ⟨i, hi, hwi⟩ := (mem_words_iff _ w).mp hmem
    simp only at hi hwi
    rw [hlenk] at hi
    apply hw i hi
    rw [getD_take_of_lt _ _ _ (Nat.lt_succ_of_lt hi), ← getD_take_of_lt _ i k hi]
    exact hwi

theorem SortVocab_consistent_witness :
    ∃ t, SortVocab vocab_hash_size 5
        ⟨[⟨7, eos⟩, ⟨10, [97]⟩, ⟨1, [98]⟩], 3, fun _ => -1, 1, 0⟩ = some t ∧
      (∀ i, i < t.vocab_size → (5 : Int) ≤ (t.vocab.getD i default).cn) ∧
      t.train_words = ((t.vocab.take t.vocab_size).map (fun v => v.cn)).sum ∧
      (∀ i, i < t.vocab_size →
        SearchVocab vocab_hash_size t (t.vocab.getD i default).word = some (i : Int)) ∧
      (∀ w, (∀ i, i < t.vocab_size → (t.vocab.getD i default).word ≠ w) →
        SearchVocab vocab_hash_size t w = some (-1)) :=
  SortVocab_consistent vocab_hash_size 5
    ⟨[⟨7, eos⟩, ⟨10, [97]⟩, ⟨1, [98]⟩], 3, fun _ => -1, 1, 0⟩
    (by decide) (by decide) (by decide) (by decide) (by decide) (by decide)

/-! ## The order of the vocabulary after `SortVocab` -/

/-- The result of `SortVocab` on a state with at least entry 0 whose live
cells fit into the table, written out. -/
theorem SortVocab_eq (H : Nat) (min_count : Int) (s : State) (hpos : 0 < s.vocab_size)
    (hwf : s.vocab_size ≤ s.vocab.length) (hfit : s.vocab_size ≤ H) :
    ∃ x rest vh', s.vocab.take s.vocab_size = x :: rest ∧ s.vocab.getD 0 default = x ∧
      SortVocab H min_count s = some { s with
        vocab := (x :: qsort VocabCompare rest).take
          (s.vocab_size - ((x :: qsort VocabCompare rest).filter
            (fun v => decide (v.cn < min_count))).length + 1)
        vocab_size := s.vocab_size - ((x :: qsort VocabCompare rest).filter
            (fun v => decide (v.cn < min_count))).length
        vocab_hash := vh'
        train_words := 0 + (((x :: qsort VocabCompare rest).filter
            (fun v => decide (min_count ≤ v.cn))).map (fun v => v.cn)).sum } := by
  obtain ⟨x, rest, hlive⟩ : ∃ x rest, s.vocab.take s.vocab_size = x :: rest := by
    cases hl : s.vocab.take s.vocab_size with
    | nil =>
      have := congrArg List.length hl
      rw [List.length_take, List.length_nil] at this
      omega
    | cons x rest => exact ⟨x, rest, rfl⟩
  have hx : s.vocab.getD 0 default = x := by
    have h0 : (s.vocab.take s.vocab_size)[0]? = some x := by rw [hlive]; simp
    rw [List.getElem?_take, if_pos hpos] at h0
    simp [List.getD_eq_getElem?_getD, h0]
  have hn : rest.length + 1 = s.vocab_size := by
    have := congrArg List.length hlive
    rw [List.length_take, List.length_cons] at this
    omega
  have hTlen : (qsort VocabCompare rest).length = rest.length := (qsort_perm _ rest).length_eq
  obtain ⟨vh', hloop, _⟩ := SortVocab_loop_spec H min_count (x :: qsort VocabCompare rest) 0
    s.vocab_size (fun _ => -1) 0 [] (HashInv.empty H) (by simp) (by simp; omega)
  refine ⟨x, rest, vh', hlive, hx, ?_⟩
  simp only [SortVocab, hlive, List.take_succ_cons, List.take_zero, List.drop_succ_cons,
    List.drop_zero, List.singleton_append, hloop]

/-- C11: for every vocabulary with at least entry 0 whose live cells fit into
the hash table and whose counts all lie in `[0, 2^31)`, and every `min_count`,
`SortVocab` returns; entry 0 is the entry that was at index 0 before, and the
surviving entries at the indices `1 .. vocab_size - 1` are in non-increasing
order of count and form a sub-multiset of the entries that were at the indices
`≥ 1` before. -/
theorem SortVocab_sorted_tail (H : Nat) (min_count : Int) (s : State) (hpos : 0 < s.vocab_size)
    (hwf : s.vocab_size ≤ s.vocab.length) (hfit : s.vocab_size ≤ H)
    (hrange : ∀ v, v ∈ s.vocab.take s.vocab_size → 0 ≤ v.cn ∧ v.cn < 2 ^ 31) :
    ∃ t, SortVocab H min_count s = some t ∧
      t.vocab.getD 0 default = s.vocab.getD 0 default ∧
      ((t.vocab.take t.vocab_size).drop 1).Pairwise (fun a b => b.cn ≤ a.cn) ∧
      ((t.vocab.take t.vocab_size).drop 1).Subperm ((s.vocab.take s.vocab_size).drop 1) := by
  obtain ⟨x, rest, vh', hlive, hx, hS⟩ := SortVocab_eq H min_count s hpos hwf hfit
  have hrest : ∀ v, v ∈ rest → 0 ≤ v.cn ∧ v.cn < 2 ^ 31 := by
    intro v hv; apply hrange; rw [hlive]; exact List.mem_cons_of_mem _ hv
  have hT := qsort_sorted rest hrest
  have hperm := qsort_perm VocabCompare rest
  refine ⟨_, hS, by rw [hx]; simp, ?_, ?_⟩
  · simp only
    rw [List.take_take, List.drop_take]
    exact List.Pairwise.sublist (List.take_sublist _ _) (by simpa using hT)
  · simp only
    rw [List.take_take, List.drop_take, hlive]
    simp only [List.drop_succ_cons, List.drop_zero]
    exact (List.take_sublist _ _).subperm.trans hperm.subperm

/-- C11 at the vocabulary `</s>` (0), `b` (1), `a` (10), `c` (7) with
`min_count = 5` and the program's capacity. -/
theorem SortVocab_sorted_tail_witness :
    ∃ t, SortVocab vocab_hash_size 5
        ⟨[⟨0, eos⟩, ⟨1, [98]⟩, ⟨10, [97]⟩, ⟨7, [99]⟩], 4, fun _ => -1, 1, 0⟩ = some t ∧
      t.vocab.getD 0 default = (⟨0, eos⟩ : vocab_word) ∧
      ((t.vocab.take t.vocab_size).drop 1).Pairwise (fun a b => b.cn ≤ a.cn) ∧
      ((t.vocab.take t.vocab_size).drop 1).Subperm [⟨1, [98]⟩, ⟨10, [97]⟩, ⟨7, [99]⟩] :=
  SortVocab_sorted_tail vocab_hash_size 5
    ⟨[⟨0, eos⟩, ⟨1, [98]⟩, ⟨10, [97]⟩, ⟨7, [99]⟩], 4, fun _ => -1, 1, 0⟩
    (by decide) (by decide) (by decide) (by decide)

/-! ## The merge loop of `CreateBinaryTree` -/

/-- One run of the block that finds the next smallest node: it takes the leaf
under `pos1` or the created node under `pos2`, a node not taken before. -/
theorem pick_spec (n a l m : Nat) (t : Tree) (hp1 : t.pos1 = (n : Int) - 1 - (l : Int))
    (hp2 : t.pos2 = n + m) (hl : l ≤ n) (hm : m ≤ a)
    (hcnt : l < n → m = a → t.count (n - 1 - l) < t.count (n + m))
    (hend : l = n → m < a) :
    ∃ x l' m' : Nat, (CreateBinaryTree.pick t).1 = x ∧
      (CreateBinaryTree.pick t).2.count = t.count ∧
      (CreateBinaryTree.pick t).2.binary = t.binary ∧
      (CreateBinaryTree.pick t).2.parent_node = t.parent_node ∧
      (CreateBinaryTree.pick t).2.pos1 = (n : Int) - 1 - (l' : Int) ∧
      (CreateBinaryTree.pick t).2.pos2 = n + m' ∧
      l' + m' = l + m + 1 ∧ l' ≤ n ∧ m' ≤ a ∧ x < n + a ∧
      ¬ CreateBinaryTree.picked n l m x ∧
      (∀ y, CreateBinaryTree.picked n l' m' y ↔ (CreateBinaryTree.picked n l m y ∨ y = x)) := by
  have htn : l < n → t.pos1.toNat = n - 1 - l := by
    intro h; rw [hp1]; omega
  by_cases h1 : 0 ≤ t.pos1
  · have hln : l < n := by rw [hp1] at h1; omega
    by_cases h2 : t.count t.pos1.toNat < t.count t.pos2
    · have hpk : CreateBinaryTree.pick t = (t.pos1.toNat, { t with pos1 := t.pos1 - 1 }) := by
        simp only [CreateBinaryTree.pick, if_pos h1, if_pos h2]
      rw [hpk]
      refine ⟨n - 1 - l, l + 1, m, htn hln, rfl, rfl, rfl, ?_, hp2, by omega, by omega, hm,
        by omega, ?_, ?_⟩
      · show t.pos1 - 1 = _
        rw [hp1]; push_cast; ring
      · simp only [CreateBinaryTree.picked]; omega
      · intro y; simp only [CreateBinaryTree.picked]; omega
    · have hma : m < a := by
        rcases Nat.lt_or_ge m a with h | h
        · exact h
        · exfalso
          have := hcnt hln (by omega)
          rw [htn hln, hp2] at h2
          exact h2 this
      have hpk : CreateBinaryTree.pick t = (t.pos2, { t with pos2 := t.pos2 + 1 }) := by
        simp only [CreateBinaryTree.pick, if_pos h1, if_neg h2]
      rw [hpk]
      refine ⟨n + m, l, m + 1, hp2, rfl, rfl, rfl, hp1, ?_, by omega, hl, by omega, by omega,
        ?_, ?_⟩
      · show t.pos2 + 1 = _
        rw [hp2]; omega
      · simp only [CreateBinaryTree.picked]; omega
      · intro y; simp only [CreateBinaryTree.picked]; omega
  · have hln : l = n := by rw [hp1] at h1; omega
    have hma := hend hln
    have hpk : CreateBinaryTree.pick t = (t.pos2, { t with pos2 := t.pos2 + 1 }) := by
      simp only [CreateBinaryTree.pick, if_neg h1]
    rw [hpk]
    refine ⟨n + m, l, m + 1, hp2, rfl, rfl, rfl, hp1, ?_, by omega, hl, by omega, by omega,
      ?_, ?_⟩
    · show t.pos2 + 1 = _
      rw [hp2]; omega
    · simp only [CreateBinaryTree.picked]; omega
    · intro y; simp only [CreateBinaryTree.picked]; omega

/-- The invariant holds before the first iteration. -/
theorem TreeInv_init (n : Nat) (cn : Nat → Int) :
    TreeInv n cn 0 0 0 (CreateBinaryTree.init cn n) := by
  refine ⟨by simp [CreateBinaryTree.init], rfl, rfl, Nat.zero_le _, Or.inr rfl, ?_, ?_, ?_, ?_, ?_,
    ?_, ?_⟩
  · intro x hx; simp [CreateBinaryTree.init, hx]
  · intro x h1 h2
    have : ¬ x < n := by omega
    simp [CreateBinaryTree.init, this, h2]
  · intro x hx; simp only [CreateBinaryTree.picked] at hx; omega
  · intro x _; exact ⟨rfl, rfl⟩
  · intro j hj; omega
  · intro x y _ _ hx; simp only [CreateBinaryTree.picked] at hx; omega
  · intro x y _ _ hy; simp only [CreateBinaryTree.picked] at hy; omega

/-- One iteration of the merge loop keeps the invariant. -/
theorem TreeInv_step (n : Nat) (cn : Nat → Int) (hcn : ∀ x, x < n → cn x < 10 ^ 15)
    (a l m : Nat) (ha : a + 1 < n)
    (h : TreeInv n cn a l m (CreateBinaryTree.merge n a (CreateBinaryTree.init cn n))) :
    ∃ l' m', TreeInv n cn (a + 1) l' m'
      (CreateBinaryTree.merge n (a + 1) (CreateBinaryTree.init cn n)) := by
  generalize ht : CreateBinaryTree.merge n a (CreateBinaryTree.init cn n) = t at h
  have hcount : ∀ l0, l0 < n → t.count (n - 1 - l0) < t.count (n + a) := by
    intro l0 h0
    rw [h.count_leaf _ (by omega), h.count_new _ (Nat.le_refl _) (by omega)]
    exact hcn _ (by omega)
  obtain ⟨x1, l1, m1, e1, ec1, eb1, ep1, hp1, hq1, ht1, hl1, hm1, hx1, hn1, hP1⟩ :=
    pick_spec n a l m t h.pos1 h.pos2 h.leaves (by have := h.created; have := h.total; omega)
      (by intro h0 hma; rw [hma]; exact hcount l h0)
      (by intro h0; have := h.created; have := h.total; omega)
  obtain ⟨x2, l2, m2, e2, ec2, eb2, ep2, hp2, hq2, ht2, hl2, hm2, hx2, hn2, hP2⟩ :=
    pick_spec n a l1 m1 (CreateBinaryTree.pick t).2 hp1 hq1 hl1 hm1
      (by intro h0 hma; rw [hma, ec1]; exact hcount l1 h0)
      (by intro h0; have := h.total; omega)
  have hne : x2 ≠ x1 := by
    intro e; apply hn2; rw [hP1]; exact Or.inr e
  have hnP2 : ¬ CreateBinaryTree.picked n l m x2 := by
    intro e; apply hn2; rw [hP1]; exact Or.inl e
  have hP : ∀ y, CreateBinaryTree.picked n l2 m2 y ↔
      (CreateBinaryTree.picked n l m y ∨ y = x1 ∨ y = x2) := by
    intro y; rw [hP2, hP1, or_assoc]
  have hstep : CreateBinaryTree.merge n (a + 1) (CreateBinaryTree.init cn n)
      = CreateBinaryTree.step n a t := by rw [← ht]; rfl
  have hpar : ∀ y, (CreateBinaryTree.step n a t).parent_node y =
      if y = x2 then n + a else if y = x1 then n + a else t.parent_node y := by
    intro y
    simp only [CreateBinaryTree.step, e1, e2, ep2, ep1, Function.update_apply]
  have hbin : ∀ y, (CreateBinaryTree.step n a t).binary y = if y = x2 then 1 else t.binary y := by
    intro y
    simp only [CreateBinaryTree.step, e2, eb2, eb1, Function.update_apply]
  have hcnt : ∀ y, y ≠ n + a → (CreateBinaryTree.step n a t).count y = t.count y := by
    intro y hy
    simp only [CreateBinaryTree.step, ec2, ec1, Function.update_apply, if_neg hy]
  have hchosen : CreateBinaryTree.chosen t = (x1, x2) := by
    simp only [CreateBinaryTree.chosen, e1, e2]
  have hpos : ∀ y, t.parent_node y ≠ 0 → CreateBinaryTree.picked n l m y := by
    intro y hy
    by_contra hc
    exact hy (h.unpicked y hc).1
  rw [hstep]
  refine ⟨l2, m2, hp2, hq2, by have := h.total; omega, hl2, ?_, ?_, ?_, ?_, ?_, ?_, ?_, ?_⟩
  · left
    rcases h.created with hc | hc
    · omega
    · have := h.total
      have hl0 : l = 0 := by omega
      have hm0 : m = 0 := by omega
      by_contra hcon
      have hm2' : m2 = 1 := by omega
      have hl2' : l2 = 1 := by omega
      omega
  · intro x hx
    rw [hcnt x (by omega)]
    exact h.count_leaf x hx
  · intro x hx1 hx2
    rw [hcnt x (by omega)]
    exact h.count_new x (by omega) hx2
  · intro y hy
    rw [hpar]
    rw [hP] at hy
    split_ifs with c1 c2
    · omega
    · omega
    · rcases hy with hy | hy | hy
      · have := h.parent_picked y hy; omega
      · exact absurd hy c2
      · exact absurd hy c1
  · intro y hy
    rw [hpar, hbin]
    rw [hP] at hy
    push_neg at hy
    rw [if_neg hy.2.2, if_neg hy.2.2, if_neg hy.2.1]
    exact h.unpicked y hy.1
  · intro j hj
    rcases Nat.lt_succ_iff_lt_or_eq.mp hj with hj' | hj'
    · obtain ⟨c1, c2, c3, c4, c5, c6⟩ := h.children j hj'
      generalize (CreateBinaryTree.chosen
        (CreateBinaryTree.merge n j (CreateBinaryTree.init cn n))) = c at c1 c2 c3 c4 c5 c6 ⊢
      have k1 : CreateBinaryTree.picked n l m c.1 := hpos _ (by omega)
      have k2 : CreateBinaryTree.picked n l m c.2 := hpos _ (by omega)
      have d1 : c.1 ≠ x1 := fun e => hn1 (e ▸ k1)
      have d2 : c.1 ≠ x2 := fun e => hnP2 (e ▸ k1)
      have d3 : c.2 ≠ x1 := fun e => hn1 (e ▸ k2)
      have d4 : c.2 ≠ x2 := fun e => hnP2 (e ▸ k2)
      refine ⟨c1, ?_, ?_, ?_, ?_, ?_⟩
      · rw [hpar, if_neg d2, if_neg d1]; exact c2
      · rw [hpar, if_neg d4, if_neg d3]; exact c3
      · rw [hbin, if_neg d2]; exact c4
      · rw [hbin, if_neg d4]; exact c5
      · intro x hx
        rw [hpar] at hx
        split_ifs at hx with e1 e2
        · omega
        · omega
        · exact c6 x hx
    · rw [hj', ht, hchosen]
      refine ⟨fun e => hne e.symm, ?_, ?_, ?_, ?_, ?_⟩
      · rw [hpar, if_neg (fun e => hne e.symm), if_pos rfl]
      · rw [hpar, if_pos rfl]
      · rw [hbin, if_neg (fun e => hne e.symm)]; exact (h.unpicked x1 hn1).2
      · rw [hbin, if_pos rfl]
      · intro x hx
        rw [hpar] at hx
        split_ifs at hx with e1 e2
        · exact Or.inr e1
        · exact Or.inl e2
        · by_cases hc : CreateBinaryTree.picked n l m x
          · have := h.parent_picked x hc; omega
          · have := (h.unpicked x hc).1; omega
  · intro x y hxy hy hx
    have hy2 : CreateBinaryTree.picked n l2 m2 y := by
      simp only [CreateBinaryTree.picked] at hx ⊢; omega
    rw [hP] at hx hy2
    rw [hpar, hpar]
    have hold : CreateBinaryTree.picked n l m x → CreateBinaryTree.picked n l m y := by
      simp only [CreateBinaryTree.picked]; omega
    have hub : ∀ z, CreateBinaryTree.picked n l m z → t.parent_node z < n + a :=
      fun z hz => (h.parent_picked z hz).2.1
    by_cases a1 : x = x2
    · rw [if_pos a1]
      split_ifs
      · exact Nat.le_refl _
      · exact Nat.le_refl _
      · rcases hy2 with hy2 | hy2 | hy2
        · exact Nat.le_of_lt (hub y hy2)
        · contradiction
        · contradiction
    · rw [if_neg a1]
      by_cases a2 : x = x1
      · rw [if_pos a2]
        split_ifs
        · exact Nat.le_refl _
        · exact Nat.le_refl _
        · rcases hy2 with hy2 | hy2 | hy2
          · exact Nat.le_of_lt (hub y hy2)
          · contradiction
          · contradiction
      · rw [if_neg a2]
        have hxo : CreateBinaryTree.picked n l m x := by
          rcases hx with hx | hx | hx
          · exact hx
          · contradiction
          · contradiction
        have hyo := hold hxo
        have b1 : y ≠ x2 := fun e => hnP2 (e ▸ hyo)
        have b2 : y ≠ x1 := fun e => hn1 (e ▸ hyo)
        rw [if_neg b1, if_neg b2]
        exact h.mono_leaf x y hxy hy hxo
  · intro x y hx hxy hy
    have hx2' : CreateBinaryTree.picked n l2 m2 x := by
      simp only [CreateBinaryTree.picked] at hy ⊢; omega
    rw [hP] at hy hx2'
    rw [hpar, hpar]
    have hold : CreateBinaryTree.picked n l m y → CreateBinaryTree.picked n l m x := by
      simp only [CreateBinaryTree.picked]; omega
    have hub : ∀ z, CreateBinaryTree.picked n l m z → t.parent_node z < n + a :=
      fun z hz => (h.parent_picked z hz).2.1
    by_cases a1 : y = x2
    · rw [if_pos a1]
      split_ifs
      · exact Nat.le_refl _
      · exact Nat.le_refl _
      · rcases hx2' with hx2' | hx2' | hx2'
        · exact Nat.le_of_lt (hub x hx2')
        · contradiction
        · contradiction
    · rw [if_neg a1]
      by_cases a2 : y = x1
      · rw [if_pos a2]
        split_ifs
        · exact Nat.le_refl _
        · exact Nat.le_refl _
        · rcases hx2' with hx2' | hx2' | hx2'
          · exact Nat.le_of_lt (hub x hx2')
          · contradiction
          · contradiction
      · rw [if_neg a2]
        have hyo : CreateBinaryTree.picked n l m y := by
          rcases hy with hy | hy | hy
          · exact hy
          · contradiction
          · contradiction
        have hxo := hold hyo
        have b1 : x ≠ x2 := fun e => hnP2 (e ▸ hxo)
        have b2 : x ≠ x1 := fun e => hn1 (e ▸ hxo)
        rw [if_neg b1, if_neg b2]
        exact h.mono_node x y hx hxy hyo

/-- The invariant holds before every iteration of the merge loop. -/
theorem TreeInv_merge (n : Nat) (cn : Nat → Int) (hcn : ∀ x, x < n → cn x < 10 ^ 15) :
    ∀ a, a + 1 ≤ n → ∃ l m, TreeInv n cn a l m
      (CreateBinaryTree.merge n a (CreateBinaryTree.init cn n)) := by
  intro a
  induction a with
  | zero => intro _; exact ⟨0, 0, TreeInv_init n cn⟩
  | succ a ih =>
    intro ha
    obtain ⟨l, m, h⟩ := ih (by omega)
    exact TreeInv_step n cn hcn a l m (by omega) h

/-- When the merge loop has finished, every leaf and every created node but
the last has been taken. -/
theorem TreeInv_final (n : Nat) (cn : Nat → Int) (hn : 2 ≤ n)
    (hcn : ∀ x, x < n → cn x < 10 ^ 15) :
    TreeInv n cn (n - 1) n (n - 2)
      (CreateBinaryTree.merge n (n - 1) (CreateBinaryTree.init cn n)) := by
  obtain ⟨l, m, h⟩ := TreeInv_merge n cn hcn (n - 1) (by omega)
  have h1 := h.total
  have h2 := h.leaves
  have h3 := h.created
  have hl : l = n := by omega
  have hm : m = n - 2 := by omega
  rw [hl, hm] at h
  exact h

/-- In the finished tree every node below the root has its parent among the
created nodes, above itself. -/
theorem TreeInv.parent_lt {n : Nat} {cn : Nat → Int} {t : Tree} (hn : 2 ≤ n)
    (h : TreeInv n cn (n - 1) n (n - 2) t) (x : Nat) (hx : x < n * 2 - 2) :
    n ≤ t.parent_node x ∧ t.parent_node x ≤ n * 2 - 2 ∧ x < t.parent_node x := by
  have := h.parent_picked x (by simp only [CreateBinaryTree.picked]; omega)
  omega

/-- With enough fuel, one more unit of fuel does not change the depth. -/
theorem depth_succ {n : Nat} {cn : Nat → Int} {t : Tree} (hn : 2 ≤ n)
    (h : TreeInv n cn (n - 1) n (n - 2) t) :
    ∀ fuel x, x ≤ n * 2 - 2 → n * 2 - 2 - x < fuel →
      CreateBinaryTree.depth n t (fuel + 1) x = CreateBinaryTree.depth n t fuel x := by
  intro fuel
  induction fuel with
  | zero => intro x _ hf; omega
  | succ fuel ih =>
    intro x hx hf
    rw [CreateBinaryTree.depth]
    conv_rhs => rw [CreateBinaryTree.depth]
    by_cases hr : x = n * 2 - 2
    · rw [if_pos hr, if_pos hr]
    · rw [if_neg hr, if_neg hr]
      have hp := h.parent_lt hn x (by omega)
      rw [ih (t.parent_node x) hp.2.1 (by omega)]

/-- The depth of the root is zero. -/
theorem depth_root (n : Nat) (t : Tree) :
    CreateBinaryTree.depth n t (n * 2) (n * 2 - 2) = 0 := by
  cases hn : n * 2 with
  | zero => rfl
  | succ k => rw [CreateBinaryTree.depth, if_pos (by omega)]

/-- The depth of a node below the root is one more than that of its parent. -/
theorem depth_parent {n : Nat} {cn : Nat → Int} {t : Tree} (hn : 2 ≤ n)
    (h : TreeInv n cn (n - 1) n (n - 2) t) (x : Nat) (hx : x < n * 2 - 2) :
    CreateBinaryTree.depth n t (n * 2) x =
      CreateBinaryTree.depth n t (n * 2) (t.parent_node x) + 1 := by
  have hp := h.parent_lt hn x hx
  obtain ⟨k, hk⟩ : ∃ k, n * 2 = k + 1 := ⟨n * 2 - 1, by omega⟩
  rw [hk]
  conv_lhs => rw [CreateBinaryTree.depth]
  rw [if_neg (by omega), depth_succ hn h k (t.parent_node x) hp.2.1 (by omega)]

/-- The walk from a node below the root ends: it fills as many cells as the
node is deep, cell `k` with the bit and the index of the `k`-th ancestor, and
it stops exactly when the root is reached. -/
theorem climb_spec {n : Nat} {cn : Nat → Int} {t : Tree} (hn : 2 ≤ n)
    (h : TreeInv n cn (n - 1) n (n - 2) t) :
    ∀ fuel x, x < n * 2 - 2 → n * 2 - 2 - x ≤ fuel →
      ∃ L, 1 ≤ L ∧ L = CreateBinaryTree.depth n t (n * 2) x ∧
        t.parent_node^[L] x = n * 2 - 2 ∧
        (∀ k, k < L → t.parent_node^[k] x < n * 2 - 2) ∧
        CreateBinaryTree.climb n t fuel x = some ((List.range L).map
          (fun k => (t.binary (t.parent_node^[k] x), t.parent_node^[k] x))) := by
  intro fuel
  induction fuel with
  | zero => intro x hx hf; omega
  | succ fuel ih =>
    intro x hx hf
    have hp := h.parent_lt hn x hx
    rw [CreateBinaryTree.climb]
    by_cases hr : t.parent_node x = n * 2 - 2
    · have hr' : (t.parent_node x : Int) = (n : Int) * 2 - 2 := by rw [hr]; omega
      rw [if_pos hr']
      refine ⟨1, Nat.le_refl _, ?_, ?_, ?_, ?_⟩
      · rw [depth_parent hn h x hx, hr, depth_root]
      · simpa using hr
      · intro k hk
        have : k = 0 := by omega
        rw [this]; simpa using hx
      · rfl
    · have hr' : ¬ (t.parent_node x : Int) = (n : Int) * 2 - 2 := by omega
      rw [if_neg hr']
      obtain ⟨L, hL1, hL2, hL3, hL4, hL5⟩ := ih (t.parent_node x) (by omega) (by omega)
      refine ⟨L + 1, by omega, ?_, ?_, ?_, ?_⟩
      · rw [depth_parent hn h x hx, hL2]
      · rw [Function.iterate_succ_apply]; exact hL3
      · intro k hk
        cases k with
        | zero => simpa using hx
        | succ k => rw [Function.iterate_succ_apply]; exact hL4 k (by omega)
      · rw [hL5, List.range_succ_eq_map]
        simp [Function.comp_def]

/-! ## The codes that `CreateBinaryTree` assigns -/

/-- The walk from a node below the root returns the cells of `path`. -/
theorem climb_path {n : Nat} {cn : Nat → Int} {t : Tree} (hn : 2 ≤ n)
    (h : TreeInv n cn (n - 1) n (n - 2) t) (x : Nat) (hx : x < n * 2 - 2) :
    CreateBinaryTree.climb n t (n * 2 + 1) x = some (CreateBinaryTree.path n t x) ∧
      1 ≤ CreateBinaryTree.depth n t (n * 2) x ∧
      t.parent_node^[CreateBinaryTree.depth n t (n * 2) x] x = n * 2 - 2 ∧
      ∀ k, k < CreateBinaryTree.depth n t (n * 2) x → t.parent_node^[k] x < n * 2 - 2 := by
  obtain ⟨L, h1, h2, h3, h4, h5⟩ := climb_spec hn h (n * 2 + 1) x hx (by omega)
  subst h2
  exact ⟨h5, h1, h3, h4⟩

/-- The second loop returns the assigned cells of every word. -/
theorem words_spec {n : Nat} {cn : Nat → Int} {t : Tree} (hn : 2 ≤ n)
    (h : TreeInv n cn (n - 1) n (n - 2) t) :
    ∀ k, k ≤ n → CreateBinaryTree.words n t k = some ((List.range k).map
      (fun a => CreateBinaryTree.assign n (CreateBinaryTree.path n t a))) := by
  intro k
  induction k with
  | zero => intro _; rfl
  | succ k ih =>
    intro hk
    rw [CreateBinaryTree.words, ih (by omega), (climb_path hn h k (by omega)).1]
    simp only [List.range_succ, List.map_append, List.map_cons, List.map_nil]

/-- The invariant of the finished merge loop holds of the tree of a
vocabulary of at least two words with counts below `10 ^ 15`. -/
theorem tree_inv (s : State) (hn : 2 ≤ s.vocab_size)
    (hcn : ∀ a, a < s.vocab_size → (s.vocab.getD a default).cn < 10 ^ 15) :
    TreeInv s.vocab_size (fun a => (s.vocab.getD a default).cn) (s.vocab_size - 1) s.vocab_size
      (s.vocab_size - 2) (CreateBinaryTree.tree s) :=
  TreeInv_final s.vocab_size _ hn hcn

/-- The function `CreateBinaryTree` returns, and word `a` gets the cells of its
walk to the root. -/
theorem CreateBinaryTree_eq (s : State) (hn : 2 ≤ s.vocab_size)
    (hcn : ∀ a, a < s.vocab_size → (s.vocab.getD a default).cn < 10 ^ 15) :
    CreateBinaryTree s = some ((List.range s.vocab_size).map (fun a =>
      CreateBinaryTree.assign s.vocab_size
        (CreateBinaryTree.path s.vocab_size (CreateBinaryTree.tree s) a))) :=
  words_spec hn (tree_inv s hn hcn) s.vocab_size (Nat.le_refl _)

/-- Entry `a` of a list built over `List.range`. -/
theorem getD_map_range {α : Type} (f : Nat → α) (n a : Nat) (d : α) (ha : a < n) :
    ((List.range n).map f).getD a d = f a := by
  rw [List.getD_eq_getElem?_getD, List.getElem?_map, List.getElem?_range ha]
  rfl

/-- Cell `d` of the reversed list of the values `g 0, .., g (L - 1)`. -/
theorem getElem?_reverse_map_range {α : Type} (g : Nat → α) (L d : Nat) (hd : d < L) :
    ((List.range L).map g).reverse[d]? = some (g (L - 1 - d)) := by
  rw [List.getElem?_reverse (by simpa using hd), List.getElem?_map]
  simp only [List.length_map, List.length_range]
  rw [List.getElem?_range (by omega)]
  rfl

/-- The number of cells that `assign` writes into `code` and `point`. -/
theorem assign_lengths (n : Nat) (t : Tree) (x : Nat) :
    (CreateBinaryTree.assign n (CreateBinaryTree.path n t x)).codelen =
        CreateBinaryTree.depth n t (n * 2) x ∧
      (CreateBinaryTree.assign n (CreateBinaryTree.path n t x)).code.length =
        CreateBinaryTree.depth n t (n * 2) x ∧
      (CreateBinaryTree.assign n (CreateBinaryTree.path n t x)).point.length =
        CreateBinaryTree.depth n t (n * 2) x + 1 := by
  simp [CreateBinaryTree.assign, CreateBinaryTree.path]

/-- Cell `d + 1` of `point` is the ancestor `codelen - 1 - d` links up, less
`vocab_size`. -/
theorem assign_point_succ (n : Nat) (t : Tree) (x d : Nat)
    (hd : d < CreateBinaryTree.depth n t (n * 2) x) :
    (CreateBinaryTree.assign n (CreateBinaryTree.path n t x)).point[d + 1]? =
      some ((t.parent_node^[CreateBinaryTree.depth n t (n * 2) x - 1 - d] x : Int) - (n : Int)) := by
  simp only [CreateBinaryTree.assign, CreateBinaryTree.path, List.map_map,
    List.getElem?_cons_succ]
  rw [getElem?_reverse_map_range _ _ _ hd]
  rfl

/-- Cell `0` of `point` is `vocab_size - 2`. -/
theorem assign_point_zero (n : Nat) (r : List (Int × Nat)) :
    (CreateBinaryTree.assign n r).point[0]? = some ((n : Int) - 2) := by
  simp [CreateBinaryTree.assign]

/-- C14: the vocabulary of `</s>` with the count `5 * fib 42` and 41 words
with the counts `5 * fib 1, .., 5 * fib 41`, all below `2^31`, leaves
`SortVocab` (default `min_count = 5`) with its 42 words in non-increasing
order of count and the total `3507043660`, below `10^15`.  In the tree that
`CreateBinaryTree` builds on it the last word lies 41 links below the root:
its walk fills the cells `0 .. 39` of `code` and `point` and then stores into
cell 40, outside the arrays of `MAX_CODE_LENGTH = 40` cells.  Word 39 has the
code length 40, and the assignment stores into `point[40]`, outside the array
as well. -/
theorem CreateBinaryTree_walk_overruns :
    (SortVocab vocab_hash_size 5
      ⟨(⟨((5 * Nat.fib 42 : Nat) : Int), eos⟩ : vocab_word) ::
        (List.range 41).map (fun k =>
          (⟨((5 * Nat.fib (k + 1) : Nat) : Int), [97 + k / 26, 97 + k % 26]⟩ : vocab_word)),
        42, fun _ => -1, 1, 0⟩).map
      (fun t => (t.vocab_size, t.train_words, (t.vocab.take t.vocab_size).map (fun v => v.cn))) =
      some (42, 3507043660, [
        1339571480, 827900705, 511670775, 316229930, 195440845, 120789085, 74651760, 46137325,
        28514435, 17622890, 10891545, 6731345, 4160200, 2571145, 1589055, 982090, 606965,
        375125, 231840, 143285, 88555, 54730, 33825, 20905, 12920, 7985, 4935, 3050, 1885,
        1165, 720, 445, 275, 170, 105, 65, 40, 25, 15, 10, 5, 5]) ∧
    (SortVocab vocab_hash_size 5
      ⟨(⟨((5 * Nat.fib 42 : Nat) : Int), eos⟩ : vocab_word) ::
        (List.range 41).map (fun k =>
          (⟨((5 * Nat.fib (k + 1) : Nat) : Int), [97 + k / 26, 97 + k % 26]⟩ : vocab_word)),
        42, fun _ => -1, 1, 0⟩).map
      (fun t => (CreateBinaryTree.depth t.vocab_size (CreateBinaryTree.tree t)
          (t.vocab_size * 2) 41,
        CreateBinaryTree.walk t.vocab_size (CreateBinaryTree.tree t) (t.vocab_size * 2 + 1) 41 0,
        CreateBinaryTree.walk t.vocab_size (CreateBinaryTree.tree t) (t.vocab_size * 2 + 1) 39 0,
        CreateBinaryTree.store (CreateBinaryTree.walk t.vocab_size (CreateBinaryTree.tree t)
          (t.vocab_size * 2 + 1) 39 0))) =
      some (41, Walk.overrun 40, Walk.done 40, Walk.overrun 40) ∧
    MAX_CODE_LENGTH = 40 := by
  decide!

/-- C15: from the file of ten `a`, five `b` and a newline, with
`min_count = 1`, `LearnVocabFromTrainFile` produces the vocabulary `</s>` (1),
`a` (10), `b` (5), whose entries from index 1 on are in non-increasing order
of count.  On it the first iteration of the merge loop chooses the leaves 2
and 1, of counts 5 and 10, while leaf 0, of count 1, has no parent yet: the
second node chosen is not among the two smallest nodes that are not yet
merged. -/
theorem CreateBinaryTree_chosen_not_smallest :
    (LearnVocabFromTrainFile vocab_hash_size 1
      [97, 32, 97, 32, 97, 32, 97, 32, 97, 32, 97, 32, 97, 32, 97, 32, 97, 32, 97, 32,
        98, 32, 98, 32, 98, 32, 98, 32, 98, 10]).map
      (fun t => (t.vocab.take t.vocab_size, t.vocab_size)) =
        some ([⟨1, eos⟩, ⟨10, [97]⟩, ⟨5, [98]⟩], 3) ∧
    CreateBinaryTree.chosen (CreateBinaryTree.merge 3 0 (CreateBinaryTree.init
      (fun a => (([⟨1, eos⟩, ⟨10, [97]⟩, ⟨5, [98]⟩] : List vocab_word).getD a default).cn) 3))
        = (2, 1) ∧
    (CreateBinaryTree.merge 3 0 (CreateBinaryTree.init
      (fun a => (([⟨1, eos⟩, ⟨10, [97]⟩, ⟨5, [98]⟩] : List vocab_word).getD a default).cn)
        3)).parent_node 0 = 0 ∧
    (CreateBinaryTree.merge 3 0 (CreateBinaryTree.init
      (fun a => (([⟨1, eos⟩, ⟨10, [97]⟩, ⟨5, [98]⟩] : List vocab_word).getD a default).cn)
        3)).count 0 = 1 ∧
    (CreateBinaryTree.merge 3 0 (CreateBinaryTree.init
      (fun a => (([⟨1, eos⟩, ⟨10, [97]⟩, ⟨5, [98]⟩] : List vocab_word).getD a default).cn)
        3)).count 2 = 5 ∧
    (CreateBinaryTree.merge 3 0 (CreateBinaryTree.init
      (fun a => (([⟨1, eos⟩, ⟨10, [97]⟩, ⟨5, [98]⟩] : List vocab_word).getD a default).cn)
        3)).count 1 = 10 ∧
    CreateBinaryTree ⟨[⟨1, eos⟩, ⟨10, [97]⟩, ⟨5, [98]⟩], 3, fun _ => -1, 1, 0⟩ =
      some [⟨1, [0], [1, -3]⟩, ⟨2, [1, 1], [1, 0, -2]⟩, ⟨2, [1, 0], [1, 0, -1]⟩] := by
  decide!

/-! ## The unigram table -/

/-- From a valid id `i` on, the loop of `InitUnigramTable` writes valid ids,
starting with `i`, each cell equal to the one before or one more. -/
theorem InitUnigramTable_loop_spec {R : Type} (gt : Nat → R → Bool) (add : R → R → R)
    (share : Int → R) (n : Int) :
    ∀ k a i d1, 0 ≤ i → i ≤ n - 1 →
      (InitUnigramTable.loop gt add share n k a i d1).length = k ∧
      (∀ e, e ∈ InitUnigramTable.loop gt add share n k a i d1 → i ≤ e ∧ e ≤ n - 1) ∧
      (∀ e, e ∈ (InitUnigramTable.loop gt add share n k a i d1).head? → e = i) ∧
      (InitUnigramTable.loop gt add share n k a i d1).Chain' (fun x y => x ≤ y ∧ y ≤ x + 1) := by
  intro k
  induction k with
  | zero =>
    intro a i d1 _ _
    simp [InitUnigramTable.loop]
  | succ k ih =>
    intro a i d1 h0 h1
    rw [InitUnigramTable.loop]
    generalize hi2 : (if n ≤ (if gt a d1 = true then i + 1 else i) then n - 1
      else (if gt a d1 = true then i + 1 else i)) = i2
    have hb : i ≤ i2 ∧ i2 ≤ i + 1 ∧ i2 ≤ n - 1 := by
      rw [← hi2]
      split_ifs <;> omega
    obtain ⟨l1, l2, l3, l4⟩ := ih (a + 1) i2
      (if gt a d1 = true then add d1 (share (i + 1)) else d1) (by omega) hb.2.2
    refine ⟨by rw [List.length_cons, l1], ?_, ?_, ?_⟩
    · intro e he
      rcases List.mem_cons.mp he with e1 | e1
      · rw [e1]; exact ⟨Int.le_refl _, h1⟩
      · have := l2 e e1; omega
    · intro e he
      simpa using he.symm
    · rw [List.chain'_cons']
      refine ⟨?_, l4⟩
      intro y hy
      rw [l3 y hy]
      exact ⟨hb.1, hb.2.1⟩

/-- C18: for every vocabulary of `n ≥ 1` words, every table size and whatever
the floating-point values are (the shares `count^0.75 / total`, their sums and
the outcomes of the comparisons), the table built by `InitUnigramTable` has
`size` cells, every cell holds an id between 0 and `n - 1`, cell 0 holds id 0,
the ids are non-decreasing in the cell index, and each cell is at most one more
than the cell before. -/
theorem InitUnigramTable_valid {R : Type} (gt : Nat → R → Bool) (add : R → R → R)
    (share : Int → R) (size n : Nat) (hn : 1 ≤ n) :
    (InitUnigramTable gt add share size n).length = size ∧
    (∀ e, e ∈ InitUnigramTable gt add share size n → 0 ≤ e ∧ e ≤ (n : Int) - 1) ∧
    (0 < size → (InitUnigramTable gt add share size n)[0]? = some 0) ∧
    (InitUnigramTable gt add share size n).Pairwise (fun x y => x ≤ y) ∧
    (InitUnigramTable gt add share size n).Chain' (fun x y => y ≤ x + 1) := by
  obtain ⟨l1, l2, l3, l4⟩ := InitUnigramTable_loop_spec gt add share n size 0 0 (share 0)
    (Int.le_refl _) (by omega)
  refine ⟨l1, l2, ?_, ?_, l4.imp (fun _ _ h => h.2)⟩
  · intro hs
    unfold InitUnigramTable
    cases hT : InitUnigramTable.loop gt add share (n : Int) size 0 0 (share 0) with
    | nil => rw [hT] at l1; simp at l1; omega
    | cons x xs =>
      rw [hT] at l3
      have := l3 x (by simp)
      simp [this]
  · have hc : (InitUnigramTable.loop gt add share (n : Int) size 0 0 (share 0)).Chain'
        (fun x y => x ≤ y) := l4.imp (fun _ _ h => h.1)
    exact List.chain'_iff_pairwise.mp hc

/-- C18 at a vocabulary of three words with equal shares and a table of eight
cells, over the rationals. -/
theorem InitUnigramTable_valid_witness :
    (InitUnigramTable (fun a (d : ℚ) => decide ((a : ℚ) / 8 > d)) (fun x y => x + y)
      (fun _ => 1 / 3) 8 3).length = 8 ∧
    (∀ e, e ∈ InitUnigramTable (fun a (d : ℚ) => decide ((a : ℚ) / 8 > d)) (fun x y => x + y)
      (fun _ => 1 / 3) 8 3 → 0 ≤ e ∧ e ≤ ((3 : Nat) : Int) - 1) ∧
    (0 < 8 → (InitUnigramTable (fun a (d : ℚ) => decide ((a : ℚ) / 8 > d)) (fun x y => x + y)
      (fun _ => 1 / 3) 8 3)[0]? = some 0) ∧
    (InitUnigramTable (fun a (d : ℚ) => decide ((a : ℚ) / 8 > d)) (fun x y => x + y)
      (fun _ => 1 / 3) 8 3).Pairwise (fun x y => x ≤ y) ∧
    (InitUnigramTable (fun a (d : ℚ) => decide ((a : ℚ) / 8 > d)) (fun x y => x + y)
      (fun _ => 1 / 3) 8 3).Chain' (fun x y => y ≤ x + 1) :=
  InitUnigramTable_valid _ _ _ 8 3 (by decide)

/-! ## The index into the sigmoid table -/


/-- The constant `EXP_TABLE_SIZE / MAX_EXP / 2` in integer arithmetic. -/
theorem expIndex_constant : EXP_TABLE_SIZE / MAX_EXP / 2 = 83 := by decide

/-- The index as a floor, on the domain of the table. -/
theorem expIndex_eq_floor (f : ℚ) (h1 : -(MAX_EXP : ℚ) < f) :
    TrainModelThread.expIndex f = ⌊(f + 6) * 83⌋ := by
  have h6 : (MAX_EXP : ℚ) = 6 := by norm_num [MAX_EXP]
  have h83 : ((EXP_TABLE_SIZE / MAX_EXP / 2 : Nat) : ℚ) = 83 := by
    rw [expIndex_constant]; norm_num
  rw [h6] at h1
  unfold TrainModelThread.expIndex truncate
  rw [h6, h83, if_pos (by nlinarith)]

/-- C19, counterexample: `f = -5.989` lies in the domain and gets the index 0,
whose point is `-6`, at distance `0.011` from `f`, while the point `-5.988` of
bin 1 is at distance `0.001`. -/
theorem expIndex_not_nearest :
    -(MAX_EXP : ℚ) < -5989 / 1000 ∧ (-5989 / 1000 : ℚ) < MAX_EXP ∧
    TrainModelThread.expIndex (-5989 / 1000) = 0 ∧
    |(-5989 / 1000 : ℚ) - main.expPoint 1| <
      |(-5989 / 1000 : ℚ) - main.expPoint (TrainModelThread.expIndex (-5989 / 1000))| := by
  have h6 : (MAX_EXP : ℚ) = 6 := by norm_num [MAX_EXP]
  have hi : TrainModelThread.expIndex (-5989 / 1000) = 0 := by
    rw [expIndex_eq_floor _ (by rw [h6]; norm_num), Int.floor_eq_iff]
    norm_num
  have hT : (EXP_TABLE_SIZE : ℚ) = 1000 := by norm_num [EXP_TABLE_SIZE]
  refine ⟨by rw [h6]; norm_num, by rw [h6]; norm_num, hi, ?_⟩
  rw [hi]
  unfold main.expPoint
  rw [h6, hT]
  norm_num [abs_lt, abs_of_pos, abs_of_neg]

/-- C19, amended: for every rational `f` with `-MAX_EXP < f < MAX_EXP` the
index `(int)((f + MAX_EXP) * (EXP_TABLE_SIZE / MAX_EXP / 2))`, the constant
taken in integer arithmetic, lies in `[0, EXP_TABLE_SIZE)`, and the point
`(2i / EXP_TABLE_SIZE - 1) * MAX_EXP` of the bin `i` that it selects is not
above `f`. -/
theorem expIndex_range (f : ℚ) (h1 : -(MAX_EXP : ℚ) < f) (h2 : f < (MAX_EXP : ℚ)) :
    0 ≤ TrainModelThread.expIndex f ∧ TrainModelThread.expIndex f < (EXP_TABLE_SIZE : Int) ∧
    main.expPoint (TrainModelThread.expIndex f) ≤ f := by
  have h6 : (MAX_EXP : ℚ) = 6 := by norm_num [MAX_EXP]
  have hT : (EXP_TABLE_SIZE : ℚ) = 1000 := by norm_num [EXP_TABLE_SIZE]
  have hTi : (EXP_TABLE_SIZE : Int) = 1000 := by norm_num [EXP_TABLE_SIZE]
  rw [expIndex_eq_floor f h1]
  rw [h6] at h1 h2
  have hq : 0 ≤ (f + 6) * 83 := by nlinarith
  have hfl : ((⌊(f + 6) * 83⌋ : Int) : ℚ) ≤ (f + 6) * 83 := Int.floor_le _
  refine ⟨Int.floor_nonneg.mpr hq, ?_, ?_⟩
  · rw [hTi, Int.floor_lt]
    push_cast
    nlinarith
  · unfold main.expPoint
    rw [h6, hT]
    nlinarith

/-- C19 (amended) at `f = 0`. -/
theorem expIndex_range_witness :
    0 ≤ TrainModelThread.expIndex 0 ∧ TrainModelThread.expIndex 0 < (EXP_TABLE_SIZE : Int) ∧
    main.expPoint (TrainModelThread.expIndex 0) ≤ 0 :=
  expIndex_range 0 (by norm_num [MAX_EXP]) (by norm_num [MAX_EXP])

/-! ## The hidden vector of a CBOW step -/

/-- The value of a `long long` in range. -/
theorem toInt64_of_range (x : Int) (h0 : -2 ^ 63 ≤ x) (h1 : x < 2 ^ 63) : toInt64 x = x := by
  unfold toInt64
  omega

/-- For a positive `int` window the offset is `next_random` reduced modulo
`window`, between 0 and `window - 1`. -/
theorem offset_range (window : Int) (next_random : Nat) (hw1 : 1 ≤ window)
    (hw2 : window < 2 ^ 31) :
    0 ≤ TrainModelThread.offset window next_random ∧
      TrainModelThread.offset window next_random < window := by
  have hW : (window % 2 ^ 64).toNat = window.toNat := by
    rw [Int.emod_eq_of_lt (by omega) (by omega)]
  have hlt : (next_random * 25214903917 + 11) % 2 ^ 64 % window.toNat < window.toNat :=
    Nat.mod_lt _ (by omega)
  unfold TrainModelThread.offset
  rw [hW, toInt64_of_range _ (by omega) (by omega)]
  omega

/-- The loop of the CBOW step adds, cell by cell and in the order of the loop,
the rows of the words at the positions `sentence_position - window + a` that
are inside the sentence, not the centre and not `-1`. -/
theorem hidden_spec {R : Type} [Add R] (w p len l1 : Int) (sen : Int → Int) (syn0 : Int → R)
    (c : Int) (hc0 : 0 ≤ c) (hc1 : c < l1) :
    ∀ k a neu1, TrainModelThread.hidden w p len l1 sen syn0 k a neu1 c =
      List.foldl (fun x y => x + y) (neu1 c)
        ((((List.range k).map (fun i : Nat => p - w + a + (i : Int))).filter
          (fun x => decide (x ≠ p ∧ 0 ≤ x ∧ x < len ∧ sen x ≠ -1))).map
            (fun x => syn0 (c + sen x * l1))) := by
  intro k
  induction k with
  | zero => intro a neu1; rfl
  | succ k ih =>
    intro a neu1
    have hmap : (List.range (k + 1)).map (fun i : Nat => p - w + a + (i : Int)) =
        (p - w + a) :: (List.range k).map (fun i : Nat => p - w + (a + 1) + (i : Int)) := by
      rw [List.range_succ_eq_map, List.map_cons, List.map_map]
      congr 1
      · simp
      · apply List.map_congr_left
        intro i _
        simp only [Function.comp_apply, Nat.succ_eq_add_one]
        push_cast
        ring
    rw [hmap, TrainModelThread.hidden]
    by_cases h1 : a ≠ w
    · rw [if_pos h1]
      by_cases h2 : p - w + a < 0
      · rw [if_pos h2, ih, List.filter_cons_of_neg (by simp; intro _ h; omega)]
      · rw [if_neg h2]
        by_cases h3 : len ≤ p - w + a
        · rw [if_pos h3, ih, List.filter_cons_of_neg (by simp; intro _ _ h; omega)]
        · rw [if_neg h3]
          by_cases h4 : sen (p - w + a) = -1
          · rw [if_pos h4, ih, List.filter_cons_of_neg (by simp; intro _ _ _; exact h4)]
          · rw [if_neg h4, ih, List.filter_cons_of_pos (by
              simp only [decide_eq_true_eq]
              exact ⟨by omega, by omega, by omega, h4⟩)]
            rw [List.map_cons, List.foldl_cons, if_pos ⟨hc0, hc1⟩]
    · rw [if_neg h1, ih, List.filter_cons_of_neg (by
        simp only [decide_eq_true_eq]
        intro h; push_neg at h1; omega)]

/-- The positions that the loop of the CBOW step visits, as the positions of
the sentence within the shrunk window around the centre. -/
theorem window_positions (w p len b : Int) (sen : Int → Int) (hbw : b < w)
    (hsen : ∀ x, 0 ≤ x → x < len → sen x ≠ -1) :
    ((List.range (w * 2 + 1 - b - b).toNat).map (fun i : Nat => p - w + b + (i : Int))).filter
        (fun x => decide (x ≠ p ∧ 0 ≤ x ∧ x < len ∧ sen x ≠ -1)) =
      ((List.range len.toNat).filter
        (fun j : Nat => decide ((j : Int) ≠ p ∧ |(j : Int) - p| ≤ w - b))).map (fun j : Nat => (j : Int)) := by
  refine @List.eq_of_perm_of_sorted _ (fun x y : Int => x ≤ y) _ _ _ ?_ ?_ ?_
  · rw [List.perm_ext_iff_of_nodup]
    · intro x
      simp only [List.mem_filter, List.mem_map, List.mem_range, decide_eq_true_eq, abs_le]
      constructor
      · rintro ⟨⟨i, hi, rfl⟩, h1, h2, h3, _⟩
        refine ⟨(p - w + b + i).toNat, ⟨by omega, ?_, ?_⟩, by omega⟩
        · rw [Int.toNat_of_nonneg h2]; exact h1
        · rw [Int.toNat_of_nonneg h2]; omega
      · rintro ⟨j, ⟨hj, h1, h2⟩, rfl⟩
        refine ⟨⟨((j : Int) - (p - w + b)).toNat, by omega, by omega⟩, h1, by omega, by omega,
          hsen _ (by omega) (by omega)⟩
    · apply List.Nodup.filter
      apply (List.nodup_range _).map
      intro i j hij
      simpa using hij
    · apply List.Nodup.map
      · intro i j hij
        simpa using hij
      · exact (List.nodup_range _).filter _
  · apply List.Pairwise.filter
    rw [List.pairwise_map]
    exact (List.pairwise_le_range _).imp (fun h => by omega)
  · rw [List.Sorted, List.pairwise_map]
    exact ((List.pairwise_le_range _).filter _).imp (fun h => by omega)

/-- C20: for every window with `1 ≤ window` (an `int` whose double plus one
does not overflow), every sentence buffer of word ids (no cell below
`sentence_length` holds `-1`) and every centre position `p`, in particular
every `p` with `0 ≤ p < sentence_length`, the offset `b` drawn in a CBOW step satisfies `0 ≤ b <
window`, and every cell `c < layer1_size` of the hidden vector `neu1` built in
that step is the sum, taken in the order of the positions and without
weights, of the cells `c` of the `syn0` rows of the words at exactly the
positions `j` with `0 ≤ j < sentence_length`, `j ≠ p` and
`|j - p| ≤ window - b`. -/
theorem cbow_hidden_sum {R : Type} [Add R] [Zero R]
    (window sentence_position sentence_length layer1_size : Int) (sen : Int → Int)
    (syn0 : Int → R) (next_random : Nat) (hw1 : 1 ≤ window) (hw2 : window < 2 ^ 30)
    (hsen : ∀ x, 0 ≤ x → x < sentence_length → sen x ≠ -1) :
    0 ≤ TrainModelThread.offset window next_random ∧
    TrainModelThread.offset window next_random < window ∧
    ∀ c, 0 ≤ c → c < layer1_size →
      TrainModelThread.cbow window sentence_position sentence_length layer1_size sen syn0
          next_random c =
        List.foldl (fun x y => x + y) 0
          (((List.range sentence_length.toNat).filter (fun j : Nat =>
              decide ((j : Int) ≠ sentence_position ∧
                |(j : Int) - sentence_position| ≤
                  window - TrainModelThread.offset window next_random))).map
            (fun j : Nat => syn0 (c + sen (j : Int) * layer1_size))) := by
  obtain ⟨hb0, hb1⟩ := offset_range window next_random hw1 (by omega)
  refine ⟨hb0, hb1, ?_⟩
  intro c hc0 hc1
  unfold TrainModelThread.cbow
  rw [hidden_spec window sentence_position sentence_length layer1_size sen syn0 c hc0 hc1,
    toInt32_of_range _ (by omega) (by omega),
    window_positions window sentence_position sentence_length _ sen hb1 hsen, List.map_map]
  rfl

/-- C20 with `window = 5`, a sentence of four words, the centre at position
1 and integer cells. -/
theorem cbow_hidden_sum_witness :
    0 ≤ TrainModelThread.offset 5 0 ∧ TrainModelThread.offset 5 0 < 5 ∧
    ∀ c, 0 ≤ c → c < 2 →
      TrainModelThread.cbow 5 1 4 2 (fun x => x + 1) (fun x => (x : Int)) 0 c =
        List.foldl (fun x y => x + y) 0
          (((List.range (4 : Int).toNat).filter (fun j : Nat =>
              decide ((j : Int) ≠ 1 ∧
                |(j : Int) - 1| ≤ 5 - TrainModelThread.offset 5 0))).map
            (fun j : Nat => (fun x => (x : Int)) (c + (fun x => x + 1) (j : Int) * 2))) :=
  cbow_hidden_sum 5 1 4 2 (fun x => x + 1) (fun x => (x : Int)) 0 (by decide) (by decide)
    (by intro x h0 _; show x + 1 ≠ -1; omega)

/-- A node is at most as deep as there are nodes above it. -/
theorem depth_le {n : Nat} {cn : Nat → Int} {t : Tree} (hn : 2 ≤ n)
    (h : TreeInv n cn (n - 1) n (n - 2) t) :
    ∀ k x, x ≤ n * 2 - 2 → n * 2 - 2 - x ≤ k →
      CreateBinaryTree.depth n t (n * 2) x ≤ n * 2 - 2 - x := by
  intro k
  induction k with
  | zero =>
    intro x hx hk
    have : x = n * 2 - 2 := by omega
    rw [this, depth_root]
    exact Nat.zero_le _
  | succ k ih =>
    intro x hx hk
    rcases Nat.eq_or_lt_of_le hx with e | hlt
    · rw [e, depth_root]; exact Nat.zero_le _
    · have hp := h.parent_lt hn x hlt
      have := ih (t.parent_node x) hp.2.1 (by omega)
      rw [depth_parent hn h x hlt]
      omega

/-- A word of a vocabulary of `n ≥ 2` words is at depth at most `n - 1`. -/
theorem depth_leaf_le {n : Nat} {cn : Nat → Int} {t : Tree} (hn : 2 ≤ n)
    (h : TreeInv n cn (n - 1) n (n - 2) t) (a : Nat) (ha : a < n) :
    CreateBinaryTree.depth n t (n * 2) a ≤ n - 1 := by
  have hp := h.parent_lt hn a (by omega)
  have := depth_le hn h (n * 2) (t.parent_node a) hp.2.1 (by omega)
  rw [depth_parent hn h a (by omega)]
  omega

/-- The code of the only word of a vocabulary of one word. -/
theorem CreateBinaryTree_one (s : State) (h1 : s.vocab_size = 1) :
    CreateBinaryTree s = some [⟨1, [0], [-1, -1]⟩] := by
  unfold CreateBinaryTree CreateBinaryTree.tree
  rw [h1]
  rfl

/-- In the embedding, where `code` and `point` are the lists of the cells
written and have no capacity, `CreateBinaryTree` returns for every vocabulary
with counts below `10^15`, and the number of cells that the walk of a word
fills is at least 1 and at most `max (n - 1) 1`, hence at most
`MAX_CODE_LENGTH` when the vocabulary has at most 41 words. -/
theorem CreateBinaryTree_codelen_bound (s : State)
    (hcn : ∀ a, a < s.vocab_size → (s.vocab.getD a default).cn < 10 ^ 15) :
    ∃ cs, CreateBinaryTree s = some cs ∧ cs.length = s.vocab_size ∧
      ∀ a, a < s.vocab_size →
        1 ≤ (cs.getD a default).codelen ∧
        (cs.getD a default).codelen ≤ max (s.vocab_size - 1) 1 ∧
        (cs.getD a default).code.length = (cs.getD a default).codelen ∧
        (s.vocab_size ≤ 41 → (cs.getD a default).codelen ≤ MAX_CODE_LENGTH) := by
  rcases Nat.lt_or_ge s.vocab_size 2 with hlt | hn
  · rcases Nat.eq_zero_or_pos s.vocab_size with h0 | hpos
    · refine ⟨[], ?_, by rw [h0]; rfl, ?_⟩
      · unfold CreateBinaryTree
        rw [h0]
        rfl
      · intro a ha; omega
    · have h1 : s.vocab_size = 1 := by omega
      refine ⟨_, CreateBinaryTree_one s h1, by rw [h1]; rfl, ?_⟩
      intro a ha
      have ha0 : a = 0 := by omega
      rw [ha0, h1]
      exact ⟨by decide, by decide, by decide, fun _ => by decide⟩
  · have hinv := tree_inv s hn hcn
    refine ⟨_, CreateBinaryTree_eq s hn hcn, by simp, ?_⟩
    intro a ha
    rw [getD_map_range _ _ _ _ ha]
    obtain ⟨l1, l2, _⟩ := assign_lengths s.vocab_size (CreateBinaryTree.tree s) a
    rw [l1, l2]
    have hle := depth_leaf_le hn hinv a ha
    have hge := (climb_path hn hinv a (by omega)).2.1
    refine ⟨hge, le_trans hle (le_max_left _ _), rfl, ?_⟩
    intro h41
    unfold MAX_CODE_LENGTH
    omega

/-! ## The comparison of `qsort`, the single-word tree and the learning rate -/

/-- C26: for the entries with the counts `0` and `2^32`, both non-negative
64-bit values, `VocabCompare` returns `0` although the counts differ, and for
the counts `0` and `2^31` it returns a negative value although the first
count is the smaller one: the 64-bit difference loses its upper half when it
is returned as an `int`. -/
theorem VocabCompare_truncates :
    VocabCompare ⟨0, [97]⟩ ⟨4294967296, [98]⟩ = 0 ∧
    VocabCompare ⟨0, [97]⟩ ⟨2147483648, [98]⟩ < 0 := by
  decide

/-- C27: from the file of the word `a` and five newlines, with the default
`min_count = 5`, `LearnVocabFromTrainFile` produces the vocabulary of the
single word `</s>`; on it `CreateBinaryTree` gives the word the code length 1
and `point[0] = -1`, which is no row of `syn1`. -/
theorem CreateBinaryTree_single_word_point :
    (LearnVocabFromTrainFile vocab_hash_size 5 [97, 10, 10, 10, 10, 10]).map
      (fun t => (t.vocab.take t.vocab_size, t.vocab_size, (CreateBinaryTree t).map
        (fun cs => ((cs.getD 0 default).codelen, (cs.getD 0 default).point[0]?)))) =
      some ([⟨5, eos⟩], 1, some (1, some (-1))) := by
  decide!

/-- In a vocabulary of at least two words with counts below `10^15` every
cell `point[d]` with `d < codelen` is the index of a created node less
`vocab_size`, between `0` and `vocab_size - 2`. -/
theorem CreateBinaryTree_point_range (s : State) (hn : 2 ≤ s.vocab_size)
    (hcn : ∀ a, a < s.vocab_size → (s.vocab.getD a default).cn < 10 ^ 15) :
    ∃ cs, CreateBinaryTree s = some cs ∧ cs.length = s.vocab_size ∧
      ∀ a, a < s.vocab_size → ∀ d, d < (cs.getD a default).codelen →
        ∃ p, (cs.getD a default).point[d]? = some p ∧ 0 ≤ p ∧ p ≤ (s.vocab_size : Int) - 2 := by
  have hinv := tree_inv s hn hcn
  refine ⟨_, CreateBinaryTree_eq s hn hcn, by simp, ?_⟩
  intro a ha d
  rw [getD_map_range _ _ _ _ ha, (assign_lengths _ _ a).1]
  intro hd
  cases d with
  | zero => exact ⟨_, assign_point_zero _ _, by omega, by omega⟩
  | succ d =>
    obtain ⟨_, _, _, hbelow⟩ := climb_path hn hinv a (by omega)
    obtain ⟨k, hk⟩ : ∃ k, CreateBinaryTree.depth s.vocab_size (CreateBinaryTree.tree s)
        (s.vocab_size * 2) a - 1 - d = k + 1 := ⟨_, (Nat.succ_pred_eq_of_pos (by omega)).symm⟩
    have hp := hinv.parent_lt hn _ (hbelow k (by omega))
    rw [← Function.iterate_succ_apply' (CreateBinaryTree.tree s).parent_node,
      Nat.succ_eq_add_one, ← hk] at hp
    exact ⟨_, assign_point_succ _ _ a d (by omega), by omega, by omega⟩

/-- C24: over exact rationals, for every starting rate `alpha0 > 0`, every
total `train_words ≥ 0` and every progress count `W ≥ 0`, the recomputed rate,
with `alpha0` as the starting rate in both places, equals
`max (alpha0 * (1 - W / (train_words + 1))) (alpha0 * 0.0001)`; it lies between
`alpha0 * 0.0001` and `alpha0`, and it does not grow when `W` grows. -/
theorem rate_spec (alpha0 : ℚ) (train_words W : Int) (ha : 0 < alpha0) (ht : 0 ≤ train_words)
    (hW : 0 ≤ W) :
    TrainModelThread.rate alpha0 alpha0 W train_words =
        max (alpha0 * (1 - (W : ℚ) / ((train_words : ℚ) + 1))) (alpha0 * (1 / 10000)) ∧
      alpha0 * (1 / 10000) ≤ TrainModelThread.rate alpha0 alpha0 W train_words ∧
      TrainModelThread.rate alpha0 alpha0 W train_words ≤ alpha0 ∧
      ∀ W' : Int, W ≤ W' →
        TrainModelThread.rate alpha0 alpha0 W' train_words ≤
          TrainModelThread.rate alpha0 alpha0 W train_words := by
  have hmax : ∀ V : Int, TrainModelThread.rate alpha0 alpha0 V train_words =
      max (alpha0 * (1 - (V : ℚ) / ((train_words : ℚ) + 1))) (alpha0 * (1 / 10000)) := by
    intro V
    unfold TrainModelThread.rate
    push_cast
    split_ifs with h
    · rw [max_eq_right (le_of_lt h)]
    · rw [max_eq_left (le_of_not_lt h)]
  have hpos : (0 : ℚ) < (train_words : ℚ) + 1 := by
    have : (0 : ℚ) ≤ (train_words : ℚ) := by exact_mod_cast ht
    linarith
  have hWq : (0 : ℚ) ≤ (W : ℚ) := by exact_mod_cast hW
  refine ⟨hmax W, ?_, ?_, ?_⟩
  · rw [hmax]; exact le_max_right _ _
  · rw [hmax]
    apply max_le
    · have : 0 ≤ (W : ℚ) / ((train_words : ℚ) + 1) := div_nonneg hWq (le_of_lt hpos)
      nlinarith
    · nlinarith
  · intro W' hW'
    rw [hmax, hmax]
    apply max_le_max _ (le_refl _)
    have hq : (W : ℚ) ≤ (W' : ℚ) := by exact_mod_cast hW'
    have : (W : ℚ) / ((train_words : ℚ) + 1) ≤ (W' : ℚ) / ((train_words : ℚ) + 1) :=
      div_le_div_of_nonneg_right hq (le_of_lt hpos)
    nlinarith

/-- C24 at the default rate `0.025`, a corpus of `999` words and `250` words
of progress. -/
theorem rate_spec_witness :
    TrainModelThread.rate (1 / 40) (1 / 40) 250 999 =
        max ((1 / 40 : ℚ) * (1 - ((250 : Int) : ℚ) / (((999 : Int) : ℚ) + 1)))
          ((1 / 40 : ℚ) * (1 / 10000)) ∧
      (1 / 40 : ℚ) * (1 / 10000) ≤ TrainModelThread.rate (1 / 40) (1 / 40) 250 999 ∧
      TrainModelThread.rate (1 / 40) (1 / 40) 250 999 ≤ 1 / 40 ∧
      ∀ W' : Int, 250 ≤ W' →
        TrainModelThread.rate (1 / 40) (1 / 40) W' 999 ≤
          TrainModelThread.rate (1 / 40) (1 / 40) 250 999 :=
  rate_spec (1 / 40) 999 250 (by norm_num) (by decide) (by decide)

/-! ## The training step -/

/-- A left-to-right sum over `List.range` as a sum over `Finset.range`. -/
theorem foldl_range_eq_sum (g : Nat → ℚ) :
    ∀ k, (List.range k).foldl (fun f (c : Nat) => f + g c) 0 = ∑ c in Finset.range k, g c := by
  intro k
  induction k with
  | zero => rfl
  | succ k ih =>
    rw [List.range_succ, List.foldl_append, ih, Finset.sum_range_succ]
    rfl

/-- The value `f` of the hierarchical softmax step is the inner product of
the hidden vector with the row. -/
theorem dot_eq_sum (layer1_size : Int) (neu1 syn1 : Int → ℚ) (l2 : Int) :
    TrainModelThread.dot layer1_size neu1 syn1 l2 =
      ∑ c in Finset.range layer1_size.toNat, neu1 (c : Int) * syn1 ((c : Int) + l2) :=
  foldl_range_eq_sum (fun c => neu1 (c : Int) * syn1 ((c : Int) + l2)) _

/-- A cell of another row is no cell of row `point`. -/
theorem other_row (layer1_size point r c : Int) (hr : r ≠ point) (hc0 : 0 ≤ c)
    (hc1 : c < layer1_size) :
    ¬ (0 ≤ c + r * layer1_size - point * layer1_size ∧
      c + r * layer1_size - point * layer1_size < layer1_size) := by
  intro h
  have e : c + r * layer1_size - point * layer1_size = c + (r - point) * layer1_size := by ring
  rw [e] at h
  rcases lt_or_gt_of_ne hr with hlt | hgt
  · have h1 : r - point ≤ -1 := by omega
    have : (r - point) * layer1_size ≤ -1 * layer1_size :=
      Int.mul_le_mul_of_nonneg_right h1 (by omega)
    omega
  · have h1 : 1 ≤ r - point := by omega
    have : 1 * layer1_size ≤ (r - point) * layer1_size :=
      Int.mul_le_mul_of_nonneg_right h1 (by omega)
    omega

/-- C21: one step `d` of the hierarchical softmax loop of a CBOW update, over
exact rationals, with `row` the row `point[d]` of `syn1` and `f` the inner
product of the hidden vector `neu1` with `row`: if `f ≤ -MAX_EXP` or
`f ≥ MAX_EXP` nothing changes; otherwise, with `s` the entry of the sigmoid
table at the index computed from `f` and `g = (1 - code[d] - s) * alpha`,
every cell of `neu1e` grows by `g` times the cell of `row` before the step and
every cell of `row` grows by `g` times the cell of `neu1`; in both cases every
row of `syn1` other than `point[d]` is unchanged. -/
theorem hsStep_spec (expTable : Int → ℚ) (alpha : ℚ) (layer1_size code point : Int)
    (neu1 neu1e syn1 : Int → ℚ) :
    TrainModelThread.dot layer1_size neu1 syn1 (point * layer1_size) =
        ∑ c in Finset.range layer1_size.toNat,
          neu1 (c : Int) * syn1 ((c : Int) + point * layer1_size) ∧
    (TrainModelThread.dot layer1_size neu1 syn1 (point * layer1_size) ≤ -(MAX_EXP : ℚ) ∨
        (MAX_EXP : ℚ) ≤ TrainModelThread.dot layer1_size neu1 syn1 (point * layer1_size) →
      TrainModelThread.hsStep expTable alpha layer1_size code point neu1 neu1e syn1 =
        (neu1e, syn1)) ∧
    (-(MAX_EXP : ℚ) < TrainModelThread.dot layer1_size neu1 syn1 (point * layer1_size) →
        TrainModelThread.dot layer1_size neu1 syn1 (point * layer1_size) < (MAX_EXP : ℚ) →
      ∀ c, 0 ≤ c → c < layer1_size →
        (TrainModelThread.hsStep expTable alpha layer1_size code point neu1 neu1e syn1).1 c =
          neu1e c + ((1 - (code : ℚ) - expTable (TrainModelThread.expIndex
            (TrainModelThread.dot layer1_size neu1 syn1 (point * layer1_size)))) * alpha) *
              syn1 (c + point * layer1_size) ∧
        (TrainModelThread.hsStep expTable alpha layer1_size code point neu1 neu1e syn1).2
            (c + point * layer1_size) =
          syn1 (c + point * layer1_size) + ((1 - (code : ℚ) - expTable
            (TrainModelThread.expIndex
              (TrainModelThread.dot layer1_size neu1 syn1 (point * layer1_size)))) * alpha) *
                neu1 c) ∧
    (∀ r, r ≠ point → ∀ c, 0 ≤ c → c < layer1_size →
      (TrainModelThread.hsStep expTable alpha layer1_size code point neu1 neu1e syn1).2
          (c + r * layer1_size) = syn1 (c + r * layer1_size)) := by
  refine ⟨dot_eq_sum _ _ _ _, ?_, ?_, ?_⟩
  · intro h
    unfold TrainModelThread.hsStep
    rcases h with h | h
    · rw [if_pos h]
    · split_ifs <;> rfl
  · intro h1 h2 c hc0 hc1
    unfold TrainModelThread.hsStep
    rw [if_neg (not_le.mpr h1), if_neg (not_le.mpr h2)]
    constructor
    · simp only
      rw [if_pos ⟨hc0, hc1⟩]
      push_cast
      ring
    · simp only
      have e : c + point * layer1_size - point * layer1_size = c := by ring
      rw [e, if_pos ⟨hc0, hc1⟩]
      push_cast
      ring
  · intro r hr c hc0 hc1
    unfold TrainModelThread.hsStep
    split_ifs
    · rfl
    · rfl
    · simp only
      rw [if_neg (other_row layer1_size point r c hr hc0 hc1)]

/-- C21 with one cell per row, the hidden vector `1/4`, the rows `1/2`, the
bit `1`, the row `1`, the rate `0.025` and the table value `1/2`: `f = 1/8`
lies inside the domain, `g = -1/80`, the cell of `neu1e` becomes `-1/160` and
the cell of row 1 of `syn1` becomes `159/320`. -/
theorem hsStep_spec_witness :
    (TrainModelThread.hsStep (fun _ => 1 / 2) (1 / 40) 1 1 1 (fun _ => 1 / 4) (fun _ => 0)
        (fun _ => 1 / 2)).1 0 = -1 / 160 ∧
    (TrainModelThread.hsStep (fun _ => 1 / 2) (1 / 40) 1 1 1 (fun _ => 1 / 4) (fun _ => 0)
        (fun _ => 1 / 2)).2 1 = 159 / 320 := by
  have h := (hsStep_spec (fun _ => 1 / 2) (1 / 40) 1 1 1 (fun _ => 1 / 4) (fun _ => 0)
    (fun _ => 1 / 2)).2.2.1 (by decide!) (by decide!) 0 (by decide) (by decide)
  constructor
  · rw [h.1]; norm_num
  · have h2 := h.2
    norm_num at h2 ⊢
    rw [h2]

/-- C22: no training step writes `syn0`: the loop `HIDDEN -> IN` of the CBOW
branch has an empty body.  In the CBOW step with hierarchical softmax for the
sentence of the words 1 and 2 with the centre at position 0 (`window = 1`, one
cell per row, cells `1/4` in `syn0` and `1/2` in `syn1`, rate `0.025`, table
value `1/2`) the context word at position 1 is word 2, the hidden-error cell
is `-1/80` after the step, and the cell of row 2 of `syn0` is `1/4` as
before. -/
theorem train_cbow_keeps_syn0 :
    (∀ (cbow hs window sentence_position sentence_length layer1_size : Int) (sen : Int → Int)
        (vocab : List vocab_code) (expTable : Int → ℚ) (alpha : ℚ) (net : Net),
      (TrainModelThread.train cbow hs window sentence_position sentence_length layer1_size sen
        vocab expTable alpha net).syn0 = net.syn0) ∧
    (TrainModelThread.train 1 1 1 0 2 1 (fun i => if i = 0 then 1 else 2)
      [⟨1, [0], [1, -3]⟩, ⟨2, [1, 1], [1, 0, -2]⟩, ⟨2, [1, 0], [1, 0, -1]⟩] (fun _ => 1 / 2)
      (1 / 40) ⟨fun _ => 1 / 4, fun _ => 1 / 2, fun _ => 0, fun _ => 0, 0⟩).neu1e 0 = -1 / 80 ∧
    (TrainModelThread.train 1 1 1 0 2 1 (fun i => if i = 0 then 1 else 2)
      [⟨1, [0], [1, -3]⟩, ⟨2, [1, 1], [1, 0, -2]⟩, ⟨2, [1, 0], [1, 0, -1]⟩] (fun _ => 1 / 2)
      (1 / 40) ⟨fun _ => 1 / 4, fun _ => 1 / 2, fun _ => 0, fun _ => 0, 0⟩).syn0 (0 + 2 * 1)
        = 1 / 4 := by
  refine ⟨?_, by decide!, by decide!⟩
  intro cbow hs window sentence_position sentence_length layer1_size sen vocab expTable alpha net
  unfold TrainModelThread.train
  split_ifs <;> rfl

/-- C23: without `cbow` the training step changes neither `syn0` nor `syn1`:
the branch `train skip-gram` has an empty body.  For the sentence of the words
1 and 2 with the centre at position 0 (one cell per row, cells `1/4` in `syn0`
and `1/2` in `syn1`, rate `0.025`, table value `1/2`) the hierarchical softmax
step for the context word 2, with the row of the centre as hidden vector,
would take the cell of row 1 of `syn1` to `159/320`; after the step it is
`1/2` as before, and so is the cell `1/4` of the centre's row of `syn0`. -/
theorem train_skip_gram_changes_nothing :
    (∀ (hs window sentence_position sentence_length layer1_size : Int) (sen : Int → Int)
        (vocab : List vocab_code) (expTable : Int → ℚ) (alpha : ℚ) (net : Net),
      (TrainModelThread.train 0 hs window sentence_position sentence_length layer1_size sen
        vocab expTable alpha net).syn0 = net.syn0 ∧
      (TrainModelThread.train 0 hs window sentence_position sentence_length layer1_size sen
        vocab expTable alpha net).syn1 = net.syn1) ∧
    (TrainModelThread.hsStep (fun _ => 1 / 2) (1 / 40) 1 1 1 (fun _ => 1 / 4) (fun _ => 0)
      (fun _ => 1 / 2)).2 1 = 159 / 320 ∧
    (TrainModelThread.train 0 1 1 0 2 1 (fun i => if i = 0 then 1 else 2)
      [⟨1, [0], [1, -3]⟩, ⟨2, [1, 1], [1, 0, -2]⟩, ⟨2, [1, 0], [1, 0, -1]⟩] (fun _ => 1 / 2)
      (1 / 40) ⟨fun _ => 1 / 4, fun _ => 1 / 2, fun _ => 0, fun _ => 0, 0⟩).syn1 1 = 1 / 2 ∧
    (TrainModelThread.train 0 1 1 0 2 1 (fun i => if i = 0 then 1 else 2)
      [⟨1, [0], [1, -3]⟩, ⟨2, [1, 1], [1, 0, -2]⟩, ⟨2, [1, 0], [1, 0, -1]⟩] (fun _ => 1 / 2)
      (1 / 40) ⟨fun _ => 1 / 4, fun _ => 1 / 2, fun _ => 0, fun _ => 0, 0⟩).syn0 (0 + 1 * 1)
        = 1 / 4 := by
  refine ⟨?_, by decide!, by decide!, by decide!⟩
  intro hs window sentence_position sentence_length layer1_size sen vocab expTable alpha net
  exact ⟨rfl, rfl⟩

/-! ## The cell of the sentence buffer that the training loop reads -/

/-- C28: from the file of the line `a a a a a` followed by four empty lines,
with the default `min_count = 5`, `LearnVocabFromTrainFile` produces the
vocabulary `</s>` (5), `a` (5) with `train_words = 10`.  On the same file the
training loop of one thread, without subsampling, reads the cells `0 .. 4` of
the sentence of five words and then, once for each empty line, reads
`sen[0]` with `sentence_position = 0` and `sentence_length = 0`: the refill
stored nothing, and the cell still holds word 1 of the sentence before. -/
theorem TrainModelThread_reads_stale_cell :
    (LearnVocabFromTrainFile vocab_hash_size 5
        [97, 32, 97, 32, 97, 32, 97, 32, 97, 10, 10, 10, 10, 10]).map
      (fun s => (s.vocab.take s.vocab_size, s.vocab_size, s.train_words)) =
      some ([⟨5, eos⟩, ⟨5, [97]⟩], 2, 10) ∧
    (LearnVocabFromTrainFile vocab_hash_size 5
        [97, 32, 97, 32, 97, 32, 97, 32, 97, 10, 10, 10, 10, 10]).bind
      (fun s => TrainModelThread.loop vocab_hash_size s false (fun _ _ => false)
        (s.train_words / 1) 20
          ⟨⟨[97, 32, 97, 32, 97, 32, 97, 32, 97, 10, 10, 10, 10, 10], false⟩,
            fun _ => -1, 0, 0, 0, 0⟩) =
      some [(0, 5, 1), (1, 5, 1), (2, 5, 1), (3, 5, 1), (4, 5, 1),
        (0, 0, 1), (0, 0, 1), (0, 0, 1), (0, 0, 1)] := by
  decide!

/-! ## The merge loop on a vocabulary in non-increasing order of count -/

/-- When the leaves are in non-increasing order of count and the created nodes
in non-decreasing order, the block that finds the next smallest node takes a
node whose count is smallest among the nodes not taken before. -/
theorem pick_min (n a l m : Nat) (t : Tree) (hp1 : t.pos1 = (n : Int) - 1 - (l : Int))
    (hp2 : t.pos2 = n + m) (hl : l ≤ n)
    (hleaf : ∀ i j, i ≤ j → j < n → t.count j ≤ t.count i)
    (hnode : ∀ j j', j ≤ j' → j' < a → t.count (n + j) ≤ t.count (n + j')) :
    ∀ y, y < n + a → ¬ CreateBinaryTree.picked n l m y →
      t.count (CreateBinaryTree.pick t).1 ≤ t.count y := by
  intro y hy hny
  simp only [CreateBinaryTree.picked] at hny
  have hnodes : n ≤ y → t.count (n + m) ≤ t.count y := by
    intro h
    have := hnode m (y - n) (by omega) (by omega)
    have e : n + (y - n) = y := by omega
    rw [e] at this
    exact this
  by_cases h1 : 0 ≤ t.pos1
  · have hln : l < n := by rw [hp1] at h1; omega
    have htn : t.pos1.toNat = n - 1 - l := by rw [hp1]; omega
    by_cases h2 : t.count t.pos1.toNat < t.count t.pos2
    · have hpk : (CreateBinaryTree.pick t).1 = n - 1 - l := by
        have h0 : CreateBinaryTree.pick t = (t.pos1.toNat, { t with pos1 := t.pos1 - 1 }) := by
          simp only [CreateBinaryTree.pick, if_pos h1, if_pos h2]
        rw [h0]; exact htn
      rw [hpk]
      rw [htn, hp2] at h2
      rcases Nat.lt_or_ge y n with hyn | hyn
      · exact hleaf y (n - 1 - l) (by omega) (by omega)
      · exact le_trans (le_of_lt h2) (hnodes hyn)
    · have hpk : (CreateBinaryTree.pick t).1 = n + m := by
        have h0 : CreateBinaryTree.pick t = (t.pos2, { t with pos2 := t.pos2 + 1 }) := by
          simp only [CreateBinaryTree.pick, if_pos h1, if_neg h2]
        rw [h0]; exact hp2
      rw [hpk]
      rw [htn, hp2] at h2
      rcases Nat.lt_or_ge y n with hyn | hyn
      · exact le_trans (not_lt.mp h2) (hleaf y (n - 1 - l) (by omega) (by omega))
      · exact hnodes hyn
  · have hln : l = n := by rw [hp1] at h1; omega
    have hpk : (CreateBinaryTree.pick t).1 = n + m := by
      have h0 : CreateBinaryTree.pick t = (t.pos2, { t with pos2 := t.pos2 + 1 }) := by
        simp only [CreateBinaryTree.pick, if_neg h1]
      rw [h0]; exact hp2
    rw [hpk]
    exact hnodes (by omega)

/-- One iteration of the merge loop on a vocabulary in non-increasing order of
non-negative counts with a total below `10^15`: the two nodes chosen are not
yet merged, the first has the smallest count of all nodes not yet merged and
the second the smallest count of the others, and the invariant of the counts
holds again after the iteration. -/
theorem MergeCounts_step (n : Nat) (cn : Nat → Int)
    (hsorted : ∀ i j, i ≤ j → j < n → cn j ≤ cn i)
    (htotal : ∑ x in Finset.range n, cn x < 10 ^ 15)
    (hcn : ∀ x, x < n → cn x < 10 ^ 15)
    (a l m : Nat) (q : Int) (t : Tree) (ha : a + 1 < n)
    (h : TreeInv n cn a l m t) (hc : MergeCounts n cn a q t) :
    ((CreateBinaryTree.chosen t).1 < n + a ∧ (CreateBinaryTree.chosen t).2 < n + a ∧
      (CreateBinaryTree.chosen t).1 ≠ (CreateBinaryTree.chosen t).2 ∧
      t.parent_node (CreateBinaryTree.chosen t).1 = 0 ∧
      t.parent_node (CreateBinaryTree.chosen t).2 = 0 ∧
      (∀ y, y < n + a → t.parent_node y = 0 →
        t.count (CreateBinaryTree.chosen t).1 ≤ t.count y) ∧
      (∀ y, y < n + a → t.parent_node y = 0 → y ≠ (CreateBinaryTree.chosen t).1 →
        t.count (CreateBinaryTree.chosen t).2 ≤ t.count y)) ∧
    ∃ q', MergeCounts n cn (a + 1) q' (CreateBinaryTree.step n a t) := by
  have hcount : ∀ l0, l0 < n → t.count (n - 1 - l0) < t.count (n + a) := by
    intro l0 h0
    rw [h.count_leaf _ (by omega), h.count_new _ (Nat.le_refl _) (by omega)]
    exact hcn _ (by omega)
  obtain ⟨x1, l1, m1, e1, ec1, eb1, ep1, hp1, hq1, ht1, hl1, hm1, hx1, hn1, hP1⟩ :=
    pick_spec n a l m t h.pos1 h.pos2 h.leaves (by have := h.created; have := h.total; omega)
      (by intro h0 hma; rw [hma]; exact hcount l h0)
      (by intro h0; have := h.created; have := h.total; omega)
  obtain ⟨x2, l2, m2, e2, ec2, eb2, ep2, hp2, hq2, ht2, hl2, hm2, hx2, hn2, hP2⟩ :=
    pick_spec n a l1 m1 (CreateBinaryTree.pick t).2 hp1 hq1 hl1 hm1
      (by intro h0 hma; rw [hma, ec1]; exact hcount l1 h0)
      (by intro h0; have := h.total; omega)
  have hleaf : ∀ i j, i ≤ j → j < n → t.count j ≤ t.count i := by
    intro i j hij hj
    rw [h.count_leaf j hj, h.count_leaf i (by omega)]
    exact hsorted i j hij hj
  have hmin1 := pick_min n a l m t h.pos1 h.pos2 h.leaves hleaf hc.sorted
  have hmin2 := pick_min n a l1 m1 (CreateBinaryTree.pick t).2 hp1 hq1 hl1
    (by rw [ec1]; exact hleaf) (by rw [ec1]; exact hc.sorted)
  rw [e1] at hmin1
  rw [e2, ec1] at hmin2
  have hne : x2 ≠ x1 := by
    intro e; apply hn2; rw [hP1]; exact Or.inr e
  have hnP2 : ¬ CreateBinaryTree.picked n l m x2 := by
    intro e; apply hn2; rw [hP1]; exact Or.inl e
  have hchosen : CreateBinaryTree.chosen t = (x1, x2) := by
    simp only [CreateBinaryTree.chosen, e1, e2]
  have hunp : ∀ y, t.parent_node y = 0 → ¬ CreateBinaryTree.picked n l m y := by
    intro y hy hpk
    have := h.parent_picked y hpk
    omega
  have hz1 : t.parent_node x1 = 0 := (h.unpicked x1 hn1).1
  have hz2 : t.parent_node x2 = 0 := (h.unpicked x2 hnP2).1
  have hs1 : ∀ y, y < n + a → t.parent_node y = 0 → t.count x1 ≤ t.count y :=
    fun y hy hy0 => hmin1 y hy (hunp y hy0)
  have hs2 : ∀ y, y < n + a → t.parent_node y = 0 → y ≠ x1 → t.count x2 ≤ t.count y := by
    intro y hy hy0 hyx
    apply hmin2 y hy
    rw [hP1]
    intro hh
    rcases hh with hh | hh
    · exact hunp y hy0 hh
    · exact hyx hh
  have hpar : ∀ y, (CreateBinaryTree.step n a t).parent_node y =
      if y = x2 then n + a else if y = x1 then n + a else t.parent_node y := by
    intro y
    simp only [CreateBinaryTree.step, e1, e2, ep2, ep1, Function.update_apply]
  have hcnt : ∀ y, (CreateBinaryTree.step n a t).count y =
      if y = n + a then toInt64 (t.count x1 + t.count x2) else t.count y := by
    intro y
    simp only [CreateBinaryTree.step, e1, e2, ec2, ec1, Function.update_apply]
  have hq1' : q ≤ t.count x1 := hc.lower x1 hx1 hz1
  have hq2' : q ≤ t.count x2 := hc.lower x2 hx2 hz2
  have hq0 := hc.nonneg
  have h12 : t.count x1 ≤ t.count x2 := hs1 x2 hx2 hz2
  have hterm : ∀ y, y ∈ Finset.range (n + a) →
      (if (CreateBinaryTree.step n a t).parent_node y = 0
        then (CreateBinaryTree.step n a t).count y else 0) =
      (if t.parent_node y = 0 then t.count y else 0) - (if y = x1 then t.count x1 else 0)
        - (if y = x2 then t.count x2 else 0) := by
    intro y hy
    rw [Finset.mem_range] at hy
    rw [hpar, hcnt, if_neg (by omega : ¬ y = n + a)]
    have hna : n + a ≠ 0 := by omega
    by_cases c2 : y = x2
    · rw [c2]
      simp [hz2, hne, hna]
    · by_cases c1 : y = x1
      · rw [c1]
        simp [hz1, hne.symm, hna]
      · simp [c1, c2]
  have hsum : ∑ y in Finset.range (n + a),
      (if (CreateBinaryTree.step n a t).parent_node y = 0
        then (CreateBinaryTree.step n a t).count y else 0) =
      ∑ x in Finset.range n, cn x - t.count x1 - t.count x2 := by
    rw [Finset.sum_congr rfl hterm, Finset.sum_sub_distrib, Finset.sum_sub_distrib, hc.total,
      Finset.sum_ite_eq', Finset.sum_ite_eq', if_pos (Finset.mem_range.mpr hx1),
      if_pos (Finset.mem_range.mpr hx2)]
  have hsum0 : 0 ≤ ∑ y in Finset.range (n + a),
      (if (CreateBinaryTree.step n a t).parent_node y = 0
        then (CreateBinaryTree.step n a t).count y else 0) := by
    apply Finset.sum_nonneg
    intro y hy
    rw [Finset.mem_range] at hy
    by_cases c0 : (CreateBinaryTree.step n a t).parent_node y = 0
    · rw [if_pos c0, hcnt, if_neg (by omega : ¬ y = n + a)]
      rw [hpar] at c0
      split_ifs at c0 with c2 c1
      · omega
      · omega
      · have := hc.lower y hy c0
        omega
    · rw [if_neg c0]
  have hwrap : toInt64 (t.count x1 + t.count x2) = t.count x1 + t.count x2 := by
    apply toInt64_of_range
    · omega
    · rw [hsum] at hsum0
      omega
  have hroot : t.parent_node (n + a) = 0 := by
    apply (h.unpicked (n + a) _).1
    have := h.created
    have := h.total
    simp only [CreateBinaryTree.picked]
    omega
  constructor
  · rw [hchosen]
    exact ⟨hx1, hx2, fun e => hne e.symm, hz1, hz2, hs1, hs2⟩
  · refine ⟨t.count x2, ⟨by omega, ?_, ?_, ?_, ?_⟩⟩
    · intro y hy hy0
      rw [hpar] at hy0
      rw [hcnt]
      by_cases c : y = n + a
      · rw [if_pos c, hwrap]
        omega
      · rw [if_neg c]
        split_ifs at hy0 with c2 c1
        · omega
        · omega
        · exact hs2 y (by omega) hy0 c1
    · intro j hj
      rw [hcnt]
      by_cases c : j = a
      · rw [c, if_pos rfl, hwrap]
        omega
      · rw [if_neg (by omega)]
        have := hc.upper j (by omega)
        omega
    · intro j j' hjj hj'
      rcases Nat.eq_or_lt_of_le hjj with e | hlt
      · rw [e]
      · rw [hcnt, hcnt, if_neg (by omega : ¬ n + j = n + a)]
        by_cases c : j' = a
        · rw [c, if_pos rfl, hwrap]
          have := hc.upper j (by omega)
          omega
        · rw [if_neg (by omega)]
          exact hc.sorted j j' hjj (by omega)
    · have e : n + (a + 1) = (n + a) + 1 := by omega
      rw [e, Finset.sum_range_succ, hsum, hpar, hcnt, if_pos rfl, hwrap,
        if_neg (by omega : ¬ n + a = x2), if_neg (by omega : ¬ n + a = x1), if_pos hroot]
      ring

/-- The invariant of the counts holds before the first iteration. -/
theorem MergeCounts_init (n : Nat) (cn : Nat → Int)
    (hsorted : ∀ i j, i ≤ j → j < n → cn j ≤ cn i) (hlast : 0 ≤ cn (n - 1)) :
    MergeCounts n cn 0 (cn (n - 1)) (CreateBinaryTree.init cn n) := by
  refine ⟨hlast, ?_, ?_, ?_, ?_⟩
  · intro y hy _
    have hy' : y < n := by omega
    simp only [CreateBinaryTree.init, if_pos hy']
    exact hsorted y (n - 1) (by omega) (by omega)
  · intro j hj; omega
  · intro j j' _ hj'; omega
  · apply Finset.sum_congr rfl
    intro y hy
    rw [Finset.mem_range] at hy
    have hy' : y < n := by omega
    simp [CreateBinaryTree.init, hy']

/-- Both invariants hold before every iteration of the merge loop on a
vocabulary in non-increasing order of non-negative counts with a total below
`10^15`. -/
theorem MergeCounts_merge (n : Nat) (cn : Nat → Int)
    (hsorted : ∀ i j, i ≤ j → j < n → cn j ≤ cn i) (hlast : 0 ≤ cn (n - 1))
    (htotal : ∑ x in Finset.range n, cn x < 10 ^ 15)
    (hcn : ∀ x, x < n → cn x < 10 ^ 15) :
    ∀ a, a + 1 ≤ n → ∃ l m q,
      TreeInv n cn a l m (CreateBinaryTree.merge n a (CreateBinaryTree.init cn n)) ∧
      MergeCounts n cn a q (CreateBinaryTree.merge n a (CreateBinaryTree.init cn n)) := by
  intro a
  induction a with
  | zero => intro _; exact ⟨0, 0, _, TreeInv_init n cn, MergeCounts_init n cn hsorted hlast⟩
  | succ a ih =>
    intro ha
    obtain ⟨l, m, q, h, hc⟩ := ih (by omega)
    obtain ⟨l', m', h'⟩ := TreeInv_step n cn hcn a l m (by omega) h
    obtain ⟨_, q', hc'⟩ := MergeCounts_step n cn hsorted htotal hcn a l m q _ (by omega) h hc
    exact ⟨l', m', q', h', hc'⟩

/-- A count of a vocabulary of non-negative counts is at most the total. -/
theorem count_le_total (n : Nat) (cn : Nat → Int) (hnonneg : ∀ x, x < n → 0 ≤ cn x) (x : Nat)
    (hx : x < n) : cn x ≤ ∑ y in Finset.range n, cn y :=
  Finset.single_le_sum (fun y hy => hnonneg y (Finset.mem_range.mp hy)) (Finset.mem_range.mpr hx)

/-- C25: for every vocabulary of at least two words whose counts are
non-negative and in non-increasing order over all ids, id 0 included, and
add up to less than `10^15`: in every iteration `a` of the merge loop of
`CreateBinaryTree` the two nodes chosen are distinct nodes not yet merged
(nodes below `vocab_size + a` without parent link), the first has the smallest
count of all nodes not yet merged and the second the smallest count of all the
others; in the finished tree the counts of the created nodes are
non-decreasing in the order of creation, and the count of the root is the sum
of all word counts. -/
theorem CreateBinaryTree_two_smallest (s : State) (hn : 2 ≤ s.vocab_size)
    (hsorted : ∀ i j, i ≤ j → j < s.vocab_size →
      (s.vocab.getD j default).cn ≤ (s.vocab.getD i default).cn)
    (hnonneg : ∀ a, a < s.vocab_size → 0 ≤ (s.vocab.getD a default).cn)
    (htotal : ∑ a in Finset.range s.vocab_size, (s.vocab.getD a default).cn < 10 ^ 15) :
    (∀ a, a + 1 < s.vocab_size →
      (CreateBinaryTree.chosen (CreateBinaryTree.merge s.vocab_size a (CreateBinaryTree.init
        (fun a => (s.vocab.getD a default).cn) s.vocab_size))).1 < s.vocab_size + a ∧
      (CreateBinaryTree.chosen (CreateBinaryTree.merge s.vocab_size a (CreateBinaryTree.init
        (fun a => (s.vocab.getD a default).cn) s.vocab_size))).2 < s.vocab_size + a ∧
      (CreateBinaryTree.chosen (CreateBinaryTree.merge s.vocab_size a (CreateBinaryTree.init
        (fun a => (s.vocab.getD a default).cn) s.vocab_size))).1 ≠
      (CreateBinaryTree.chosen (CreateBinaryTree.merge s.vocab_size a (CreateBinaryTree.init
        (fun a => (s.vocab.getD a default).cn) s.vocab_size))).2 ∧
      (CreateBinaryTree.merge s.vocab_size a (CreateBinaryTree.init
        (fun a => (s.vocab.getD a default).cn) s.vocab_size)).parent_node
          (CreateBinaryTree.chosen (CreateBinaryTree.merge s.vocab_size a (CreateBinaryTree.init
            (fun a => (s.vocab.getD a default).cn) s.vocab_size))).1 = 0 ∧
      (CreateBinaryTree.merge s.vocab_size a (CreateBinaryTree.init
        (fun a => (s.vocab.getD a default).cn) s.vocab_size)).parent_node
          (CreateBinaryTree.chosen (CreateBinaryTree.merge s.vocab_size a (CreateBinaryTree.init
            (fun a => (s.vocab.getD a default).cn) s.vocab_size))).2 = 0 ∧
      (∀ y, y < s.vocab_size + a →
        (CreateBinaryTree.merge s.vocab_size a (CreateBinaryTree.init
          (fun a => (s.vocab.getD a default).cn) s.vocab_size)).parent_node y = 0 →
        (CreateBinaryTree.merge s.vocab_size a (CreateBinaryTree.init
          (fun a => (s.vocab.getD a default).cn) s.vocab_size)).count
            (CreateBinaryTree.chosen (CreateBinaryTree.merge s.vocab_size a
              (CreateBinaryTree.init (fun a => (s.vocab.getD a default).cn) s.vocab_size))).1 ≤
        (CreateBinaryTree.merge s.vocab_size a (CreateBinaryTree.init
          (fun a => (s.vocab.getD a default).cn) s.vocab_size)).count y) ∧
      (∀ y, y < s.vocab_size + a →
        (CreateBinaryTree.merge s.vocab_size a (CreateBinaryTree.init
          (fun a => (s.vocab.getD a default).cn) s.vocab_size)).parent_node y = 0 →
        y ≠ (CreateBinaryTree.chosen (CreateBinaryTree.merge s.vocab_size a
          (CreateBinaryTree.init (fun a => (s.vocab.getD a default).cn) s.vocab_size))).1 →
        (CreateBinaryTree.merge s.vocab_size a (CreateBinaryTree.init
          (fun a => (s.vocab.getD a default).cn) s.vocab_size)).count
            (CreateBinaryTree.chosen (CreateBinaryTree.merge s.vocab_size a
              (CreateBinaryTree.init (fun a => (s.vocab.getD a default).cn) s.vocab_size))).2 ≤
        (CreateBinaryTree.merge s.vocab_size a (CreateBinaryTree.init
          (fun a => (s.vocab.getD a default).cn) s.vocab_size)).count y)) ∧
    (∀ j j', j ≤ j' → j' + 1 < s.vocab_size →
      (CreateBinaryTree.tree s).count (s.vocab_size + j) ≤
        (CreateBinaryTree.tree s).count (s.vocab_size + j')) ∧
    (CreateBinaryTree.tree s).count (s.vocab_size * 2 - 2) =
      ∑ a in Finset.range s.vocab_size, (s.vocab.getD a default).cn := by
  have hcn : ∀ x, x < s.vocab_size → (s.vocab.getD x default).cn < 10 ^ 15 := fun x hx =>
    lt_of_le_of_lt
      (count_le_total s.vocab_size (fun a => (s.vocab.getD a default).cn) hnonneg x hx) htotal
  have hall := MergeCounts_merge s.vocab_size (fun a => (s.vocab.getD a default).cn) hsorted
    (hnonneg _ (by omega)) htotal hcn
  refine ⟨?_, ?_, ?_⟩
  · intro a ha
    obtain ⟨l, m, q, h, hc⟩ := hall a (by omega)
    exact (MergeCounts_step s.vocab_size _ hsorted htotal hcn a l m q _ ha h hc).1
  · intro j j' hjj hj'
    obtain ⟨l, m, q, h, hc⟩ := hall (s.vocab_size - 1) (by omega)
    exact hc.sorted j j' hjj (by omega)
  · obtain ⟨l, m, q, _, hc⟩ := hall (s.vocab_size - 1) (by omega)
    have hfin := tree_inv s hn hcn
    have htot := hc.total
    have e : s.vocab_size + (s.vocab_size - 1) = (s.vocab_size * 2 - 2) + 1 := by omega
    rw [e, Finset.sum_range_succ] at htot
    have hzero : ∑ y in Finset.range (s.vocab_size * 2 - 2),
        (if (CreateBinaryTree.merge s.vocab_size (s.vocab_size - 1) (CreateBinaryTree.init
            (fun a => (s.vocab.getD a default).cn) s.vocab_size)).parent_node y = 0
          then (CreateBinaryTree.merge s.vocab_size (s.vocab_size - 1) (CreateBinaryTree.init
            (fun a => (s.vocab.getD a default).cn) s.vocab_size)).count y else 0) = 0 := by
      apply Finset.sum_eq_zero
      intro y hy
      have := hfin.parent_lt hn y (Finset.mem_range.mp hy)
      rw [if_neg]
      unfold CreateBinaryTree.tree at this
      omega
    have hroot : (CreateBinaryTree.merge s.vocab_size (s.vocab_size - 1) (CreateBinaryTree.init
        (fun a => (s.vocab.getD a default).cn) s.vocab_size)).parent_node
          (s.vocab_size * 2 - 2) = 0 := by
      have := (hfin.unpicked (s.vocab_size * 2 - 2)
        (by simp only [CreateBinaryTree.picked]; omega)).1
      exact this
    rw [hzero, hroot, if_pos rfl, zero_add] at htot
    exact htot

/-- C25 at the vocabulary `</s>` (10), `a` (5), `b` (1): the created nodes are
in non-decreasing order of count and the root has the count 16. -/
theorem CreateBinaryTree_two_smallest_witness :
    (∀ j j', j ≤ j' → j' + 1 < 3 →
      (CreateBinaryTree.tree ⟨[⟨10, eos⟩, ⟨5, [97]⟩, ⟨1, [98]⟩], 3, fun _ => -1, 1, 0⟩).count
          (3 + j) ≤
        (CreateBinaryTree.tree ⟨[⟨10, eos⟩, ⟨5, [97]⟩, ⟨1, [98]⟩], 3, fun _ => -1, 1, 0⟩).count
          (3 + j')) ∧
    (CreateBinaryTree.tree ⟨[⟨10, eos⟩, ⟨5, [97]⟩, ⟨1, [98]⟩], 3, fun _ => -1, 1, 0⟩).count
        (3 * 2 - 2) =
      ∑ a in Finset.range 3,
        (([⟨10, eos⟩, ⟨5, [97]⟩, ⟨1, [98]⟩] : List vocab_word).getD a default).cn :=
  (CreateBinaryTree_two_smallest ⟨[⟨10, eos⟩, ⟨5, [97]⟩, ⟨1, [98]⟩], 3, fun _ => -1, 1, 0⟩
    (by decide)
    (by
      intro i j hij hj
      have hj3 : j < 3 := hj
      interval_cases j <;> interval_cases i <;> decide)
    (by decide) (by decide)).2

end Word2Vec
